import Mathlib

/-!
# twisterx table API: a shallow embedding of `table_api.cpp`

The operators of `cpp/src/twisterx/table_api.cpp` are translated into pure
functions over an explicit state (the process-wide `table_map` and the number
of UUIDs drawn so far).  A C++ execution that does not return a value
(undefined behaviour such as a null dereference, an out-of-range access or an
integer modulo by zero, and `LOG(FATAL)`, which terminates the process) is an
`Except.error` carrying a `Fault`.

The kernels that `table_api.cpp` calls and that are not part of the sources
are modelled from the specification.  `SortTable`, `HashPartition` and `Union`
follow a kernel status other than `OK` with `LOG(FATAL)`, so their kernels
either return a result or end the execution; the join, concatenate and filter
kernels hand their status back to the operator.  The iteration orders of the
C++ unordered containers are parameters of the operators that iterate them.

The distributed operators are modelled on one worker: what the all-to-all
exchange delivers to the worker is an input of `Shuffle`, and the contract of
the exchange relates the deliveries of all workers to what they inserted.
The exchange itself is modelled from the specification as a protocol
(`AllToAll`).  The CSV reader is a parameter of `ReadCSV`, and the stream that
`PrintToOStream` writes to is the list of the pieces written.
-/

set_option autoImplicit false

namespace twisterx

/-! ## Status -/

/-- Status kinds (`code.cpp` is not part of the sources; the kinds are the
ones the operators name). -/
inductive Code where
  | OK
  | Invalid
  | KeyError
  | IndexError
  | IOError
  | ExecutionError
  | UnknownError
  | NotImplemented
  deriving DecidableEq, Repr

/-- `twisterx::Status`; the message string is not modelled. -/
structure Status where
  code : Code
  deriving DecidableEq, Repr

/-- `Status::OK()`. -/
def Status.OK : Status := ⟨Code.OK⟩

/-- `Status::is_ok`. -/
def Status.is_ok (s : Status) : Bool := s.code == Code.OK

/-- Ways in which a C++ execution ends without returning. -/
inductive Fault where
  | nullDereference
  | outOfRange
  | moduloByZero
  | fatalLog
  deriving DecidableEq, Repr

/-- A computation that either returns or ends in a `Fault`. -/
abbrev Run (α : Type) := Except Fault α

instance instDecidableEqRun {α : Type} [DecidableEq α] : DecidableEq (Run α) := fun a b =>
  match a, b with
  | .ok x, .ok y => if h : x = y then isTrue (by rw [h]) else isFalse (fun e => h (by cases e; rfl))
  | .error x, .error y =>
    if h : x = y then isTrue (by rw [h]) else isFalse (fun e => h (by cases e; rfl))
  | .ok _, .error _ => isFalse (fun e => by cases e)
  | .error _, .ok _ => isFalse (fun e => by cases e)

/-! ## Columnar data model -/

/-- Logical types of a field. -/
inductive DataType where
  | bool
  | int32
  | int64
  | float
  | double
  | utf8
  deriving DecidableEq, Repr

/-- A cell of a column. -/
inductive Value where
  | null
  | int (v : Int)
  | str (v : String)
  deriving DecidableEq, Repr

/-- `arrow::Field`. -/
structure Field where
  name : String
  type : DataType
  deriving DecidableEq, Repr

/-- `arrow::Array`: one contiguous chunk of a column. -/
abbrev Array := List Value

/-- `arrow::ChunkedArray`: the chunks of one column. -/
abbrev ChunkedArray := List Array

/-- A row: one value per field. -/
abbrev Row := List Value

/-- `ChunkedArray::length`: the sum of the chunk lengths. -/
def ChunkedArray.length (c : ChunkedArray) : Nat := (c.map List.length).sum

/-- `ChunkedArray::num_chunks`. -/
def ChunkedArray.num_chunks (c : ChunkedArray) : Nat := List.length c

/-- `ChunkedArray::chunk(i)`. -/
def ChunkedArray.chunk (column : ChunkedArray) (i : Nat) : Run Array :=
  match column[i]? with
  | some a => .ok a
  | none => .error Fault.outOfRange

/-- `arrow::Table`: a schema and one chunked array per column.  As in
`arrow::Table::Make`, nothing relates the schema to the columns. -/
structure Table where
  schema : List Field
  columns : List ChunkedArray
  deriving DecidableEq, Repr

/-- `Table::Make(schema, arrays)`: every array becomes a one-chunk column. -/
def Table.Make (schema : List Field) (arrays : List Array) : Table :=
  ⟨schema, arrays.map (fun a => [a])⟩

/-- `Table::num_columns`: the number of fields of the schema. -/
def Table.num_columns (t : Table) : Nat := t.schema.length

/-- `Table::num_rows`: the length of the first column, 0 without columns. -/
def Table.num_rows (t : Table) : Nat :=
  match t.columns with
  | [] => 0
  | c :: _ => ChunkedArray.length c

/-- `Table::column(i)`. -/
def Table.column (t : Table) (i : Nat) : Run ChunkedArray :=
  match t.columns[i]? with
  | some c => .ok c
  | none => .error Fault.outOfRange

/-- `Table::field(i)`. -/
def Table.field (t : Table) (i : Nat) : Run Field :=
  match t.schema[i]? with
  | some f => .ok f
  | none => .error Fault.outOfRange

/-- Logical cell `i` of a column: the chunks are read as one concatenation. -/
def ChunkedArray.values (c : ChunkedArray) : List Value := c.flatten

/-- Applies `f` to every element and collects the results, `none` as soon as
one is missing. -/
def collect {α β : Type} (f : α → Option β) : List α → Option (List β)
  | [] => some []
  | a :: rest =>
    match f a with
    | none => none
    | some b =>
      match collect f rest with
      | none => none
      | some bs => some (b :: bs)

/-- Logical row `i` of a table, when every column has one. -/
def Table.row? (t : Table) (i : Nat) : Option Row :=
  collect (fun column => (ChunkedArray.values column)[i]?) t.columns

/-- The logical rows of a table, in order. -/
def Table.rows (t : Table) : List Row :=
  (List.range t.num_rows).filterMap (fun i => t.row? i)

/-! ## Table registry -/

/-- The process-wide state: `table_map` (a pointer may be null) and the number
of UUIDs generated so far. -/
structure State where
  table_map : List (String × Option Table)
  uuid_count : Nat
  deriving DecidableEq, Repr

/-- `table_map.find(id)`. -/
def State.find (s : State) (id : String) : Option (Option Table) :=
  (s.table_map.find? (fun p => p.1 == id)).map Prod.snd

/-- `GetTable`: the table under `id`, `none` (NULLPTR) when `id` is absent
(or bound to a null pointer). -/
def GetTable (s : State) (id : String) : Option Table :=
  match s.find id with
  | some t => t
  | none => none

/-- `table_map.insert(pair)`: an existing binding is kept. -/
def State.insert (s : State) (id : String) (t : Option Table) : State :=
  match s.find id with
  | some _ => s
  | none => { s with table_map := s.table_map ++ [(id, t)] }

/-- `PutTable(id, table)`. -/
def PutTable (s : State) (id : String) (t : Table) : State := s.insert id (some t)

/-- `RemoveTable(id)`. -/
def RemoveTable (s : State) (id : String) : State :=
  { s with table_map := s.table_map.filter (fun p => !(p.1 == id)) }

/-- `PutTable(table)`: draws a fresh UUID from the generator `uuid` (the
`k`-th call of `generate_uuid_v4` returns `uuid k`) and inserts under it. -/
def PutTableNew (uuid : Nat → String) (s : State) (t : Table) : String × State :=
  let id := uuid s.uuid_count
  (id, PutTable { s with uuid_count := s.uuid_count + 1 } id t)

/-! ## Kernels -/

/-- A loop that runs `f` on every element in order and collects the results;
the first fault ends it. -/
def forEach {α β : Type} (f : α → Run β) : List α → Run (List β)
  | [] => .ok []
  | a :: rest =>
    match f a with
    | .error e => .error e
    | .ok b =>
      match forEach f rest with
      | .error e => .error e
      | .ok bs => .ok (b :: bs)

/-- An unchecked read `data[i]`. -/
def Array.at (data : Array) (i : Nat) : Run Value :=
  match data[i]? with
  | some v => .ok v
  | none => .error Fault.outOfRange

/-- Order used by the sort kernel: integers by value, before strings, before
nulls. -/
def Value.le : Value → Value → Bool
  | .int a, .int b => decide (a ≤ b)
  | .int _, _ => true
  | .str _, .int _ => false
  | .str a, .str b => decide (a ≤ b)
  | .str _, .null => true
  | .null, .null => true
  | .null, _ => false

/-- Modelled from the spec: the sort-indices kernel (`SortIndices`, declared in
`arrow/arrow_kernels.hpp`, is not part of the sources).  It returns the row
indices of the array in non-decreasing order of value, equal values keeping
their input order. -/
def SortIndices (values : Array) : Run (List Nat) :=
  .ok (((values.enum).insertionSort (fun a b => Value.le a.2 b.2 = true)).map Prod.fst)

/-- Modelled from the spec: take-by-indices (`util::copy_array_by_indices`,
declared in `util/arrow_utils.hpp`, is not part of the sources).  The result
holds `data[i]` for each `i` of the index vector, in order.  The kernel reads
the vector through its pointer, so a null vector is a null dereference; an
index outside the array is an out-of-range read. -/
def copy_array_by_indices (indices : Option (List Nat)) (data : Array) : Run Array :=
  match indices with
  | none => .error Fault.nullDereference
  | some idx => forEach (fun i => Array.at data i) idx

/-! ## SortTable -/

/-- The copy loop of `SortTable`: chunk 0 of every column is copied with a null
index vector. -/
def SortTableCopyColumns (copy : Option (List Nat) → Array → Run Array) (table : Table) :
    Run (List Array) :=
  forEach (fun column => do
    let chunk0 ← ChunkedArray.chunk column 0
    copy none chunk0) table.columns

/-- `SortTable`, with the two kernels it calls as parameters.  The indices
returned by the sort kernel are bound to `indexSorts` and not used again:
every column is copied with a null index vector. -/
def SortTableWith (sortIndices : Array → Run (List Nat))
    (copy : Option (List Nat) → Array → Run Array)
    (s : State) (id sortedTableId : String) (columnIndex : Nat) : Run (Status × State) :=
  match GetTable s id with
  | none => .error Fault.fatalLog
  | some table => do
    let column ← table.column columnIndex
    let col ← column.chunk 0
    let _indexSorts ← sortIndices col
    let data_arrays ← SortTableCopyColumns copy table
    let sortedTable := Table.Make table.schema data_arrays
    pure (Status.OK, PutTable s sortedTableId sortedTable)

/-- `SortTable` with the kernels of the library. -/
def SortTable (s : State) (id sortedTableId : String) (columnIndex : Nat) :
    Run (Status × State) :=
  SortTableWith SortIndices copy_array_by_indices s id sortedTableId columnIndex

/-! ## HashPartition -/

/-- Modelled from the spec: the partition vector (`HashPartitionArrays`,
declared in `arrow/arrow_partition_kernels.hpp`, is not part of the sources).
For every row index below `length` the values of the key arrays at that index
are hashed together by `combined_hash` and the row is given the partition at
position `hash mod P` of the partition list. -/
def HashPartitionArrays (combined_hash : List Value → Nat) (arrays : List Array)
    (length : Nat) (partitions : List Nat) : Run (List Nat) :=
  forEach (fun index => do
    let keys ← forEach (fun a => Array.at a index) arrays
    match partitions[combined_hash keys % partitions.length]? with
    | some p => Except.ok p
    | none => Except.error Fault.moduloByZero) (List.range length)

/-- Modelled from the spec: the split kernel (`ArrowArraySplitKernel::Split`,
declared in `arrow/arrow_partition_kernels.hpp`, is not part of the sources).
It reads `values[i]` for every index of the partition vector and returns, for
each target, the values of the rows assigned to it, in their original
order. -/
def Split (values : Array) (partitions : List Nat) (targets : List Nat) :
    Run (List (Nat × Array)) := do
  let cells ← forEach (fun i => Array.at values i) (List.range partitions.length)
  pure (targets.map (fun t =>
    (t, ((cells.zip partitions).filter (fun x => x.2 == t)).map Prod.fst)))

/-- The loop of `HashPartition` over `hash_columns`: collects chunk 0 of every
key column and tracks `length`; `none` is the `IndexError` return. -/
def HashPartitionKeys (left_tab : Table) :
    List Nat → List Array → Nat → Run (Option (List Array × Nat))
  | [], arrays, length => .ok (some (arrays, length))
  | col_index :: rest, arrays, length =>
    match left_tab.column col_index with
    | .error e => .error e
    | .ok column =>
      match column.chunk 0 with
      | .error e => .error e
      | .ok array =>
        if !(length == 0 || length == ChunkedArray.length column) then .ok none
        else HashPartitionKeys left_tab rest (arrays ++ [array]) (ChunkedArray.length column)

/-- The partition vector `outPartitions` of `HashPartition`: the key loop
followed by `HashPartitionArrays`; `none` is the `IndexError` return. -/
def HashPartitionVector (combined_hash : List Value → Nat) (left_tab : Table)
    (hash_columns : List Nat) (no_of_partitions : Nat) : Run (Option (List Nat)) :=
  match HashPartitionKeys left_tab hash_columns [] 0 with
  | .error e => .error e
  | .ok none => .ok none
  | .ok (some (arrays, length)) =>
    match HashPartitionArrays combined_hash arrays length (List.range no_of_partitions) with
    | .error e => .error e
    | .ok outPartitions => .ok (some outPartitions)

/-- The loop of `HashPartition` over the columns: chunk 0 of every column is
split by the partition vector. -/
def HashPartitionSplit (left_tab : Table) (outPartitions : List Nat) (partitions : List Nat) :
    Run (List (List (Nat × Array))) :=
  forEach (fun i => do
    let column ← left_tab.column i
    let array ← column.chunk 0
    Split array outPartitions partitions) (List.range left_tab.num_columns)

/-- The map `data_arrays` of `HashPartition` once every column is split: for
each partition, its array of every column, in column order. -/
def HashPartitionDataArrays (partitions : List Nat) (splits : List (List (Nat × Array))) :
    List (Nat × List Array) :=
  partitions.map (fun t => (t, splits.filterMap (fun splited_arrays => splited_arrays.lookup t)))

/-- The last loop of `HashPartition`: one table per entry of `data_arrays`,
registered under a fresh UUID and recorded in `out`. -/
def HashPartitionRegister (uuid : Nat → String) (schema : List Field) :
    List (Nat × List Array) → State → List (Nat × String) → List (Nat × String) × State
  | [], s, out => (out, s)
  | (t, arrays) :: rest, s, out =>
    let r := PutTableNew uuid s (Table.Make schema arrays)
    HashPartitionRegister uuid schema rest r.2
      (if out.any (fun x => x.1 == t) then out else out ++ [(t, r.1)])

/-- `HashPartition`.  `combined_hash` is the row hash of the partition kernel,
`uuid` the UUID generator and `mapOrder` the iteration order of the unordered
map `data_arrays`.  The result is the status, the map `out` and the state. -/
def HashPartition (combined_hash : List Value → Nat) (uuid : Nat → String)
    (mapOrder : List (Nat × List Array) → List (Nat × List Array))
    (s : State) (id : String) (hash_columns : List Nat) (no_of_partitions : Nat) :
    Run (Status × List (Nat × String) × State) :=
  match GetTable s id with
  | none => .error Fault.nullDereference
  | some left_tab =>
    let partitions := List.range no_of_partitions
    match HashPartitionVector combined_hash left_tab hash_columns no_of_partitions with
    | .error e => .error e
    | .ok none => .ok (⟨Code.IndexError⟩, [], s)
    | .ok (some outPartitions) =>
      match HashPartitionSplit left_tab outPartitions partitions with
      | .error e => .error e
      | .ok splits =>
        let data_arrays := HashPartitionDataArrays partitions splits
        let r := HashPartitionRegister uuid left_tab.schema (mapOrder data_arrays) s []
        .ok (Status.OK, r.1, r.2)

/-! ## Union -/

/-- A row address of the union set: the table side (0 left, 1 right) and the
row index. -/
abbrev RowAddr := Nat × Nat

/-- `tables[side]` for the array `{ltab, rtab}`. -/
def unionTable (ltab rtab : Table) (side : Nat) : Table := if side = 0 then ltab else rtab

/-- Modelled from the spec: how the row kernels (`RowHashingKernel::Hash` and
`TableRowComparator::compare`, built over the fields of the left table, not
part of the sources) read a row: cell `row` of chunk 0 of every column below
`fields`. -/
def kernelRow (fields : Nat) (table : Table) (row : Nat) : Run Row :=
  forEach (fun c => do
    let column ← table.column c
    let array ← column.chunk 0
    Array.at array row) (List.range fields)

/-- The row of a record as the hash and the comparator of the set read it. -/
def recordRow (ltab rtab : Table) (record : RowAddr) : Run Row :=
  kernelRow ltab.num_columns (unionTable ltab rtab record.1) record.2

/-- `rows_set.insert(record)` on the unordered set, kept here in insertion
order.  The hash of the new record is computed (the row is read); the record
is dropped when the set holds a record whose row compares equal on all
fields.  Modelled from the spec: equal rows have equal hashes. -/
def rowsSetInsert (ltab rtab : Table) (rows_set : List RowAddr) (record : RowAddr) :
    Run (List RowAddr) :=
  match recordRow ltab rtab record with
  | .error e => .error e
  | .ok row =>
    if rows_set.any (fun other => decide (recordRow ltab rtab other = .ok row))
    then .ok rows_set
    else .ok (rows_set ++ [record])

/-- The insertion loop of `Union` over the row indices, with the modulo of the
progress log at the end of every iteration. -/
def UnionInsertLoop (ltab rtab : Table) (print_threshold : Nat) :
    List Nat → List RowAddr → Run (List RowAddr)
  | [], rows_set => .ok rows_set
  | row :: rest, rows_set =>
    match (if row < ltab.num_rows then rowsSetInsert ltab rtab rows_set (0, row)
           else .ok rows_set) with
    | .error e => .error e
    | .ok set1 =>
      match (if row < rtab.num_rows then rowsSetInsert ltab rtab set1 (1, row)
             else .ok set1) with
      | .error e => .error e
      | .ok set2 =>
        if print_threshold = 0 then .error Fault.moduloByZero
        else UnionInsertLoop ltab rtab print_threshold rest set2

/-- The field loop of `Union`: `false` when some pair of fields at the same
position differs in type. -/
def UnionFieldsMatch (ltab rtab : Table) : List Nat → Run Bool
  | [] => .ok true
  | fd :: rest =>
    match ltab.field fd, rtab.field fd with
    | .ok lf, .ok rf => if lf.type = rf.type then UnionFieldsMatch ltab rtab rest else .ok false
    | .error e, _ => .error e
    | _, .error e => .error e

/-- `indices_from_tabs[side]`: the row indices of the records of one side, in
the iteration order of the set. -/
def indicesFromTab (records : List RowAddr) (side : Nat) : List Nat :=
  (records.filter (fun pr => pr.1 == side)).map Prod.snd

/-- The loop of `Union` that prepares the final arrays: for every column the
surviving rows of the left table, then those of the right table, as the two
chunks of the output column. -/
def UnionFinalArrays (ltab rtab : Table) (records : List RowAddr) : Run (List ChunkedArray) :=
  forEach (fun c =>
    forEach (fun tab_idx => do
      let column ← (unionTable ltab rtab tab_idx).column c
      let array ← column.chunk 0
      copy_array_by_indices (some (indicesFromTab records tab_idx)) array) [0, 1])
    (List.range ltab.num_columns)

/-- `Union`.  `setOrder` is the iteration order of the unordered set, as a
function of the two tables and of the records in insertion order. -/
def Union (setOrder : Table → Table → List RowAddr → List RowAddr)
    (s : State) (table_left table_right dest_id : String) : Run (Status × State) :=
  match GetTable s table_left, GetTable s table_right with
  | some ltab, some rtab =>
    if ltab.num_columns ≠ rtab.num_columns then .ok (⟨Code.Invalid⟩, s)
    else
      match UnionFieldsMatch ltab rtab (List.range ltab.num_columns) with
      | .error e => .error e
      | .ok false => .ok (⟨Code.Invalid⟩, s)
      | .ok true =>
        let max := Nat.max ltab.num_rows rtab.num_rows
        let print_threshold := max / 10
        match UnionInsertLoop ltab rtab print_threshold (List.range max) [] with
        | .error e => .error e
        | .ok rows_set =>
          match UnionFinalArrays ltab rtab (setOrder ltab rtab rows_set) with
          | .error e => .error e
          | .ok final_data_arrays =>
            .ok (Status.OK, PutTable s dest_id ⟨ltab.schema, final_data_arrays⟩)
  | _, _ => .error Fault.nullDereference

/-! ## Properties of rows -/

/-- The rows are non-decreasing on column `c` (in the order of the sort
kernel). -/
def NonDecreasingOn (c : Nat) (rows : List Row) : Prop :=
  rows.Pairwise (fun a b => ∀ x y, a[c]? = some x → b[c]? = some y → Value.le x y = true)

/-- The two-column table `[(1, 2), (2, 1)]`. -/
def sortExampleTable : Table :=
  ⟨[⟨"a", DataType.int64⟩, ⟨"b", DataType.int64⟩],
   [[[Value.int 1, Value.int 2]], [[Value.int 2, Value.int 1]]]⟩

/-- A state holding `sortExampleTable` under the id `t`. -/
def sortExampleState : State := ⟨[("t", some sortExampleTable)], 0⟩

/-- A copy kernel that hands back its input whatever the indices are. -/
def copyWhole (_ : Option (List Nat)) (data : Array) : Run Array := .ok data

/-- Two schemas are compatible when their fields agree pairwise by type; the
field names play no part. -/
def SchemaCompatible (ltab rtab : Table) : Prop :=
  ltab.schema.map Field.type = rtab.schema.map Field.type

instance instDecidableSchemaCompatible (ltab rtab : Table) :
    Decidable (SchemaCompatible ltab rtab) := by
  unfold SchemaCompatible; infer_instance

/-- The insertion order of the set taken as its iteration order. -/
def insertionOrder (_ _ : Table) (records : List RowAddr) : List RowAddr := records

/-- A table whose two key columns have the lengths 0 and 1. -/
def raggedTable : Table :=
  ⟨[⟨"a", DataType.int64⟩, ⟨"b", DataType.int64⟩], [[[]], [[Value.int 7]]]⟩

/-- A state holding `raggedTable` under the id `t`. -/
def raggedState : State := ⟨[("t", some raggedTable)], 0⟩

/-- An empty table with the fields `x : int64`, `y : utf8`. -/
def emptyXY : Table := ⟨[⟨"x", DataType.int64⟩, ⟨"y", DataType.utf8⟩], [[[]], [[]]]⟩

/-- An empty table with the fields `u : int64`, `v : utf8`. -/
def emptyUV : Table := ⟨[⟨"u", DataType.int64⟩, ⟨"v", DataType.utf8⟩], [[[]], [[]]]⟩

/-- A state holding `emptyXY` under `l` and `emptyUV` under `r`. -/
def namesState : State := ⟨[("l", some emptyXY), ("r", some emptyUV)], 0⟩

/-- Cell `row` of chunk 0 of column `k`: the value the partition kernel hashes
for a key column `k`. -/
def keyCell (table : Table) (k row : Nat) : Option Value :=
  match table.column k with
  | .error _ => none
  | .ok column =>
    match column.chunk 0 with
    | .error _ => none
    | .ok array => array[row]?

/-- Rows `i` and `j` are equal on all the key columns `hash_columns`. -/
def SameKey (table : Table) (hash_columns : List Nat) (i j : Nat) : Prop :=
  ∀ k ∈ hash_columns, keyCell table k i = keyCell table k j

instance instDecidableSameKey (table : Table) (hash_columns : List Nat) (i j : Nat) :
    Decidable (SameKey table hash_columns i j) := by
  unfold SameKey; infer_instance

/-- A hash that adds up the integer cells of a key. -/
def sumHash (key : List Value) : Nat :=
  (key.map (fun v => match v with
    | Value.int n => n.toNat
    | _ => 0)).sum

/-- A one-column table with the keys 4, 7, 4. -/
def keysTable : Table := ⟨[⟨"k", DataType.int64⟩], [[[Value.int 4, Value.int 7, Value.int 4]]]⟩

/-- The records the insertion loop of `Union` offers to the set, in order: for
every row index the left record, then the right record. -/
def lockstepRecords (nl nr : Nat) : List Nat → List RowAddr
  | [] => []
  | row :: rest =>
    (if row < nl then [(0, row)] else []) ++
      ((if row < nr then [(1, row)] else []) ++ lockstepRecords nl nr rest)

/-- What a sequence of insertions leaves in a set `acc` kept in insertion
order: an element is appended unless an element with the same key is there. -/
def keepFirst {α κ : Type} [DecidableEq κ] (key : α → κ) : List α → List α → List α
  | [], acc => acc
  | a :: l, acc =>
    keepFirst key l (if acc.any (fun b => decide (key b = key a)) then acc else acc ++ [a])

/-- The row of a record, empty when the kernels cannot read it. -/
def recordValue (ltab rtab : Table) (record : RowAddr) : Row :=
  match recordRow ltab rtab record with
  | .ok row => row
  | .error _ => []

/-- The records in the order of the output rows: the left side, then the
right side, each in the iteration order of the set. -/
def outputRecords (records : List RowAddr) : List RowAddr :=
  records.filter (fun pr => pr.1 == 0) ++ records.filter (fun pr => pr.1 == 1)

/-- An iteration order of the unordered set is admissible when it lists the
records of the set, each once. -/
def ValidSetOrder (setOrder : Table → Table → List RowAddr → List RowAddr) : Prop :=
  ∀ ltab rtab records, (setOrder ltab rtab records).Perm records

/-- A table as the readers and the operators leave it: as many columns as
fields, every column one chunk, all chunks of the same length. -/
def SingleChunk (t : Table) : Prop :=
  t.columns.length = t.schema.length ∧
    ∀ column ∈ t.columns, ∃ a : Array, column = [a] ∧ a.length = t.num_rows

instance instDecidableSingleChunk (t : Table) : Decidable (SingleChunk t) := by
  unfold SingleChunk
  have : ∀ column : ChunkedArray,
      Decidable (∃ a : Array, column = [a] ∧ a.length = t.num_rows) := fun column =>
    match column with
    | [a] =>
      if h : a.length = t.num_rows then isTrue ⟨a, rfl, h⟩
      else isFalse (fun ⟨b, hb, hl⟩ => h (by cases hb; exact hl))
    | [] => isFalse (fun ⟨b, hb, _⟩ => by cases hb)
    | _ :: _ :: _ => isFalse (fun ⟨b, hb, _⟩ => by cases hb)
  infer_instance

/-- The call handed the table `out` to `PutTable(d, out)`: the state after is
the state before with that insertion, so `out` is the table under `d` when `d`
was free. -/
def Registers (s s' : State) (d : String) (out : Table) : Prop :=
  s' = PutTable s d out ∧ (s.find d = none → GetTable s' d = some out)

/-- The records that `Union` keeps for two tables, in insertion order. -/
def unionSurvivors (ltab rtab : Table) : List RowAddr :=
  keepFirst (recordRow ltab rtab)
    (lockstepRecords ltab.num_rows rtab.num_rows
      (List.range (Nat.max ltab.num_rows rtab.num_rows))) []

/-- A one-column table of integers in one chunk. -/
def intTable (values : List Int) : Table :=
  ⟨[⟨"x", DataType.int64⟩], [[values.map Value.int]]⟩

/-- Ten rows, the value 1 twice. -/
def tenRows : Table := intTable [0, 1, 1, 3, 4, 5, 6, 7, 8, 9]

/-- Two rows, one of them the value 1. -/
def twoRows : Table := intTable [1, 2]

/-- A state holding `tenRows` under `l` and `twoRows` under `r`. -/
def unionState : State := ⟨[("l", some tenRows), ("r", some twoRows)], 0⟩

/-- Ten rows held in two chunks of nine rows and one row. -/
def twoChunks : Table :=
  ⟨[⟨"x", DataType.int64⟩],
   [[[0, 1, 2, 3, 4, 5, 6, 7, 8].map Value.int, [Value.int 9]]]⟩

/-- An empty one-column table. -/
def noRows : Table := intTable []

/-- A state holding `twoChunks` under `l` and `noRows` under `r`. -/
def chunkedState : State := ⟨[("l", some twoChunks), ("r", some noRows)], 0⟩

/-- The order in which the insertion loop of `Union` offers the records:
by row index, the left record before the right record of the same index. -/
def lockstepBefore (b a : RowAddr) : Prop := b.2 < a.2 ∨ (b.2 = a.2 ∧ b.1 < a.1)

/-- The records of the two tables: side 0 with a row index of the left table,
side 1 with a row index of the right table. -/
def validRecord (ltab rtab : Table) (a : RowAddr) : Prop :=
  a.1 = 0 ∧ a.2 < ltab.num_rows ∨ a.1 = 1 ∧ a.2 < rtab.num_rows

/-- The layout the specification describes: the first occurrence of every
distinct row of the left table, then the first occurrence of every row of the
right table that the left table does not hold. -/
def firstOccurrenceLayout (left right : List Row) : List Row :=
  keepFirst (fun r => r) (left ++ right) []

/-- The example of the specification: `[(1,a),(2,b),(2,b)]`. -/
def specLeft : Table :=
  ⟨[⟨"id", DataType.int64⟩, ⟨"name", DataType.utf8⟩],
   [[[Value.int 1, Value.int 2, Value.int 2]], [[Value.str "a", Value.str "b", Value.str "b"]]]⟩

/-- The example of the specification: `[(2,b),(3,c)]`. -/
def specRight : Table :=
  ⟨[⟨"id", DataType.int64⟩, ⟨"name", DataType.utf8⟩],
   [[[Value.int 2, Value.int 3]], [[Value.str "b", Value.str "c"]]]⟩

/-- A state holding `specLeft` under `l` and `specRight` under `r`. -/
def specState : State := ⟨[("l", some specLeft), ("r", some specRight)], 0⟩

/-- The rows given to partition `p` by the partition vector `pv`, in their
original order. -/
def partitionRows (rows : List Row) (pv : List Nat) (p : Nat) : List Row :=
  ((rows.zip pv).filter (fun x => x.2 == p)).map Prod.fst

/-- The rows of the partitions `0, ..., P - 1` one after the other. -/
def concatPartitions (rows : List Row) (pv : List Nat) (P : Nat) : List Row :=
  ((List.range P).map (fun p => partitionRows rows pv p)).flatten

/-- The UUIDs drawn from the state `s` on are new: pairwise different and not
registered. -/
def FreshUuids (uuid : Nat → String) (s : State) : Prop :=
  (∀ i j, s.uuid_count ≤ i → i < j → uuid i ≠ uuid j) ∧
    ∀ i, s.uuid_count ≤ i → s.find (uuid i) = none

/-- An iteration order of the unordered map `data_arrays` is admissible when
it lists the entries of the map, each once. -/
def ValidMapOrder (mapOrder : List (Nat × List Array) → List (Nat × List Array)) : Prop :=
  ∀ entries, (mapOrder entries).Perm entries

/-- Chunk 0 of column `k`, empty when there is none. -/
def firstChunk (t : Table) (k : Nat) : Array :=
  ((t.columns[k]?).bind (fun column => column[0]?)).getD []

/-- The cells of an array given to partition `p` by the partition vector. -/
def partitionCells (a : Array) (pv : List Nat) (p : Nat) : Array :=
  ((a.zip pv).filter (fun x => x.2 == p)).map Prod.fst

/-- The UUID generator `u0, u1, ...`. -/
def countingUuid (n : Nat) : String := String.mk (List.replicate (n + 1) 'u')

/-- The iteration order of `data_arrays` that follows the partition index. -/
def indexOrder (entries : List (Nat × List Array)) : List (Nat × List Array) := entries

/-- Two rows in two chunks of one row. -/
def twoChunkRows : Table := ⟨[⟨"x", DataType.int64⟩], [[[Value.int 1], [Value.int 2]]]⟩

/-- A state holding `twoChunkRows` under `t`. -/
def twoChunkState : State := ⟨[("t", some twoChunkRows)], 0⟩

/-- A state holding `keysTable` under `t`. -/
def keysState : State := ⟨[("t", some keysTable)], 0⟩

/-! ## JoinTables -/

/-- The join kinds of `JoinConfig`. -/
inductive JoinType where
  | INNER
  | LEFT
  | RIGHT
  | FULL
  deriving DecidableEq, Repr

/-- The join algorithms of `JoinConfig`. -/
inductive JoinAlgorithm where
  | SORT
  | HASH
  deriving DecidableEq, Repr

/-- `join::config::JoinConfig`: the key column of either side, the kind and
the algorithm. -/
structure JoinConfig where
  left_column_index : Nat
  right_column_index : Nat
  kind : JoinType
  algorithm : JoinAlgorithm
  deriving DecidableEq, Repr

/-- The local join kernel `join::joinTables` as the operators see it: given
the two tables and the configuration it either ends the execution or returns
its status together with what it left in the output pointer (`none` is a null
pointer). -/
abbrev JoinKernel := Table → Table → JoinConfig → Run (Status × Option Table)

/-- The call `join::joinTables(left, right, ...)` on two pointers: the kernel
reads both tables, so a null pointer is a null dereference. -/
def callJoin (join : JoinKernel) (left right : Option Table) (join_config : JoinConfig) :
    Run (Status × Option Table) :=
  match left, right with
  | some l, some r => join l r join_config
  | _, _ => .error Fault.nullDereference

/-- `JoinTables`.  `join` is the local join kernel. -/
def JoinTables (join : JoinKernel) (s : State) (table_left table_right : String)
    (join_config : JoinConfig) (dest_id : String) : Run (Status × State) :=
  let left := GetTable s table_left
  let right := GetTable s table_right
  match left with
  | none => .ok (⟨Code.KeyError⟩, s)
  | some l =>
    match right with
    | none => .ok (⟨Code.KeyError⟩, s)
    | some r =>
      match join l r join_config with
      | .error e => .error e
      | .ok (status, table) => .ok (status, s.insert dest_id table)

/-! ## Merge -/

/-- The schema comparison of `ConcatenateTables`: the schema of every table
after the first is compared with the first schema, in order. -/
def ConcatenateTablesCheck (first_schema : List Field) : List (Option Table) → Run Bool
  | [] => .ok true
  | none :: _ => .error Fault.nullDereference
  | some t :: rest =>
    if t.schema = first_schema then ConcatenateTablesCheck first_schema rest else .ok false

/-- Column `i` of one table of `ConcatenateTables`, read through the pointer
to the table. -/
def ConcatenateTablesChunks (i : Nat) (table : Option Table) : Run ChunkedArray :=
  match table with
  | none => .error Fault.nullDereference
  | some t => t.column i

/-- The columns of `ConcatenateTables`: column `i` of the result holds the
chunks of column `i` of every table, in table order. -/
def ConcatenateTablesColumn (tables : List (Option Table)) (i : Nat) : Run ChunkedArray :=
  match forEach (ConcatenateTablesChunks i) tables with
  | .error e => .error e
  | .ok chunks => .ok chunks.flatten

/-- Modelled from the spec: the concatenate kernel (`arrow::ConcatenateTables`,
of the columnar library, is not part of the sources).  An empty list and a
table whose schema differs from the first one are refused with `Invalid`;
otherwise the result has the first schema and, column by column, the chunks of
all tables in list order.  The tables are read through their pointers. -/
def ConcatenateTables (tables : List (Option Table)) : Run (Except Status Table) :=
  match tables with
  | [] => .ok (.error ⟨Code.Invalid⟩)
  | none :: _ => .error Fault.nullDereference
  | some first :: rest =>
    match ConcatenateTablesCheck first.schema rest with
    | .error e => .error e
    | .ok false => .ok (.error ⟨Code.Invalid⟩)
    | .ok true =>
      match forEach (ConcatenateTablesColumn tables) (List.range first.num_columns) with
      | .error e => .error e
      | .ok columns => .ok (.ok ⟨first.schema, columns⟩)

/-- Modelled from the spec: the combine kernel (`arrow::Table::CombineChunks`,
of the columnar library, is not part of the sources).  A column of more than
one chunk becomes one chunk holding the same cells; a column of at most one
chunk is kept. -/
def CombineChunks (t : Table) : Table :=
  ⟨t.schema, t.columns.map (fun column =>
    if ChunkedArray.num_chunks column ≤ 1 then column else [ChunkedArray.values column])⟩

/-- `Merge`. -/
def Merge (s : State) (table_ids : List String) (merged_tab : String) : Run (Status × State) :=
  let tables := table_ids.map (fun id => GetTable s id)
  match ConcatenateTables tables with
  | .error e => .error e
  | .ok (.error status) => .ok (status, s)
  | .ok (.ok result) => .ok (Status.OK, PutTable s merged_tab (CombineChunks result))

/-- `Table::Merge` of `table.cpp`: a table handle is its id.  The vector
`table_ids` is created with `tables.size()` empty strings and the ids are
appended to it; the destination id is a fresh UUID.  The result is the status,
the id behind `tableOut` (`none` when it is not assigned) and the state. -/
def Table_Merge (uuid : Nat → String) (s : State) (tables : List String) :
    Run (Status × Option String × State) :=
  let table_ids := List.replicate tables.length "" ++ tables
  let uuid_str := uuid s.uuid_count
  match Merge { s with uuid_count := s.uuid_count + 1 } table_ids uuid_str with
  | .error e => .error e
  | .ok (status, s1) => .ok (status, if status.is_ok then some uuid_str else none, s1)

/-! ## Select and Project -/

/-- `twisterx::Row`: the handle given to a selector, a table id and a row
index. -/
structure RowHandle where
  table_id : String
  row_index : Nat
  deriving DecidableEq, Repr

/-- The loop of `Select` over the row indices: the selector is called on the
handle of each index in turn and its answers are appended to the mask.  A
selector is a C++ closure: `σ` is what it may read and change between
calls. -/
def SelectMask {σ : Type} (selector : σ → RowHandle → Bool × σ) (id : String) :
    List Nat → σ → List Bool × σ
  | [], st => ([], st)
  | row_index :: rest, st =>
    let r := selector st ⟨id, row_index⟩
    let m := SelectMask selector id rest r.2
    (r.1 :: m.1, m.2)

/-- Modelled from the spec: the filter kernel (`arrow::compute::Filter`, of
the columnar library, is not part of the sources).  A mask whose length is not
the length of every column is refused (`none`); otherwise the result has the
schema of the table and, column by column, the cells whose mask entry is
true, in their original order. -/
def Filter (table : Table) (mask : List Bool) : Option Table :=
  if table.columns.all (fun column => ChunkedArray.length column == mask.length) then
    some ⟨table.schema, table.columns.map (fun column =>
      [(((ChunkedArray.values column).zip mask).filter (fun x => x.2)).map Prod.fst])⟩
  else none

/-- `Select`.  The result is the status, what the selector left behind and the
state. -/
def Select {σ : Type} (s : State) (id : String) (selector : σ → RowHandle → Bool × σ)
    (st : σ) (out : String) : Run (Status × σ × State) :=
  match GetTable s id with
  | none => .error Fault.nullDereference
  | some src_table =>
    let m := SelectMask selector id (List.range src_table.num_rows) st
    match Filter src_table m.1 with
    | none => .ok (⟨Code.UnknownError⟩, m.2, s)
    | some out_table => .ok (Status.OK, m.2, PutTable s out out_table)

/-- The body of the loop of `Project`: the field and the chunks of one
column. -/
def ProjectColumn (table : Option Table) (col_index : Nat) : Run (Field × ChunkedArray) :=
  match table with
  | none => .error Fault.nullDereference
  | some t => do
    let field ← t.field col_index
    let column ← t.column col_index
    pure (field, column)

/-- `Project`. -/
def Project (s : State) (id : String) (project_columns : List Nat) (out : String) :
    Run (Status × State) :=
  let table := GetTable s id
  match forEach (ProjectColumn table) project_columns with
  | .error e => .error e
  | .ok picked =>
    .ok (Status.OK, PutTable s out ⟨picked.map Prod.fst, picked.map Prod.snd⟩)

/-! ## Auxiliary definitions for the later operators -/

/-- A join kernel that reports a failure and leaves the output pointer
null. -/
def failingJoin : JoinKernel := fun _ _ _ => .ok (⟨Code.ExecutionError⟩, none)

/-- A join configuration on the first column of either side. -/
def firstColumns : JoinConfig := ⟨0, 0, JoinType.INNER, JoinAlgorithm.SORT⟩

/-- A well-formed table of the data model: one column per field and all
columns of the same length, in any number of chunks. -/
def Rectangular (t : Table) : Prop :=
  t.columns.length = t.schema.length ∧
    ∀ column ∈ t.columns, ChunkedArray.length column = t.num_rows

instance instDecidableRectangular (t : Table) : Decidable (Rectangular t) := by
  unfold Rectangular
  infer_instance

/-- A selector that answers with the predicate `p` and appends the handle it
was called on to a log. -/
def loggingSelector (p : RowHandle → Bool) :
    List RowHandle → RowHandle → Bool × List RowHandle :=
  fun log row => (p row, log ++ [row])

/-! ## Shuffle and the distributed operators -/

/-- `TwisterXContext` as the operators read it: the rank of the worker and the
size of the worker group. -/
structure TwisterXContext where
  rank : Nat
  world_size : Nat
  deriving DecidableEq, Repr

/-- The tables that the loop of `Shuffle` over `partitioned_tables` hands to
`all_to_all.insert`, each with its target: the partitions of the other
ranks. -/
def ShuffleInserts (ctx : TwisterXContext) (s : State)
    (partitioned_tables : List (Nat × String)) : List (Nat × Option Table) :=
  (partitioned_tables.filter (fun partitioned_table => partitioned_table.1 != ctx.rank)).map
    (fun partitioned_table => (partitioned_table.1, GetTable s partitioned_table.2))

/-- The tables that the loop of `Shuffle` over `partitioned_tables` appends to
`received_tables` itself: the partition of the own rank. -/
def ShuffleLocal (ctx : TwisterXContext) (s : State)
    (partitioned_tables : List (Nat × String)) : List (Option Table) :=
  (partitioned_tables.filter (fun partitioned_table => partitioned_table.1 == ctx.rank)).map
    (fun partitioned_table => GetTable s partitioned_table.2)

/-- `Shuffle` up to `all_to_all.finish()`: the local hash partition into
`world_size` buckets (its status is not looked at), the construction of the
exchange, which reads the schema of the table, and the loop over
`partitioned_tables`, iterated in the order `tableOrder`.  The result is the
list of inserts, the tables appended locally and the state. -/
def ShufflePartition (combined_hash : List Value → Nat) (uuid : Nat → String)
    (mapOrder : List (Nat × List Array) → List (Nat × List Array))
    (tableOrder : List (Nat × String) → List (Nat × String))
    (ctx : TwisterXContext) (s : State) (table_id : String) (hash_columns : List Nat) :
    Run (List (Nat × Option Table) × List (Option Table) × State) :=
  let table := GetTable s table_id
  match HashPartition combined_hash uuid mapOrder s table_id hash_columns ctx.world_size with
  | .error e => .error e
  | .ok (_, out, s1) =>
    match table with
    | none => .error Fault.nullDereference
    | some _ =>
      let partitioned_tables := tableOrder out
      .ok (ShuffleInserts ctx s1 partitioned_tables, ShuffleLocal ctx s1 partitioned_tables, s1)

/-- `Shuffle`.  Modelled from the spec: the exchange (`ArrowAllToAll`,
declared in `arrow/arrow_all_to_all.hpp`, is not part of the sources).  The
polling loop on `isComplete` ends, and `delivered` lists the tables that the
receive callback was given until then, in order; the callback appends them to
`received_tables` after the local partition.  The result is the status, the
pointer `table_out` and the state. -/
def Shuffle (combined_hash : List Value → Nat) (uuid : Nat → String)
    (mapOrder : List (Nat × List Array) → List (Nat × List Array))
    (tableOrder : List (Nat × String) → List (Nat × String))
    (ctx : TwisterXContext) (delivered : List Table)
    (s : State) (table_id : String) (hash_columns : List Nat) :
    Run (Status × Option Table × State) :=
  match ShufflePartition combined_hash uuid mapOrder tableOrder ctx s table_id hash_columns with
  | .error e => .error e
  | .ok (_, received_local, s1) =>
    match ConcatenateTables (received_local ++ delivered.map some) with
    | .error e => .error e
    | .ok (.error status) => .ok (status, none, s1)
    | .ok (.ok final_table) => .ok (Status.OK, some (CombineChunks final_table), s1)

/-- `ShuffleTwoTables`: the log line reads the row counts of both tables, then
the left table is shuffled and, when that succeeded, the right one. -/
def ShuffleTwoTables (combined_hash : List Value → Nat) (uuid : Nat → String)
    (mapOrder : List (Nat × List Array) → List (Nat × List Array))
    (tableOrder : List (Nat × String) → List (Nat × String))
    (ctx : TwisterXContext) (delivered_left delivered_right : List Table)
    (s : State) (left_table_id : String) (left_hash_columns : List Nat)
    (right_table_id : String) (right_hash_columns : List Nat) :
    Run (Status × Option Table × Option Table × State) :=
  match GetTable s left_table_id, GetTable s right_table_id with
  | some _, some _ =>
    match Shuffle combined_hash uuid mapOrder tableOrder ctx delivered_left s left_table_id
        left_hash_columns with
    | .error e => .error e
    | .ok (status, left_table_out, s1) =>
      if status.is_ok then
        match Shuffle combined_hash uuid mapOrder tableOrder ctx delivered_right s1
            right_table_id right_hash_columns with
        | .error e => .error e
        | .ok (right_status, right_table_out, s2) =>
          .ok (right_status, left_table_out, right_table_out, s2)
      else .ok (status, left_table_out, none, s1)
  | _, _ => .error Fault.nullDereference

/-- `DistributedJoinTables` on one worker.  `join` is the local join kernel,
`delivered_left` and `delivered_right` are what the two exchanges deliver to
this worker. -/
def DistributedJoinTables (join : JoinKernel) (combined_hash : List Value → Nat)
    (uuid : Nat → String)
    (mapOrder : List (Nat × List Array) → List (Nat × List Array))
    (tableOrder : List (Nat × String) → List (Nat × String))
    (ctx : TwisterXContext) (delivered_left delivered_right : List Table)
    (s : State) (table_left table_right : String) (join_config : JoinConfig)
    (dest_id : String) : Run (Status × State) :=
  let left := GetTable s table_left
  let right := GetTable s table_right
  if ctx.world_size = 1 then
    match callJoin join left right join_config with
    | .error e => .error e
    | .ok (status, table) => .ok (status, s.insert dest_id table)
  else
    match ShuffleTwoTables combined_hash uuid mapOrder tableOrder ctx delivered_left
        delivered_right s table_left [join_config.left_column_index] table_right
        [join_config.right_column_index] with
    | .error e => .error e
    | .ok (shuffle_status, left_final_table, right_final_table, s1) =>
      if shuffle_status.is_ok then
        match callJoin join left_final_table right_final_table join_config with
        | .error e => .error e
        | .ok (status, table) => .ok (status, s1.insert dest_id table)
      else .ok (shuffle_status, s1)

/-- `PutTable(table)` on a pointer that may be null. -/
def PutPointerNew (uuid : Nat → String) (s : State) (t : Option Table) : String × State :=
  let id := uuid s.uuid_count
  (id, State.insert { s with uuid_count := s.uuid_count + 1 } id t)

/-- `DistributedUnion` on one worker.  `delivered_left` and `delivered_right`
are what the two exchanges deliver to this worker. -/
def DistributedUnion (setOrder : Table → Table → List RowAddr → List RowAddr)
    (combined_hash : List Value → Nat) (uuid : Nat → String)
    (mapOrder : List (Nat × List Array) → List (Nat × List Array))
    (tableOrder : List (Nat × String) → List (Nat × String))
    (ctx : TwisterXContext) (delivered_left delivered_right : List Table)
    (s : State) (table_left table_right dest_id : String) : Run (Status × State) :=
  let left := GetTable s table_left
  let right := GetTable s table_right
  if ctx.world_size = 1 then Union setOrder s table_left table_right dest_id
  else
    match left, right with
    | some l, some r =>
      if l.num_columns ≠ r.num_columns then .ok (⟨Code.Invalid⟩, s)
      else
        match UnionFieldsMatch l r (List.range l.num_columns) with
        | .error e => .error e
        | .ok false => .ok (⟨Code.Invalid⟩, s)
        | .ok true =>
          let hash_columns := List.range l.num_columns
          match ShuffleTwoTables combined_hash uuid mapOrder tableOrder ctx delivered_left
              delivered_right s table_left hash_columns table_right hash_columns with
          | .error e => .error e
          | .ok (shuffle_status, left_final_table, right_final_table, s1) =>
            if shuffle_status.is_ok then
              let lput := PutPointerNew uuid s1 left_final_table
              let rput := PutPointerNew uuid lput.2 right_final_table
              match Union setOrder rput.2 lput.1 rput.1 dest_id with
              | .error e => .error e
              | .ok (status, s2) => .ok (status, RemoveTable (RemoveTable s2 lput.1) rput.1)
            else .ok (shuffle_status, s1)
    | _, _ => .error Fault.nullDereference

/-! ## The local join kernel and the exchange, as the spec describes them -/

/-- The rows of the inner join of two lists of rows on the key columns `kl`
and `kr`: every row of the left joined with every row of the right whose key
equals its own, the values of the left row followed by those of the right
row. -/
def joinRows (kl kr : Nat) (left right : List Row) : List Row :=
  left.flatMap (fun l => (right.filter (fun r => decide (l[kl]? = r[kr]?))).map (fun r => l ++ r))

/-- The rows that an outer join adds for the rows without a partner: the row
padded with nulls on the other side. -/
def unmatchedRows (kl kr nl nr : Nat) (left right : List Row) (kind : JoinType) : List Row :=
  let leftOnly := (left.filter (fun l => right.all (fun r => !decide (l[kl]? = r[kr]?)))).map
    (fun l => l ++ List.replicate nr Value.null)
  let rightOnly := (right.filter (fun r => left.all (fun l => !decide (l[kl]? = r[kr]?)))).map
    (fun r => List.replicate nl Value.null ++ r)
  match kind with
  | JoinType.INNER => []
  | JoinType.LEFT => leftOnly
  | JoinType.RIGHT => rightOnly
  | JoinType.FULL => leftOnly ++ rightOnly

/-- The single-chunk table of a schema that holds the given rows. -/
def Table.ofRows (schema : List Field) (rows : List Row) : Table :=
  Table.Make schema ((List.range schema.length).map (fun k =>
    rows.filterMap (fun r => r[k]?)))

/-- Modelled from the spec: a local join kernel (`join::joinTables`, declared
in `join/join.hpp`, is not part of the sources).  It reads the key field of
either side, refuses key columns of different types with `Invalid`, and
otherwise returns the table of the joined rows, the fields of the left side
followed by those of the right side. -/
def joinTables : JoinKernel := fun left right join_config =>
  match left.field join_config.left_column_index,
      right.field join_config.right_column_index with
  | .ok lf, .ok rf =>
    if lf.type = rf.type then
      .ok (Status.OK, some (Table.ofRows (left.schema ++ right.schema)
        (joinRows join_config.left_column_index join_config.right_column_index
            left.rows right.rows
          ++ unmatchedRows join_config.left_column_index join_config.right_column_index
            left.num_columns right.num_columns left.rows right.rows join_config.kind)))
    else .ok (⟨Code.Invalid⟩, none)
  | .error e, _ => .error e
  | _, .error e => .error e

/-- Modelled from the spec: what the operators rely on from the local join
kernel for an inner join.  On two well-formed tables and valid key columns of
one type it returns OK and a table whose rows are, in some order, the rows of
the inner join. -/
def InnerJoinKernel (join : JoinKernel) : Prop :=
  ∀ (left right : Table) (join_config : JoinConfig),
    join_config.kind = JoinType.INNER → Rectangular left → Rectangular right →
    (∃ lf rf, left.schema[join_config.left_column_index]? = some lf ∧
      right.schema[join_config.right_column_index]? = some rf ∧ lf.type = rf.type) →
    ∃ J, join left right join_config = .ok (Status.OK, some J) ∧
      J.rows.Perm (joinRows join_config.left_column_index join_config.right_column_index
        left.rows right.rows)

/-- An iteration order of the unordered map `partitioned_tables` is admissible
when it lists the entries of the map, each once. -/
def ValidTableOrder (tableOrder : List (Nat × String) → List (Nat × String)) : Prop :=
  ∀ entries, (tableOrder entries).Perm entries

/-- The iteration order of `partitioned_tables` that follows the order of
insertion. -/
def tableIndexOrder (entries : List (Nat × String)) : List (Nat × String) := entries

/-- What a worker hands to the exchange of a shuffle (nothing when the
execution ends before). -/
def shuffleInserts (combined_hash : List Value → Nat) (uuid : Nat → String)
    (mapOrder : List (Nat × List Array) → List (Nat × List Array))
    (tableOrder : List (Nat × String) → List (Nat × String))
    (ctx : TwisterXContext) (s : State) (table_id : String) (hash_columns : List Nat) :
    List (Nat × Option Table) :=
  match ShufflePartition combined_hash uuid mapOrder tableOrder ctx s table_id hash_columns with
  | .ok r => r.1
  | .error _ => []

/-- The state of a worker after a shuffle. -/
def shuffleState (combined_hash : List Value → Nat) (uuid : Nat → String)
    (mapOrder : List (Nat × List Array) → List (Nat × List Array))
    (tableOrder : List (Nat × String) → List (Nat × String))
    (ctx : TwisterXContext) (s : State) (table_id : String) (hash_columns : List Nat) :
    State :=
  match ShufflePartition combined_hash uuid mapOrder tableOrder ctx s table_id hash_columns with
  | .ok r => r.2.2
  | .error _ => s

/-- Modelled from the spec: the contract of the exchange among `W` workers.
Every table that some worker inserted for the target `r` is delivered to the
worker `r` exactly once, and nothing else is; the order of arrival is not
fixed.  `inserts w` is what worker `w` inserted, `delivered r` what worker `r`
received. -/
def AllToAllDelivers (W : Nat) (inserts : Nat → List (Nat × Option Table))
    (delivered : Nat → List Table) : Prop :=
  ∀ r, r < W →
    ((delivered r).map some).Perm
      (((((List.range W).map inserts).flatten).filter (fun x => x.1 == r)).map Prod.snd)

/-- The partition that the hash of one cell gives to a row, among `W`. -/
def cellHash (combined_hash : List Value → Nat) (W : Nat) (cell : Option Value) : Nat :=
  match cell with
  | some v => combined_hash [v] % W
  | none => 0

/-- The table of partition `p` that `HashPartition` on the single key column
`k` builds from a single-chunk table. -/
def partitionTable (combined_hash : List Value → Nat) (W k : Nat) (t : Table) (p : Nat) :
    Table :=
  Table.Make t.schema ((List.range t.num_columns).map (fun c =>
    partitionCells (firstChunk t c)
      (t.rows.map (fun row => cellHash combined_hash W row[k]?)) p))

/-- An exchange that delivers to every worker the tables inserted for it, in
the order of the ranks of the senders. -/
def exchange (W : Nat) (inserts : Nat → List (Nat × Option Table)) (r : Nat) : List Table :=
  (((((List.range W).map inserts).flatten).filter (fun x => x.1 == r)).map Prod.snd).filterMap
    (fun table => table)

/-- The shard of the left table of the join example on worker 0. -/
def joinLeft0 : Table :=
  ⟨[⟨"id", DataType.int64⟩, ⟨"c", DataType.int64⟩],
    [[[Value.int 1, Value.int 3]], [[Value.int 10, Value.int 30]]]⟩

/-- The shard of the left table of the join example on worker 1. -/
def joinLeft1 : Table :=
  ⟨[⟨"id", DataType.int64⟩, ⟨"c", DataType.int64⟩], [[[Value.int 2]], [[Value.int 20]]]⟩

/-- The shard of the right table of the join example on worker 0. -/
def joinRight0 : Table :=
  ⟨[⟨"id", DataType.int64⟩, ⟨"c", DataType.int64⟩],
    [[[Value.int 2, Value.int 4]], [[Value.int 200, Value.int 400]]]⟩

/-- The shard of the right table of the join example on worker 1. -/
def joinRight1 : Table :=
  ⟨[⟨"id", DataType.int64⟩, ⟨"c", DataType.int64⟩], [[[Value.int 3]], [[Value.int 300]]]⟩

/-- The shards of the left table of the join example, by rank. -/
def joinLeft (w : Nat) : Table := if w = 0 then joinLeft0 else joinLeft1

/-- The shards of the right table of the join example, by rank. -/
def joinRight (w : Nat) : Table := if w = 0 then joinRight0 else joinRight1

/-- The states of the two workers of the join example: the shards under `l`
and `r`. -/
def joinWorld (w : Nat) : State := ⟨[("l", some (joinLeft w)), ("r", some (joinRight w))], 0⟩

/-- What the exchange of the left shuffle of the join example delivers. -/
def joinDeliveredLeft : Nat → List Table :=
  exchange 2 (fun w => shuffleInserts sumHash countingUuid indexOrder tableIndexOrder ⟨w, 2⟩
    (joinWorld w) "l" [0])

/-- What the exchange of the right shuffle of the join example delivers. -/
def joinDeliveredRight : Nat → List Table :=
  exchange 2 (fun w => shuffleInserts sumHash countingUuid indexOrder tableIndexOrder ⟨w, 2⟩
    (shuffleState sumHash countingUuid indexOrder tableIndexOrder ⟨w, 2⟩ (joinWorld w) "l" [0])
    "r" [0])

/-- Ten rows with even values. -/
def evenRows : Table := intTable [0, 2, 4, 6, 8, 10, 12, 14, 16, 18]

/-! ## ReadCSV -/

/-- `io::config::CSVReadOptions` as `ReadCSV` reads it: the flag
`IsConcurrentFileReads`; the other options only reach the reader. -/
structure CSVReadOptions where
  concurrent_file_reads : Bool
  deriving DecidableEq, Repr

/-- The reader `io::read_csv` (declared in `io/arrow_io.h`, not part of the
sources) as `ReadCSV` sees it: the table of a path, `none` for a failed
result. -/
abbrev CSVReader := String → CSVReadOptions → Option Table

/-- `ReadCSV` of one file. -/
def ReadCSV (read_csv : CSVReader) (s : State) (path id : String)
    (options : CSVReadOptions) : Run (Status × State) :=
  match read_csv path options with
  | some table =>
    match table.column 0 with
    | .error e => .error e
    | .ok column =>
      if ChunkedArray.num_chunks column > 1 then
        .ok (Status.OK, PutTable s id (CombineChunks table))
      else .ok (Status.OK, PutTable s id table)
  | none => .ok (⟨Code.IOError⟩, s)

/-- The threads of the concurrent `ReadCSV`: thread `kI` runs `ReadCSV` on
`paths[kI]` and `ids[kI]` and stores the status in its promise.  The threads
take effect on the registry one after the other in the order of the list; the
result is the status of every thread and the state. -/
def ReadCSVThreads (read_csv : CSVReader) (paths ids : List String)
    (options : CSVReadOptions) : List Nat → State → Run (List (Nat × Status) × State)
  | [], s => .ok ([], s)
  | kI :: rest, s =>
    match ReadCSV read_csv s (paths.getD kI "") (ids.getD kI "") options with
    | .error e => .error e
    | .ok (status, s1) =>
      match ReadCSVThreads read_csv paths ids options rest s1 with
      | .error e => .error e
      | .ok (statuses, s2) => .ok ((kI, status) :: statuses, s2)

/-- The loop `all_passed &= future.first.get().is_ok()` over the futures, in
the order of the files. -/
def ReadCSVAllPassed (statuses : List (Nat × Status)) : List Nat → Bool → Bool
  | [], all_passed => all_passed
  | kI :: rest, all_passed =>
    ReadCSVAllPassed statuses rest
      (all_passed && ((statuses.lookup kI).getD ⟨Code.UnknownError⟩).is_ok)

/-- The sequential loop of the multi-file `ReadCSV`: it stops at the first
status that is not OK. -/
def ReadCSVSequential (read_csv : CSVReader) (options : CSVReadOptions) :
    List (String × String) → Status → State → Run (Status × State)
  | [], status, s => .ok (status, s)
  | (path, id) :: rest, _, s =>
    match ReadCSV read_csv s path id options with
    | .error e => .error e
    | .ok (status, s1) =>
      if !status.is_ok then .ok (status, s1)
      else ReadCSVSequential read_csv options rest status s1

/-- `ReadCSV` of several files.  `threadOrder` is the order in which the
threads of the concurrent branch take effect. -/
def ReadCSVs (read_csv : CSVReader) (threadOrder : List Nat → List Nat) (s : State)
    (paths ids : List String) (options : CSVReadOptions) : Run (Status × State) :=
  if paths.length ≠ ids.length then .ok (⟨Code.Invalid⟩, s)
  else if options.concurrent_file_reads then
    match ReadCSVThreads read_csv paths ids options (threadOrder (List.range paths.length)) s with
    | .error e => .error e
    | .ok (statuses, s1) =>
      let all_passed := ReadCSVAllPassed statuses (List.range paths.length) false
      .ok (if all_passed then Status.OK else ⟨Code.IOError⟩, s1)
  else ReadCSVSequential read_csv options (paths.zip ids) Status.OK s

/-- A thread order is admissible when it runs every thread once. -/
def ValidThreadOrder (threadOrder : List Nat → List Nat) : Prop :=
  ∀ threads, (threadOrder threads).Perm threads

/-- The threads in the order of their creation. -/
def creationOrder (threads : List Nat) : List Nat := threads

/-- A reader that finds `tenRows` in `a.csv`, `twoRows` in `b.csv` and fails
on every other path. -/
def twoFiles : CSVReader := fun path _ =>
  if path = "a.csv" then some tenRows else if path = "b.csv" then some twoRows else none

/-! ## Print -/

/-- Modelled from the spec: the cell renderer (`util::array_to_string`,
declared in `util/arrow_utils.hpp`, is not part of the sources).  It reads the
cell at `index` of the array and renders its value; `render` is the text of a
value. -/
def array_to_string (render : Value → String) (array : Array) (index : Nat) : Run String :=
  match array[index]? with
  | some v => .ok (render v)
  | none => .error Fault.outOfRange

/-- The loop of `PrintToOStream` over the chunks of one column, for one row:
the first chunk that holds the row prints the cell and, unless the column is
the last one, the delimiter.  The result is what is written to `out`, piece by
piece. -/
def PrintCell (render : Value → String) (delimiter : Char) (col col2 row : Nat) :
    List Array → Nat → Run (List String)
  | [], _ => .ok []
  | array :: rest, rowCount =>
    if rowCount ≤ row ∧ rowCount + List.length array > row then
      match array_to_string render array (row - rowCount) with
      | .error e => .error e
      | .ok text =>
        .ok (if col ≠ col2 - 1 then [text, String.singleton delimiter] else [text])
    else PrintCell render delimiter col col2 row rest (rowCount + List.length array)

/-- The body of the loop of `PrintToOStream` over the columns. -/
def PrintColumn (render : Value → String) (delimiter : Char) (table : Table)
    (col2 row col : Nat) : Run (List String) :=
  match table.column col with
  | .error e => .error e
  | .ok column => PrintCell render delimiter col col2 row column 0

/-- The body of the loop of `PrintToOStream` over the rows: the columns
`col1, ..., col2 - 1`, then `std::endl`. -/
def PrintRow (render : Value → String) (delimiter : Char) (table : Table)
    (col1 col2 row : Nat) : Run (List String) :=
  match forEach (PrintColumn render delimiter table col2 row)
      (List.range' col1 (col2 - col1)) with
  | .error e => .error e
  | .ok pieces => .ok (pieces.flatten ++ ["\n"])

/-- The body of the header loop of `PrintToOStream`: the header of the column,
then the delimiter or, after the last column, `std::endl`. -/
def PrintHeader (delimiter : Char) (headers : List String) (col2 col : Nat) :
    Run (List String) :=
  match headers[col]? with
  | none => .error Fault.outOfRange
  | some header => .ok [header, if col ≠ col2 - 1 then String.singleton delimiter else "\n"]

/-- `PrintToOStream`.  The stream `out` is the list of the pieces written to
it, in order; the result is the status and these pieces. -/
def PrintToOStream (render : Value → String) (s : State) (table_id : String)
    (col1 col2 row1 row2 : Nat) (delimiter : Char) (use_custom_header : Bool)
    (headers : List String) : Run (Status × List String) :=
  match GetTable s table_id with
  | none => .ok (Status.OK, [])
  | some table =>
    if use_custom_header = true ∧ headers.length ≠ table.num_columns then
      .ok (⟨Code.IndexError⟩, [])
    else
      match (if use_custom_header then
          forEach (PrintHeader delimiter headers col2) (List.range' col1 (col2 - col1))
          else .ok []) with
      | .error e => .error e
      | .ok header =>
        match forEach (PrintRow render delimiter table col1 col2)
            (List.range' row1 (row2 - row1)) with
        | .error e => .error e
        | .ok lines => .ok (Status.OK, header.flatten ++ lines.flatten)

/-- `Print`: `PrintToOStream` with the comma as delimiter and no custom
header. -/
def Print (render : Value → String) (s : State) (table_id : String)
    (col1 col2 row1 row2 : Nat) : Run (Status × List String) :=
  PrintToOStream render s table_id col1 col2 row1 row2 ',' false []

/-- The line of a logical row: the rendered values of the columns
`col1, ..., col2 - 1` with the delimiter between them, then the end of the
line. -/
def printedLine (render : Value → String) (delimiter : Char) (t : Table)
    (col1 col2 row : Nat) : List String :=
  List.intersperse (String.singleton delimiter)
    ((List.range' col1 (col2 - col1)).map (fun col =>
      render (((t.rows[row]?).bind (fun cells => cells[col]?)).getD Value.null)))
    ++ ["\n"]

/-- The text of a value: an integer in decimal, a string as it is, `null` for
a null. -/
def renderValue : Value → String
  | Value.null => "null"
  | Value.int v => toString v
  | Value.str v => v

/-- A table of two columns, the first in two chunks and the second in one. -/
def printTable : Table :=
  ⟨[⟨"id", DataType.int64⟩, ⟨"name", DataType.utf8⟩],
    [[[Value.int 1], [Value.int 2, Value.int 3]],
     [[Value.str "a", Value.str "b", Value.str "c"]]]⟩

/-- A state holding `printTable` under `t`. -/
def printState : State := ⟨[("t", some printTable)], 0⟩

/-! ## The all-to-all exchange as a protocol -/

/-- A frame on the wire of one exchange: a batch or the marker `FIN` that a
peer sends to every target when it has finished. -/
inductive Frame where
  | batch (b : Table)
  | fin
  deriving DecidableEq, Repr

/-- Modelled from the spec: the state of one exchange among the peers
`0, ..., world_size - 1` (`ArrowAllToAll`, declared in
`arrow/arrow_all_to_all.hpp`, and the channel under it are not part of the
sources).  `channel s t` holds the frames sent by `s` that the transport has
not yet handed to `t`, oldest first (the transport keeps the order of the
frames of one pair); `finished p` tells whether `p` called `finish`; `fins t`
lists the sources whose `FIN` reached `t`; `received t` is the log of the
receive callback of `t` and `inserted s` the log of the accepted inserts of
`s`, each with the peer at the other end. -/
structure AllToAll where
  world_size : Nat
  channel : Nat → Nat → List Frame
  finished : Nat → Bool
  fins : Nat → List Nat
  received : Nat → List (Nat × Table)
  inserted : Nat → List (Nat × Table)

/-- The exchange right after its construction on every peer. -/
def AllToAll.init (W : Nat) : AllToAll :=
  ⟨W, fun _ _ => [], fun _ => false, fun _ => [], fun _ => [], fun _ => []⟩

/-- Modelled from the spec: `insert(batch, target)` on `peer`.  The batch is
queued for the target; after `finish`, and for a peer or a target outside the
group, the call is an error and changes nothing. -/
def AllToAll.insert (a : AllToAll) (peer : Nat) (batch : Table) (target : Nat) : AllToAll :=
  if a.finished peer = true ∨ ¬ peer < a.world_size ∨ ¬ target < a.world_size then a
  else
    { a with
      channel := fun s t =>
        if s = peer ∧ t = target then a.channel s t ++ [Frame.batch batch] else a.channel s t
      inserted := fun s =>
        if s = peer then a.inserted s ++ [(target, batch)] else a.inserted s }

/-- Modelled from the spec: `finish()` on `peer`.  The first call sends `FIN`
to every target; further calls change nothing. -/
def AllToAll.finish (a : AllToAll) (peer : Nat) : AllToAll :=
  if a.finished peer = true ∨ ¬ peer < a.world_size then a
  else
    { a with
      finished := fun p => if p = peer then true else a.finished p
      channel := fun s t =>
        if s = peer ∧ t < a.world_size then a.channel s t ++ [Frame.fin] else a.channel s t }

/-- Modelled from the spec: one unit of the progress that `isComplete` drives
on `peer`.  The oldest frame that the transport holds for `peer` from
`source`, if there is one, is taken: a batch is handed to the receive
callback, a `FIN` is recorded. -/
def AllToAll.progress (a : AllToAll) (peer source : Nat) : AllToAll :=
  match a.channel source peer with
  | [] => a
  | Frame.batch b :: rest =>
    { a with
      channel := fun s t => if s = source ∧ t = peer then rest else a.channel s t
      received := fun t => if t = peer then a.received t ++ [(source, b)] else a.received t }
  | Frame.fin :: rest =>
    { a with
      channel := fun s t => if s = source ∧ t = peer then rest else a.channel s t
      fins := fun t => if t = peer then a.fins t ++ [source] else a.fins t }

/-- Modelled from the spec: what `isComplete` reports on `peer`: the peer has
finished and the `FIN` of every source has reached it. -/
def AllToAll.isComplete (a : AllToAll) (peer : Nat) : Bool :=
  a.finished peer && (List.range a.world_size).all (fun source => decide (source ∈ a.fins peer))

/-- What the peers do to an exchange, one call at a time. -/
inductive Call where
  | insert (peer : Nat) (batch : Table) (target : Nat)
  | finish (peer : Nat)
  | progress (peer source : Nat)
  deriving DecidableEq, Repr

/-- The effect of one call. -/
def AllToAll.step (a : AllToAll) : Call → AllToAll
  | Call.insert peer batch target => a.insert peer batch target
  | Call.finish peer => a.finish peer
  | Call.progress peer source => a.progress peer source

/-- The exchange among `W` peers after a sequence of calls, in any
interleaving of the peers. -/
def AllToAll.run (W : Nat) (calls : List Call) : AllToAll :=
  calls.foldl AllToAll.step (AllToAll.init W)

/-- The batches that `s` inserted for `t`, in the order of the inserts. -/
def AllToAll.insertedFor (a : AllToAll) (s t : Nat) : List Table :=
  ((a.inserted s).filter (fun x => x.1 == t)).map Prod.snd

/-- The batches that the receive callback of `t` was given from `s`, in the
order of the calls. -/
def AllToAll.receivedFrom (a : AllToAll) (t s : Nat) : List Table :=
  ((a.received t).filter (fun x => x.1 == s)).map Prod.snd

/-- The invariant of the exchange for the pair of a source `s` and a target
`t`, with `bs` the batches in flight: the channel holds them, followed by the
`FIN` when `s` has finished and the `FIN` has not arrived; what `s` inserted
for `t` is what `t` received from `s` followed by them; once the `FIN` has
arrived nothing is in flight. -/
def AllToAll.PairInv (a : AllToAll) (s t : Nat) (bs : List Table) : Prop :=
  a.channel s t = bs.map Frame.batch ++
      (if a.finished s = true ∧ s ∉ a.fins t ∧ s < a.world_size ∧ t < a.world_size
        then [Frame.fin] else []) ∧
    a.insertedFor s t = a.receivedFrom t s ++ bs ∧
    (s ∈ a.fins t → bs = [] ∧ a.finished s = true) ∧
    (bs ≠ [] → s < a.world_size ∧ t < a.world_size)

/-- The invariant of the exchange: the invariant of every pair, and every
logged peer is in the group. -/
def AllToAll.Inv (a : AllToAll) : Prop :=
  (∀ s t, ∃ bs, a.PairInv s t bs) ∧
    (∀ s, ∀ x ∈ a.inserted s, x.1 < a.world_size) ∧
    (∀ t, ∀ x ∈ a.received t, x.1 < a.world_size)

/-- Two peers exchange three batches: peer 0 sends `tenRows` and then
`twoRows` to peer 1, peer 1 sends `noRows` to peer 0; both finish and drive
the progress until every frame has arrived. -/
def exchangeCalls : List Call :=
  [Call.insert 0 tenRows 1, Call.insert 1 noRows 0, Call.progress 1 0,
    Call.insert 0 twoRows 1, Call.finish 0, Call.finish 1,
    Call.progress 1 0, Call.progress 0 1, Call.progress 1 0, Call.progress 0 1,
    Call.progress 0 0, Call.progress 1 1]

/-- The insert calls of a sequence of calls, in the order of the calls: the
peer, the target and the batch of each. -/
def insertCalls : List Call → List (Nat × Nat × Table)
  | [] => []
  | Call.insert peer batch target :: rest => (peer, target, batch) :: insertCalls rest
  | Call.finish _ :: rest => insertCalls rest
  | Call.progress _ _ :: rest => insertCalls rest

/-- The batches that the calls hand to `insert` on the peer `s` for the target
`t`, in the order of the calls. -/
def insertCallsFor (calls : List Call) (s t : Nat) : List Table :=
  ((insertCalls calls).filter (fun x => x.1 == s && x.2.1 == t)).map (fun x => x.2.2)

/-- The use of the exchange that the spec allows: every `insert` is called on
a peer of the group, for a target of the group, and before that peer calls
`finish`.  `finished` lists the peers that have called `finish` so far. -/
def properCalls (W : Nat) : List Call → List Nat → Bool
  | [], _ => true
  | Call.insert peer _ target :: rest, finished =>
    decide (peer < W) && decide (target < W) && !(finished.contains peer) &&
      properCalls W rest finished
  | Call.finish peer :: rest, finished => properCalls W rest (peer :: finished)
  | Call.progress _ _ :: rest, finished => properCalls W rest finished

/-! # Proofs -/

/-! ## Loops and the registry -/

theorem forEach_eq_ok_iff {α β : Type} (f : α → Run β) (l : List α) (bs : List β) :
    forEach f l = .ok bs ↔ l.map f = bs.map Except.ok := by
  induction l generalizing bs with
  | nil => cases bs <;> simp [forEach]
  | cons a rest ih =>
    simp only [forEach, List.map_cons]
    cases hfa : f a with
    | error e => cases bs <;> simp
    | ok b =>
      cases hr : forEach f rest with
      | error e =>
        cases bs with
        | nil => simp
        | cons b' bs' =>
          simp only [List.map_cons, List.cons.injEq]
          constructor
          · intro h; cases h
          · rintro ⟨_, h⟩
            rw [(ih bs').2 h] at hr
            cases hr
      | ok bs0 =>
        have h0 := (ih bs0).1 hr
        cases bs with
        | nil => simp
        | cons b' bs' =>
          simp only [List.map_cons, List.cons.injEq, Except.ok.injEq, h0]
          constructor
          · rintro ⟨rfl, rfl⟩
            exact ⟨rfl, rfl⟩
          · rintro ⟨rfl, h⟩
            refine ⟨rfl, ?_⟩
            exact List.map_injective_iff.2 (fun x y hxy => by cases hxy; rfl) h

theorem forEach_length {α β : Type} {f : α → Run β} {l : List α} {bs : List β}
    (h : forEach f l = .ok bs) : bs.length = l.length := by
  have := congrArg List.length ((forEach_eq_ok_iff f l bs).1 h)
  simpa using this.symm

theorem forEach_of_forall {α β : Type} (f : α → Run β) (g : α → β) (l : List α)
    (h : ∀ a ∈ l, f a = .ok (g a)) : forEach f l = .ok (l.map g) := by
  rw [forEach_eq_ok_iff, List.map_map]
  exact List.map_congr_left h

theorem find_insert_self (s : State) (id : String) (t : Option Table)
    (h : s.find id = none) : (s.insert id t).find id = some t := by
  unfold State.insert
  rw [h]
  unfold State.find at h ⊢
  simp only [Option.map_eq_none', List.find?_eq_none] at h
  rw [List.find?_append]
  have : List.find? (fun p => p.1 == id) s.table_map = none := List.find?_eq_none.2 h
  simp [this]

theorem find_insert_other (s : State) (id id' : String) (t : Option Table)
    (h : id' ≠ id) : (s.insert id t).find id' = s.find id' := by
  unfold State.insert
  cases hf : s.find id with
  | some _ => rfl
  | none =>
    unfold State.find
    simp only [List.find?_append]
    cases hq : List.find? (fun p => p.1 == id') s.table_map with
    | some x => simp
    | none =>
      have : ¬ (id = id') := fun e => h e.symm
      simp [this]

theorem GetTable_PutTable_self (s : State) (id : String) (t : Table)
    (h : s.find id = none) : GetTable (PutTable s id t) id = some t := by
  unfold GetTable PutTable
  rw [find_insert_self s id (some t) h]

theorem GetTable_PutTable_other (s : State) (id id' : String) (t : Table)
    (h : id' ≠ id) : GetTable (PutTable s id t) id' = GetTable s id' := by
  unfold GetTable PutTable
  rw [find_insert_other s id id' (some t) h]

/-! ## SortTable: proofs -/

theorem SortTableWith_eq_of_ok (sk1 sk2 : Array → Run (List Nat))
    (copy : Option (List Nat) → Array → Run Array) (s : State) (id sid : String)
    (c1 c2 : Nat) (r1 r2 : Status × State)
    (h1 : SortTableWith sk1 copy s id sid c1 = .ok r1)
    (h2 : SortTableWith sk2 copy s id sid c2 = .ok r2) : r1 = r2 := by
  unfold SortTableWith at h1 h2
  cases hg : GetTable s id with
  | none => rw [hg] at h1; cases h1
  | some table =>
    rw [hg] at h1 h2
    simp only [bind, Except.bind, pure, Except.pure] at h1 h2
    cases hc1 : table.column c1 with
    | error e => rw [hc1] at h1; cases h1
    | ok col1 =>
      cases hc2 : table.column c2 with
      | error e => rw [hc2] at h2; cases h2
      | ok col2 =>
        rw [hc1] at h1; rw [hc2] at h2
        simp only at h1 h2
        cases hk1 : col1.chunk 0 with
        | error e => rw [hk1] at h1; cases h1
        | ok a1 =>
          cases hk2 : col2.chunk 0 with
          | error e => rw [hk2] at h2; cases h2
          | ok a2 =>
            rw [hk1] at h1; rw [hk2] at h2
            simp only at h1 h2
            cases hs1 : sk1 a1 with
            | error e => rw [hs1] at h1; cases h1
            | ok i1 =>
              cases hs2 : sk2 a2 with
              | error e => rw [hs2] at h2; cases h2
              | ok i2 =>
                rw [hs1] at h1; rw [hs2] at h2
                simp only at h1 h2
                generalize SortTableCopyColumns copy table = m at h1 h2
                cases m with
                | error e => cases h1
                | ok arrs =>
                  simp only at h1 h2
                  cases h1; cases h2; rfl

theorem perm_pair_cases {α : Type} {a b : α} {l : List α} (h : l.Perm [a, b]) :
    l = [a, b] ∨ l = [b, a] := by
  have hl := h.length_eq
  match l, hl with
  | [x, y], _ =>
    have hx : x ∈ [a, b] := h.subset (by simp)
    have ha : a ∈ [x, y] := h.symm.subset (by simp)
    have hb : b ∈ [x, y] := h.symm.subset (by simp)
    simp only [List.mem_cons, List.mem_singleton, List.not_mem_nil, or_false] at hx ha hb
    rcases hx with rfl | rfl
    · left
      have h2 : [y].Perm [b] := (List.perm_cons x).1 h
      have := List.perm_singleton.1 h2
      simp_all
    · right
      have h2 : [x, y].Perm [x, a] := h.trans (List.Perm.swap x a [])
      have h3 : [y].Perm [a] := (List.perm_cons x).1 h2
      have := List.perm_singleton.1 h3
      simp_all

/-- Claim C1 (defect): the registered result of `SortTable` does not depend on
the sort column nor on the indices the sort kernel returned: whatever the two
kernels do, two calls that return on the same state return the same status and
the same registry, even for two different sort columns. -/
theorem SortTable_ignores_sort_indices (sk1 sk2 : Array → Run (List Nat))
    (copy : Option (List Nat) → Array → Run Array) (s : State) (id sid : String)
    (c1 c2 : Nat) (r1 r2 : Status × State)
    (h1 : SortTableWith sk1 copy s id sid c1 = .ok r1)
    (h2 : SortTableWith sk2 copy s id sid c2 = .ok r2) : r1 = r2 :=
  SortTableWith_eq_of_ok sk1 sk2 copy s id sid c1 c2 r1 r2 h1 h2

/-- With a copy kernel that returns its input, sorting `[(1, 2), (2, 1)]` on
column 0 and on column 1 registers the same, unsorted, table. -/
theorem SortTable_ignores_sort_indices_witness :
    SortTableWith SortIndices copyWhole sortExampleState "t" "s" 0
      = .ok (Status.OK, PutTable sortExampleState "s" sortExampleTable) ∧
    SortTableWith SortIndices copyWhole sortExampleState "t" "s" 1
      = .ok (Status.OK, PutTable sortExampleState "s" sortExampleTable) ∧
    (Status.OK, PutTable sortExampleState "s" sortExampleTable)
      = (Status.OK, PutTable sortExampleState "s" sortExampleTable) :=
  ⟨by decide, by decide,
   SortTable_ignores_sort_indices SortIndices SortIndices copyWhole sortExampleState "t" "s" 0 1
     _ _ (by decide) (by decide)⟩

/-- With the take-by-indices kernel of the library, `SortTable` on the table
`[(1, 2), (2, 1)]` ends in the null dereference of the missing index vector. -/
theorem SortTable_example_fault :
    SortTable sortExampleState "t" "s" 0 = .error Fault.nullDereference := by decide

/-- With the take-by-indices kernel of the library `SortTable` returns on no
input: a missing table ends in `LOG(FATAL)`, a missing sort column in an
out-of-range access, and otherwise the copy of the first column dereferences
the null index vector. -/
theorem SortTable_never_returns (s : State) (id sid : String) (columnIndex : Nat) :
    ∃ e, SortTable s id sid columnIndex = .error e := by
  unfold SortTable SortTableWith
  cases GetTable s id with
  | none => exact ⟨_, rfl⟩
  | some table =>
    simp only [bind, Except.bind, pure, Except.pure]
    cases hc : table.column columnIndex with
    | error e => exact ⟨e, rfl⟩
    | ok column =>
      simp only
      cases column.chunk 0 with
      | error e => exact ⟨e, rfl⟩
      | ok col =>
        simp only [SortIndices]
        have hne : table.columns ≠ [] := by
          intro h
          simp [Table.column, h] at hc
        unfold SortTableCopyColumns
        match table.columns, hne with
        | c0 :: rest, _ =>
          simp only [forEach, bind, Except.bind, copy_array_by_indices]
          cases ChunkedArray.chunk c0 0 with
          | error e => exact ⟨e, rfl⟩
          | ok a => exact ⟨_, rfl⟩

/-- Claim C2 (defect): whatever the sort kernel and the copy kernel do,
`SortTable` cannot return, for both sort columns of the table
`[(1, 2), (2, 1)]`, a permutation of the rows that is non-decreasing on the
sort column: the two calls register the same table. -/
theorem SortTable_not_sorted_permutation (sk : Array → Run (List Nat))
    (copy : Option (List Nat) → Array → Run Array) :
    ¬ (∃ s0 s1 t0 t1,
        SortTableWith sk copy sortExampleState "t" "s" 0 = .ok (Status.OK, s0) ∧
        GetTable s0 "s" = some t0 ∧
        t0.rows.Perm sortExampleTable.rows ∧ NonDecreasingOn 0 t0.rows ∧
        SortTableWith sk copy sortExampleState "t" "s" 1 = .ok (Status.OK, s1) ∧
        GetTable s1 "s" = some t1 ∧
        t1.rows.Perm sortExampleTable.rows ∧ NonDecreasingOn 1 t1.rows) := by
  rintro ⟨s0, s1, t0, t1, h0, g0, p0, n0, h1, g1, p1, n1⟩
  have hs := SortTableWith_eq_of_ok sk sk copy sortExampleState "t" "s" 0 1 _ _ h0 h1
  have hs' : s0 = s1 := (Prod.mk.inj hs).2
  subst hs'
  rw [g0] at g1
  cases g1
  have hr : sortExampleTable.rows
      = [[Value.int 1, Value.int 2], [Value.int 2, Value.int 1]] := by decide
  rw [hr] at p0
  rcases perm_pair_cases p0 with h | h
  · rw [h] at n1
    simp [NonDecreasingOn, Value.le] at n1
  · rw [h] at n0
    simp [NonDecreasingOn, Value.le] at n0

/-! ## HashPartition: the length check -/

/-- Claim C5 (defect): the key columns of `raggedTable` have the lengths 0 and
1, yet the key loop of `HashPartition` does not take the `IndexError` return:
the test `length == 0` meant for the first key column also passes after a key
column of length 0.  The call goes on to the partition kernel, which reads
row 0 of the empty column, and returns no `IndexError`. -/
theorem HashPartition_unequal_key_lengths_not_rejected
    (combined_hash : List Value → Nat) (uuid : Nat → String)
    (mapOrder : List (Nat × List Array) → List (Nat × List Array)) :
    raggedTable.columns.map ChunkedArray.length = [0, 1] ∧
    HashPartitionKeys raggedTable [0, 1] [] 0 = .ok (some ([[], [Value.int 7]], 1)) ∧
    HashPartition combined_hash uuid mapOrder raggedState "t" [0, 1] 1
      = .error Fault.outOfRange :=
  ⟨by decide, by decide, by rfl⟩

/-! ## Union: the schema check -/

theorem UnionFieldsMatch_eq (ltab rtab : Table) (fds : List Nat)
    (hl : ∀ fd ∈ fds, fd < ltab.schema.length) (hr : ∀ fd ∈ fds, fd < rtab.schema.length) :
    UnionFieldsMatch ltab rtab fds
      = .ok (decide (∀ fd ∈ fds, ltab.schema[fd]?.map Field.type
          = rtab.schema[fd]?.map Field.type)) := by
  induction fds with
  | nil => simp [UnionFieldsMatch]
  | cons fd rest ih =>
    have h1 := hl fd (by simp)
    have h2 := hr fd (by simp)
    have ih' := ih (fun x hx => hl x (by simp [hx])) (fun x hx => hr x (by simp [hx]))
    obtain ⟨lf, hlf⟩ : ∃ lf, ltab.schema[fd]? = some lf :=
      ⟨ltab.schema[fd], List.getElem?_eq_getElem h1⟩
    obtain ⟨rf, hrf⟩ : ∃ rf, rtab.schema[fd]? = some rf :=
      ⟨rtab.schema[fd], List.getElem?_eq_getElem h2⟩
    simp only [UnionFieldsMatch, Table.field, hlf, hrf]
    by_cases ht : lf.type = rf.type
    · simp only [ht, if_true, ih']
      simp [hlf, hrf, ht]
    · simp only [ht, if_false]
      simp [hlf, hrf, ht]

theorem schemaCompatible_iff (ltab rtab : Table) (hn : ltab.schema.length = rtab.schema.length) :
    SchemaCompatible ltab rtab ↔
      ∀ fd ∈ List.range ltab.schema.length,
        ltab.schema[fd]?.map Field.type = rtab.schema[fd]?.map Field.type := by
  unfold SchemaCompatible
  constructor
  · intro h fd _
    have := congrArg (fun l => l[fd]?) h
    simpa [List.getElem?_map] using this
  · intro h
    apply List.ext_getElem?
    intro n
    by_cases hlt : n < ltab.schema.length
    · have := h n (List.mem_range.2 hlt)
      simpa [List.getElem?_map] using this
    · have h1 : ltab.schema.length ≤ n := Nat.le_of_not_lt hlt
      have h2 : rtab.schema.length ≤ n := hn ▸ h1
      rw [List.getElem?_eq_none (by simpa using h1), List.getElem?_eq_none (by simpa using h2)]

theorem schemaCompatible_length {ltab rtab : Table} (h : SchemaCompatible ltab rtab) :
    ltab.schema.length = rtab.schema.length := by
  have := congrArg List.length h
  simpa using this

theorem UnionFieldsMatch_range (ltab rtab : Table)
    (hn : ltab.num_columns = rtab.num_columns) :
    UnionFieldsMatch ltab rtab (List.range ltab.num_columns)
      = .ok (decide (SchemaCompatible ltab rtab)) := by
  unfold Table.num_columns at hn ⊢
  rw [UnionFieldsMatch_eq ltab rtab _ (fun fd h => List.mem_range.1 h)
    (fun fd h => hn ▸ List.mem_range.1 h)]
  congr 1
  exact decide_eq_decide.2 (schemaCompatible_iff ltab rtab hn).symm

/-- The part of `Union` after the schema check. -/
theorem Union_of_compatible (setOrder : Table → Table → List RowAddr → List RowAddr)
    (s : State) (tl tr d : String) (ltab rtab : Table)
    (hl : GetTable s tl = some ltab) (hr : GetTable s tr = some rtab)
    (hc : SchemaCompatible ltab rtab) :
    Union setOrder s tl tr d =
      match UnionInsertLoop ltab rtab (Nat.max ltab.num_rows rtab.num_rows / 10)
          (List.range (Nat.max ltab.num_rows rtab.num_rows)) [] with
      | .error e => .error e
      | .ok rows_set =>
        match UnionFinalArrays ltab rtab (setOrder ltab rtab rows_set) with
        | .error e => .error e
        | .ok final_data_arrays =>
          .ok (Status.OK, PutTable s d ⟨ltab.schema, final_data_arrays⟩) := by
  have hn : ltab.num_columns = rtab.num_columns := schemaCompatible_length hc
  unfold Union
  rw [hl, hr]
  simp only [hn, ne_eq, not_true_eq_false, if_false]
  rw [← hn, UnionFieldsMatch_range ltab rtab hn]
  simp only [hc, decide_True]

theorem Union_of_incompatible (setOrder : Table → Table → List RowAddr → List RowAddr)
    (s : State) (tl tr d : String) (ltab rtab : Table)
    (hl : GetTable s tl = some ltab) (hr : GetTable s tr = some rtab)
    (hc : ¬ SchemaCompatible ltab rtab) :
    Union setOrder s tl tr d = .ok (⟨Code.Invalid⟩, s) := by
  unfold Union
  rw [hl, hr]
  by_cases hn : ltab.num_columns = rtab.num_columns
  · simp only [hn, ne_eq, not_true_eq_false, if_false]
    rw [← hn, UnionFieldsMatch_range ltab rtab hn]
    simp only [hc, decide_False]
  · simp only [ne_eq, hn, not_false_eq_true, if_true]

/-- Claim C10: for two registered tables, `Union` returns `Invalid` and leaves
the registry as it was exactly when the schemas are not compatible by type
(different column counts or a differing type at some position); the field
names are not looked at.  Whenever it returns `Invalid` the state is the one
before the call. -/
theorem Union_invalid_iff_incompatible
    (setOrder : Table → Table → List RowAddr → List RowAddr)
    (s : State) (tl tr d : String) (ltab rtab : Table)
    (hl : GetTable s tl = some ltab) (hr : GetTable s tr = some rtab) :
    (Union setOrder s tl tr d = .ok (⟨Code.Invalid⟩, s) ↔ ¬ SchemaCompatible ltab rtab) ∧
    (∀ s', Union setOrder s tl tr d = .ok (⟨Code.Invalid⟩, s') → s' = s) := by
  by_cases hc : SchemaCompatible ltab rtab
  · have hu := Union_of_compatible setOrder s tl tr d ltab rtab hl hr hc
    have key : ∀ s', Union setOrder s tl tr d ≠ .ok (⟨Code.Invalid⟩, s') := by
      intro s' h
      rw [hu] at h
      split at h
      · cases h
      · split at h
        · cases h
        · cases h
    exact ⟨⟨fun h => absurd h (key s), fun h => absurd hc h⟩, fun s' h => absurd h (key s')⟩
  · have hu := Union_of_incompatible setOrder s tl tr d ltab rtab hl hr hc
    refine ⟨⟨fun _ => hc, fun _ => hu⟩, fun s' h => ?_⟩
    rw [hu] at h
    cases h
    rfl

/-- Two empty tables whose fields have the same types and different names are
accepted: `Union` returns `OK`, not `Invalid`. -/
theorem Union_invalid_iff_incompatible_witness :
    SchemaCompatible emptyXY emptyUV ∧
    Union insertionOrder namesState "l" "r" "d"
      = .ok (Status.OK, PutTable namesState "d" ⟨emptyXY.schema, [[[], []], [[], []]]⟩) ∧
    (Union insertionOrder namesState "l" "r" "d" = .ok (⟨Code.Invalid⟩, namesState)
        ↔ ¬ SchemaCompatible emptyXY emptyUV) ∧
    (∀ s', Union insertionOrder namesState "l" "r" "d" = .ok (⟨Code.Invalid⟩, s')
        → s' = namesState) :=
  ⟨by decide, by decide,
   Union_invalid_iff_incompatible insertionOrder namesState "l" "r" "d" emptyXY emptyUV
    (by decide) (by decide)⟩

/-! ## HashPartition: the partition vector -/

theorem HashPartitionKeys_mem (table : Table) (hash_columns : List Nat) (arrays : List Array)
    (length : Nat) (r : List Array × Nat)
    (h : HashPartitionKeys table hash_columns arrays length = .ok (some r)) :
    ∀ a ∈ r.1, a ∈ arrays ∨
      ∃ k ∈ hash_columns, ∃ column, table.column k = .ok column ∧ column.chunk 0 = .ok a := by
  induction hash_columns generalizing arrays length with
  | nil =>
    simp only [HashPartitionKeys, Except.ok.injEq, Option.some.injEq] at h
    subst h
    intro a ha
    exact Or.inl ha
  | cons k rest ih =>
    simp only [HashPartitionKeys] at h
    cases hc : table.column k with
    | error e => rw [hc] at h; cases h
    | ok column =>
      rw [hc] at h
      simp only at h
      cases hk : column.chunk 0 with
      | error e => rw [hk] at h; cases h
      | ok array =>
        rw [hk] at h
        simp only at h
        split at h
        · cases h
        · intro a ha
          rcases ih _ _ h a ha with h1 | ⟨k', hk', col', h1, h2⟩
          · rcases List.mem_append.1 h1 with h3 | h3
            · exact Or.inl h3
            · have : a = array := by simpa using h3
              subst this
              exact Or.inr ⟨k, by simp, column, hc, hk⟩
          · exact Or.inr ⟨k', by simp [hk'], col', h1, h2⟩

theorem HashPartitionKeys_congr (t1 t2 : Table) (hash_columns : List Nat)
    (h : ∀ k ∈ hash_columns, t1.column k = t2.column k) (arrays : List Array) (length : Nat) :
    HashPartitionKeys t1 hash_columns arrays length
      = HashPartitionKeys t2 hash_columns arrays length := by
  induction hash_columns generalizing arrays length with
  | nil => rfl
  | cons k rest ih =>
    simp only [HashPartitionKeys]
    rw [h k (by simp)]
    cases t2.column k with
    | error e => rfl
    | ok column =>
      simp only
      cases column.chunk 0 with
      | error e => rfl
      | ok array =>
        simp only
        rw [ih (fun k' hk' => h k' (by simp [hk']))]

theorem forEach_congr {α β : Type} (f g : α → Run β) (l : List α)
    (h : ∀ a ∈ l, f a = g a) : forEach f l = forEach g l := by
  induction l with
  | nil => rfl
  | cons a rest ih =>
    simp only [forEach]
    rw [h a (by simp), ih (fun x hx => h x (by simp [hx]))]

theorem forEach_getElem {α β : Type} {f : α → Run β} {l : List α} {bs : List β}
    (h : forEach f l = .ok bs) (i : Nat) (hi : i < l.length) :
    ∃ b, bs[i]? = some b ∧ f l[i] = .ok b := by
  have hm := (forEach_eq_ok_iff f l bs).1 h
  have hlen := forEach_length h
  have hi' : i < bs.length := hlen ▸ hi
  refine ⟨bs[i], List.getElem?_eq_getElem hi', ?_⟩
  have := congrArg (fun l => l[i]?) hm
  simp only [List.getElem?_map, List.getElem?_eq_getElem hi, List.getElem?_eq_getElem hi',
    Option.map_some', Option.some.injEq] at this
  exact this

/-- The step of `HashPartitionArrays` for one row index. -/
theorem HashPartitionArrays_step (combined_hash : List Value → Nat) (arrays : List Array)
    (length : Nat) (partitions : List Nat) (pv : List Nat)
    (h : HashPartitionArrays combined_hash arrays length partitions = .ok pv)
    (i : Nat) (hi : i < length) :
    ∃ keys, forEach (fun a => Array.at a i) arrays = .ok keys ∧
      pv[i]? = partitions[combined_hash keys % partitions.length]? ∧
      (pv[i]?).isSome := by
  unfold HashPartitionArrays at h
  obtain ⟨b, hb, hf⟩ := forEach_getElem h i (by simpa using hi)
  simp only [List.getElem_range, bind, Except.bind] at hf
  cases hk : forEach (fun a => Array.at a i) arrays with
  | error e => rw [hk] at hf; cases hf
  | ok keys =>
    rw [hk] at hf
    simp only at hf
    refine ⟨keys, rfl, ?_, by simp [hb]⟩
    cases hp : partitions[combined_hash keys % partitions.length]? with
    | none => rw [hp] at hf; cases hf
    | some p =>
      rw [hp] at hf
      cases hf
      exact hb

theorem HashPartitionVector_ok (combined_hash : List Value → Nat) (table : Table)
    (hash_columns : List Nat) (P : Nat) (pv : List Nat)
    (h : HashPartitionVector combined_hash table hash_columns P = .ok (some pv)) :
    ∃ arrays length, HashPartitionKeys table hash_columns [] 0 = .ok (some (arrays, length)) ∧
      HashPartitionArrays combined_hash arrays length (List.range P) = .ok pv := by
  unfold HashPartitionVector at h
  cases hk : HashPartitionKeys table hash_columns [] 0 with
  | error e => rw [hk] at h; cases h
  | ok r =>
    rw [hk] at h
    cases r with
    | none => cases h
    | some r =>
      obtain ⟨arrays, length⟩ := r
      simp only at h
      cases ha : HashPartitionArrays combined_hash arrays length (List.range P) with
      | error e => rw [ha] at h; cases h
      | ok pv' =>
        rw [ha] at h
        cases h
        exact ⟨arrays, length, rfl, ha⟩

theorem HashPartitionVector_same_key (combined_hash : List Value → Nat) (table : Table)
    (hash_columns : List Nat) (P : Nat) (pv : List Nat)
    (h : HashPartitionVector combined_hash table hash_columns P = .ok (some pv))
    (i j : Nat) (hi : i < pv.length) (hj : j < pv.length)
    (hs : SameKey table hash_columns i j) : pv[i]? = pv[j]? := by
  obtain ⟨arrays, length, hk, ha⟩ := HashPartitionVector_ok combined_hash table hash_columns P pv h
  have hlen : pv.length = length := by
    have := forEach_length ha
    simpa using this
  obtain ⟨ki, hki, hpi, _⟩ := HashPartitionArrays_step combined_hash arrays length _ pv ha i
    (hlen ▸ hi)
  obtain ⟨kj, hkj, hpj, _⟩ := HashPartitionArrays_step combined_hash arrays length _ pv ha j
    (hlen ▸ hj)
  have hsame : forEach (fun a => Array.at a i) arrays = forEach (fun a => Array.at a j) arrays := by
    apply forEach_congr
    intro a ha'
    rcases HashPartitionKeys_mem table hash_columns [] 0 _ hk a ha' with h0 | ⟨k, hk', col, hc, hch⟩
    · cases h0
    · have := hs k hk'
      simp only [keyCell, hc, hch] at this
      simp only [Array.at, this]
  rw [hki, hkj] at hsame
  cases hsame
  rw [hpi, hpj]

/-! ## Union: the insertion loop -/

theorem rowsSetInsert_ok (ltab rtab : Table) (set set' : List RowAddr) (a : RowAddr)
    (h : rowsSetInsert ltab rtab set a = .ok set') :
    (∃ row, recordRow ltab rtab a = .ok row) ∧
      set' = (if set.any (fun b => decide (recordRow ltab rtab b = recordRow ltab rtab a))
        then set else set ++ [a]) := by
  unfold rowsSetInsert at h
  cases hr : recordRow ltab rtab a with
  | error e => rw [hr] at h; cases h
  | ok row =>
    rw [hr] at h
    simp only at h
    refine ⟨⟨row, rfl⟩, ?_⟩
    split at h <;> rename_i hc <;> simp only [hc] <;> cases h <;> simp

theorem rowsSetInsert_of_ok (ltab rtab : Table) (set : List RowAddr) (a : RowAddr) (row : Row)
    (h : recordRow ltab rtab a = .ok row) :
    rowsSetInsert ltab rtab set a
      = .ok (if set.any (fun b => decide (recordRow ltab rtab b = recordRow ltab rtab a))
        then set else set ++ [a]) := by
  unfold rowsSetInsert
  rw [h]
  simp only
  split <;> rfl

theorem UnionInsertLoop_ok (ltab rtab : Table) (th : Nat) (rows : List Nat)
    (set res : List RowAddr) (h : UnionInsertLoop ltab rtab th rows set = .ok res) :
    res = keepFirst (recordRow ltab rtab)
        (lockstepRecords ltab.num_rows rtab.num_rows rows) set ∧
      (∀ a ∈ lockstepRecords ltab.num_rows rtab.num_rows rows,
        ∃ row, recordRow ltab rtab a = .ok row) ∧
      (rows ≠ [] → th ≠ 0) := by
  induction rows generalizing set with
  | nil =>
    simp only [UnionInsertLoop, Except.ok.injEq] at h
    subst h
    simp [lockstepRecords, keepFirst]
  | cons row rest ih =>
    simp only [UnionInsertLoop] at h
    split at h
    · cases h
    · rename_i set1 h1
      split at h
      · cases h
      · rename_i set2 h2
        split at h
        · cases h
        · rename_i hth
          obtain ⟨hres, hall, _⟩ := ih set2 h
          refine ⟨?_, ?_, fun _ => hth⟩
          · rw [hres]
            by_cases hl : row < ltab.num_rows <;> by_cases hr : row < rtab.num_rows
            · simp only [hl, if_true] at h1
              simp only [hr, if_true] at h2
              obtain ⟨_, e1⟩ := rowsSetInsert_ok _ _ _ _ _ h1
              obtain ⟨_, e2⟩ := rowsSetInsert_ok _ _ _ _ _ h2
              simp only [lockstepRecords, hl, hr, if_true, List.cons_append, List.nil_append,
                keepFirst, ← e1, ← e2]
            · simp only [hl, if_true] at h1
              simp only [hr, if_false, Except.ok.injEq] at h2
              obtain ⟨_, e1⟩ := rowsSetInsert_ok _ _ _ _ _ h1
              simp only [lockstepRecords, hl, hr, if_true, if_false, List.cons_append,
                List.nil_append, keepFirst, ← e1, h2]
            · simp only [hl, if_false, Except.ok.injEq] at h1
              simp only [hr, if_true] at h2
              obtain ⟨_, e2⟩ := rowsSetInsert_ok _ _ _ _ _ h2
              simp only [lockstepRecords, hl, hr, if_true, if_false, List.cons_append,
                List.nil_append, keepFirst, ← e2, h1]
            · simp only [hl, if_false, Except.ok.injEq] at h1
              simp only [hr, if_false, Except.ok.injEq] at h2
              simp only [lockstepRecords, hl, hr, if_false, List.nil_append, h1, h2]
          · intro a ha
            simp only [lockstepRecords, List.mem_append] at ha
            rcases ha with ha | ha | ha
            · by_cases hl : row < ltab.num_rows
              · simp only [hl, if_true, List.mem_singleton] at ha
                simp only [hl, if_true] at h1
                subst ha
                exact (rowsSetInsert_ok _ _ _ _ _ h1).1
              · simp [hl] at ha
            · by_cases hr : row < rtab.num_rows
              · simp only [hr, if_true, List.mem_singleton] at ha
                simp only [hr, if_true] at h2
                subst ha
                exact (rowsSetInsert_ok _ _ _ _ _ h2).1
              · simp [hr] at ha
            · exact hall a ha

theorem UnionInsertLoop_of_ok (ltab rtab : Table) (th : Nat) (rows : List Nat)
    (set : List RowAddr)
    (hall : ∀ a ∈ lockstepRecords ltab.num_rows rtab.num_rows rows,
      ∃ row, recordRow ltab rtab a = .ok row)
    (hth : rows = [] ∨ th ≠ 0) :
    UnionInsertLoop ltab rtab th rows set
      = .ok (keepFirst (recordRow ltab rtab)
          (lockstepRecords ltab.num_rows rtab.num_rows rows) set) := by
  induction rows generalizing set with
  | nil => simp [UnionInsertLoop, lockstepRecords, keepFirst]
  | cons row rest ih =>
    have hth' : th ≠ 0 := by
      rcases hth with h | h
      · cases h
      · exact h
    have hrest : ∀ a ∈ lockstepRecords ltab.num_rows rtab.num_rows rest,
        ∃ row, recordRow ltab rtab a = .ok row := by
      intro a ha
      apply hall
      simp only [lockstepRecords, List.mem_append]
      exact Or.inr (Or.inr ha)
    simp only [UnionInsertLoop]
    by_cases hl : row < ltab.num_rows <;> by_cases hr : row < rtab.num_rows
    · obtain ⟨r0, h0⟩ := hall (0, row) (by simp [lockstepRecords, hl])
      obtain ⟨r1, h1⟩ := hall (1, row) (by simp [lockstepRecords, hr])
      simp only [hl, hr, if_true, rowsSetInsert_of_ok _ _ _ _ _ h0,
        rowsSetInsert_of_ok _ _ _ _ _ h1, hth', if_false, ih _ hrest (Or.inr hth'),
        lockstepRecords, List.cons_append, List.nil_append, keepFirst]
    · obtain ⟨r0, h0⟩ := hall (0, row) (by simp [lockstepRecords, hl])
      simp only [hl, hr, if_true, if_false, rowsSetInsert_of_ok _ _ _ _ _ h0, hth',
        ih _ hrest (Or.inr hth'), lockstepRecords, List.cons_append, List.nil_append, keepFirst]
    · obtain ⟨r1, h1⟩ := hall (1, row) (by simp [lockstepRecords, hr])
      simp only [hl, hr, if_true, if_false, rowsSetInsert_of_ok _ _ _ _ _ h1, hth',
        ih _ hrest (Or.inr hth'), lockstepRecords, List.cons_append, List.nil_append, keepFirst]
    · simp only [hl, hr, if_false, hth', ih _ hrest (Or.inr hth'), lockstepRecords,
        List.nil_append]

/-! ## Union: what the set keeps -/

theorem keepFirst_pairwise {α κ : Type} [DecidableEq κ] (key : α → κ) (l acc : List α)
    (h : acc.Pairwise (fun a b => key a ≠ key b)) :
    (keepFirst key l acc).Pairwise (fun a b => key a ≠ key b) := by
  induction l generalizing acc with
  | nil => exact h
  | cons a rest ih =>
    simp only [keepFirst]
    apply ih
    split
    · exact h
    · rename_i hany
      rw [List.pairwise_append]
      refine ⟨h, List.pairwise_singleton _ _, ?_⟩
      intro x hx y hy
      have : y = a := by simpa using hy
      subst this
      intro hk
      apply hany
      simp only [List.any_eq_true, decide_eq_true_eq]
      exact ⟨x, hx, hk⟩

theorem keepFirst_acc_subset {α κ : Type} [DecidableEq κ] (key : α → κ) (l acc : List α) :
    ∀ x ∈ acc, x ∈ keepFirst key l acc := by
  induction l generalizing acc with
  | nil => intro x hx; exact hx
  | cons a rest ih =>
    intro x hx
    simp only [keepFirst]
    apply ih
    split
    · exact hx
    · exact List.mem_append_left _ hx

theorem keepFirst_cover {α κ : Type} [DecidableEq κ] (key : α → κ) (l acc : List α) :
    ∀ x, x ∈ acc ∨ x ∈ l → ∃ b ∈ keepFirst key l acc, key b = key x := by
  induction l generalizing acc with
  | nil =>
    intro x hx
    rcases hx with hx | hx
    · exact ⟨x, hx, rfl⟩
    · cases hx
  | cons a rest ih =>
    intro x hx
    simp only [keepFirst]
    rcases hx with hx | hx
    · apply ih
      left
      split
      · exact hx
      · exact List.mem_append_left _ hx
    · rcases List.mem_cons.1 hx with rfl | hx
      · split
        · rename_i hany
          simp only [List.any_eq_true, decide_eq_true_eq] at hany
          obtain ⟨b, hb, hk⟩ := hany
          exact ⟨b, keepFirst_acc_subset key rest acc b hb, hk⟩
        · exact ⟨x, keepFirst_acc_subset key rest _ x (by simp), rfl⟩
      · exact ih _ x (Or.inr hx)

theorem keepFirst_subset {α κ : Type} [DecidableEq κ] (key : α → κ) (l acc : List α) :
    ∀ x ∈ keepFirst key l acc, x ∈ acc ∨ x ∈ l := by
  induction l generalizing acc with
  | nil => intro x hx; exact Or.inl hx
  | cons a rest ih =>
    intro x hx
    simp only [keepFirst] at hx
    rcases ih _ x hx with h | h
    · split at h
      · exact Or.inl h
      · rcases List.mem_append.1 h with h | h
        · exact Or.inl h
        · right
          have : x = a := by simpa using h
          simp [this]
    · exact Or.inr (List.mem_cons_of_mem _ h)

/-- Which elements survive in terms of an order `R` that the offered
sequence follows: those with no element of equal key before them. -/
theorem keepFirst_mem_iff {α κ : Type} [DecidableEq κ] (key : α → κ) (R : α → α → Prop)
    (hirr : ∀ a, ¬ R a a) (hasym : ∀ a b, R a b → ¬ R b a) (l acc : List α)
    (hl : l.Pairwise R) (x : α) :
    x ∈ keepFirst key l acc ↔
      x ∈ acc ∨ (x ∈ l ∧ (∀ b ∈ acc, key b ≠ key x) ∧ ∀ b ∈ l, R b x → key b ≠ key x) := by
  induction l generalizing acc with
  | nil => simp [keepFirst]
  | cons a rest ih =>
    rw [List.pairwise_cons] at hl
    obtain ⟨ha, hrest⟩ := hl
    simp only [keepFirst]
    rw [ih _ hrest]
    by_cases hany : acc.any (fun b => decide (key b = key a)) = true
    · simp only [hany, if_true]
      simp only [List.any_eq_true, decide_eq_true_eq] at hany
      obtain ⟨c, hc, hck⟩ := hany
      constructor
      · rintro (h | ⟨h1, h2, h3⟩)
        · exact Or.inl h
        · refine Or.inr ⟨List.mem_cons_of_mem _ h1, h2, ?_⟩
          intro b hb hR
          rcases List.mem_cons.1 hb with rfl | hb
          · intro hk
            exact h2 c hc (hck.trans hk)
          · exact h3 b hb hR
      · rintro (h | ⟨h1, h2, h3⟩)
        · exact Or.inl h
        · rcases List.mem_cons.1 h1 with rfl | h1
          · exact absurd hck (h2 c hc)
          · exact Or.inr ⟨h1, h2, fun b hb hR => h3 b (List.mem_cons_of_mem _ hb) hR⟩
    · simp only [hany, Bool.false_eq_true, if_false]
      simp only [List.any_eq_true, decide_eq_true_eq, not_exists, not_and] at hany
      constructor
      · rintro (h | ⟨h1, h2, h3⟩)
        · rcases List.mem_append.1 h with h | h
          · exact Or.inl h
          · have hx : x = a := by simpa using h
            subst hx
            refine Or.inr ⟨by simp, fun b hb => hany b hb, ?_⟩
            intro b hb hR
            rcases List.mem_cons.1 hb with rfl | hb
            · exact absurd hR (hirr _)
            · exact absurd hR (hasym _ _ (ha b hb))
        · refine Or.inr ⟨List.mem_cons_of_mem _ h1,
            fun b hb => h2 b (List.mem_append_left _ hb), ?_⟩
          intro b hb hR
          rcases List.mem_cons.1 hb with rfl | hb
          · exact h2 b (by simp)
          · exact h3 b hb hR
      · rintro (h | ⟨h1, h2, h3⟩)
        · exact Or.inl (List.mem_append_left _ h)
        · rcases List.mem_cons.1 h1 with rfl | h1'
          · exact Or.inl (by simp)
          · refine Or.inr ⟨h1', ?_, fun b hb hR => h3 b (List.mem_cons_of_mem _ hb) hR⟩
            intro b hb
            rcases List.mem_append.1 hb with hb | hb
            · exact h2 b hb
            · have hb' : b = a := by simpa using hb
              subst hb'
              exact h3 b (by simp) (ha x h1')

/-! ## Rows of a table built column by column -/

theorem collect_eq_some_iff {α β : Type} (f : α → Option β) (l : List α) (bs : List β) :
    collect f l = some bs ↔ l.map f = bs.map some := by
  induction l generalizing bs with
  | nil => cases bs <;> simp [collect]
  | cons a rest ih =>
    simp only [collect, List.map_cons]
    cases hfa : f a with
    | none => cases bs <;> simp
    | some b =>
      cases hr : collect f rest with
      | none =>
        cases bs with
        | nil => simp
        | cons b' bs' =>
          simp only [List.map_cons, List.cons.injEq]
          constructor
          · intro h; cases h
          · rintro ⟨_, h⟩
            rw [(ih bs').2 h] at hr
            cases hr
      | some bs0 =>
        have h0 := (ih bs0).1 hr
        cases bs with
        | nil => simp
        | cons b' bs' =>
          simp only [List.map_cons, List.cons.injEq, Option.some.injEq, h0]
          constructor
          · rintro ⟨rfl, rfl⟩
            exact ⟨rfl, rfl⟩
          · rintro ⟨rfl, h⟩
            refine ⟨rfl, ?_⟩
            exact List.map_injective_iff.2 (fun x y hxy => by cases hxy; rfl) h

theorem filterMap_range_getElem {α : Type} (l : List α) (g : Nat → Option α)
    (h : ∀ i, i < l.length → g i = l[i]?) :
    (List.range l.length).filterMap g = l := by
  induction l generalizing g with
  | nil => simp
  | cons a rest ih =>
    rw [List.length_cons, List.range_succ_eq_map, List.filterMap_cons]
    have h0 : g 0 = some a := by simpa using h 0 (by simp)
    rw [h0, List.filterMap_map]
    simp only
    congr 1
    apply ih
    intro i hi
    have := h (i + 1) (by simpa using hi)
    simpa using this

theorem map_range_getElem {α : Type} (l : List α) :
    (List.range l.length).map (fun i => l[i]?) = l.map some := by
  apply List.ext_getElem?
  intro i
  by_cases hi : i < l.length
  · simp [List.getElem?_map, List.getElem?_range hi, List.getElem?_eq_getElem hi]
  · have hi' : l.length ≤ i := Nat.le_of_not_lt hi
    rw [List.getElem?_eq_none (by simpa using hi'), List.getElem?_eq_none (by simpa using hi')]

theorem chunked_length_eq (column : ChunkedArray) :
    ChunkedArray.length column = (ChunkedArray.values column).length := by
  unfold ChunkedArray.length ChunkedArray.values
  rw [List.length_flatten]

/-- A table whose columns, read as concatenations, are the transposition of a
list of rows has these rows as its logical rows. -/
theorem rows_of_transposed (schema : List Field) (cols : List ChunkedArray) (rowsL : List Row)
    (hn : 0 < cols.length)
    (hlen : ∀ r ∈ rowsL, r.length = cols.length)
    (hcols : ∀ k (hk : k < cols.length),
      (ChunkedArray.values cols[k]).map some = rowsL.map (fun r => r[k]?)) :
    (⟨schema, cols⟩ : Table).rows = rowsL := by
  have hnum : (⟨schema, cols⟩ : Table).num_rows = rowsL.length := by
    unfold Table.num_rows
    match cols, hn, hcols with
    | c0 :: rest, _, hcols =>
      simp only
      rw [chunked_length_eq]
      have := congrArg List.length (hcols 0 (by simp))
      simpa using this
  unfold Table.rows
  rw [hnum]
  apply filterMap_range_getElem
  intro i hi
  rw [List.getElem?_eq_getElem hi]
  unfold Table.row?
  rw [collect_eq_some_iff]
  simp only
  apply List.ext_getElem?
  intro k
  have hri : rowsL[i].length = cols.length := hlen _ (List.getElem_mem hi)
  by_cases hk : k < cols.length
  · have hk' : k < rowsL[i].length := hri ▸ hk
    have h1 := congrArg (fun l => l[i]?) (hcols k hk)
    simp only [List.getElem?_map, List.getElem?_eq_getElem hi, Option.map_some',
      List.getElem?_eq_getElem hk'] at h1
    simp only [List.getElem?_map, List.getElem?_eq_getElem hk, Option.map_some',
      List.getElem?_eq_getElem hk']
    cases hv : (ChunkedArray.values cols[k])[i]? with
    | none => rw [hv] at h1; cases h1
    | some v =>
      rw [hv] at h1
      simp only [Option.map_some', Option.some.injEq] at h1
      rw [h1]
  · have hk1 : cols.length ≤ k := Nat.le_of_not_lt hk
    have hk2 : rowsL[i].length ≤ k := hri ▸ hk1
    rw [List.getElem?_eq_none (by simpa using hk1), List.getElem?_eq_none (by simpa using hk2)]

/-! ## Union: the rows of the output -/

theorem readCell_eq (table : Table) (k i : Nat) :
    (do
      let column ← table.column k
      let array ← column.chunk 0
      Array.at array i : Run Value)
      = (match keyCell table k i with
        | some v => .ok v
        | none => .error Fault.outOfRange) := by
  unfold keyCell Table.column
  cases table.columns[k]? with
  | none => rfl
  | some column =>
    simp only [bind, Except.bind]
    unfold ChunkedArray.chunk
    cases column[0]? with
    | none => rfl
    | some array =>
      simp only [Array.at]

theorem map_run_iff {α : Type} (g : α → Option Value) (l : List α) (bs : List Value) :
    l.map (fun a => (match g a with
        | some v => Except.ok v
        | none => Except.error Fault.outOfRange : Run Value)) = bs.map Except.ok
      ↔ l.map g = bs.map some := by
  induction l generalizing bs with
  | nil => cases bs <;> simp
  | cons a rest ih =>
    cases bs with
    | nil => simp
    | cons b bs' =>
      simp only [List.map_cons, List.cons.injEq, ih bs']
      cases g a <;> simp

theorem kernelRow_ok_iff (fields : Nat) (table : Table) (i : Nat) (row : Row) :
    kernelRow fields table i = .ok row
      ↔ (List.range fields).map (fun k => keyCell table k i) = row.map some := by
  unfold kernelRow
  rw [forEach_eq_ok_iff]
  simp only [readCell_eq]
  exact map_run_iff (fun k => keyCell table k i) (List.range fields) row

theorem kernelRow_length {fields : Nat} {table : Table} {i : Nat} {row : Row}
    (h : kernelRow fields table i = .ok row) : row.length = fields := by
  have := congrArg List.length ((kernelRow_ok_iff fields table i row).1 h)
  simpa using this.symm

theorem kernelRow_getElem {fields : Nat} {table : Table} {i : Nat} {row : Row}
    (h : kernelRow fields table i = .ok row) (k : Nat) (hk : k < fields) :
    row[k]? = keyCell table k i := by
  have h1 := congrArg (fun l => l[k]?) ((kernelRow_ok_iff fields table i row).1 h)
  simp only [List.getElem?_map, List.getElem?_range hk, Option.map_some'] at h1
  cases hr : row[k]? with
  | none => rw [hr] at h1; cases h1
  | some v =>
    rw [hr] at h1
    simp only [Option.map_some', Option.some.injEq] at h1
    exact h1.symm

theorem recordValue_of_ok {ltab rtab : Table} {a : RowAddr} {row : Row}
    (h : recordRow ltab rtab a = .ok row) : recordValue ltab rtab a = row := by
  unfold recordValue
  rw [h]

/-- One copy of the final loop of `Union`: the cells of column `k` of one
table at the given row indices. -/
theorem copyColumn_ok (table : Table) (k : Nat) (idx : List Nat) (out : Array)
    (h : (do
      let column ← table.column k
      let array ← column.chunk 0
      copy_array_by_indices (some idx) array : Run Array) = .ok out) :
    out.map some = idx.map (fun i => keyCell table k i) := by
  cases hc : table.column k with
  | error e => rw [hc] at h; cases h
  | ok column =>
    rw [hc] at h
    simp only [bind, Except.bind] at h
    cases hk : column.chunk 0 with
    | error e => rw [hk] at h; cases h
    | ok array =>
      rw [hk] at h
      simp only [copy_array_by_indices] at h
      have := (forEach_eq_ok_iff _ _ _).1 h
      simp only [Array.at] at this
      simp only [keyCell, hc, hk]
      exact ((map_run_iff (fun i => array[i]?) idx out).1 this).symm

theorem forEach_pair {α β : Type} {f : α → Run β} {a b : α} {out : List β}
    (h : forEach f [a, b] = .ok out) : ∃ x y, f a = .ok x ∧ f b = .ok y ∧ out = [x, y] := by
  have hm := (forEach_eq_ok_iff f [a, b] out).1 h
  match out, hm with
  | [], hm => simp at hm
  | [_], hm => simp at hm
  | _ :: _ :: _ :: _, hm => simp at hm
  | [x, y], hm =>
    simp only [List.map_cons, List.map_nil, List.cons.injEq, and_true] at hm
    exact ⟨x, y, hm.1, hm.2, rfl⟩

theorem UnionFinalArrays_ok (ltab rtab : Table) (records : List RowAddr)
    (cols : List ChunkedArray) (h : UnionFinalArrays ltab rtab records = .ok cols) :
    cols.length = ltab.num_columns ∧
    ∀ k (hk : k < cols.length),
      (ChunkedArray.values cols[k]).map some
        = (outputRecords records).map (fun a => keyCell (unionTable ltab rtab a.1) k a.2) := by
  unfold UnionFinalArrays at h
  have hlen : cols.length = ltab.num_columns := by
    have := forEach_length h
    simpa using this
  refine ⟨hlen, fun k hk => ?_⟩
  obtain ⟨b, hb, hf⟩ := forEach_getElem h k (by simpa using hlen ▸ hk)
  rw [List.getElem?_eq_getElem hk] at hb
  have hb' : cols[k] = b := by simpa using hb
  rw [hb']
  simp only [List.getElem_range] at hf
  obtain ⟨la, ra, hla, hra, hb2⟩ := forEach_pair hf
  · rw [hb2]
    · have h0 := copyColumn_ok _ _ _ _ hla
      have h1 := copyColumn_ok _ _ _ _ hra
      simp only [ChunkedArray.values, List.flatten, List.append_nil, List.map_append, h0, h1,
        outputRecords, indicesFromTab, List.map_map]
      congr 1
      · apply List.map_congr_left
        intro a ha
        have : a.1 = 0 := by simpa using (List.mem_filter.1 ha).2
        simp [unionTable, this]
      · apply List.map_congr_left
        intro a ha
        have : a.1 = 1 := by simpa using (List.mem_filter.1 ha).2
        simp [unionTable, this]

/-- The logical rows of the table that `Union` builds are the rows of the
records in output order. -/
theorem Union_output_rows (ltab rtab : Table) (records : List RowAddr)
    (cols : List ChunkedArray) (h : UnionFinalArrays ltab rtab records = .ok cols)
    (hn : 0 < ltab.num_columns)
    (hall : ∀ a ∈ outputRecords records, ∃ row, recordRow ltab rtab a = .ok row) :
    (⟨ltab.schema, cols⟩ : Table).rows = (outputRecords records).map (recordValue ltab rtab) := by
  obtain ⟨hlen, hcols⟩ := UnionFinalArrays_ok ltab rtab records cols h
  apply rows_of_transposed
  · rw [hlen]; exact hn
  · intro r hr
    obtain ⟨a, ha, rfl⟩ := List.mem_map.1 hr
    obtain ⟨row, hrow⟩ := hall a ha
    rw [recordValue_of_ok hrow, hlen]
    exact kernelRow_length hrow
  · intro k hk
    rw [hcols k hk, List.map_map]
    apply List.map_congr_left
    intro a ha
    obtain ⟨row, hrow⟩ := hall a ha
    simp only [Function.comp, recordValue_of_ok hrow]
    exact (kernelRow_getElem hrow k (hlen ▸ hk)).symm

/-! ## Union: the registered table -/

theorem Union_ok_inv (setOrder : Table → Table → List RowAddr → List RowAddr)
    (s : State) (tl tr d : String) (ltab rtab : Table) (s' : State)
    (hl : GetTable s tl = some ltab) (hr : GetTable s tr = some rtab)
    (h : Union setOrder s tl tr d = .ok (Status.OK, s')) :
    SchemaCompatible ltab rtab ∧
    (∀ a ∈ lockstepRecords ltab.num_rows rtab.num_rows
        (List.range (Nat.max ltab.num_rows rtab.num_rows)),
      ∃ row, recordRow ltab rtab a = .ok row) ∧
    ∃ cols, UnionFinalArrays ltab rtab (setOrder ltab rtab (unionSurvivors ltab rtab)) = .ok cols ∧
      s' = PutTable s d ⟨ltab.schema, cols⟩ := by
  by_cases hc : SchemaCompatible ltab rtab
  · refine ⟨hc, ?_⟩
    rw [Union_of_compatible setOrder s tl tr d ltab rtab hl hr hc] at h
    split at h
    · cases h
    · rename_i set hset
      obtain ⟨hres, hall, _⟩ := UnionInsertLoop_ok _ _ _ _ _ _ hset
      refine ⟨hall, ?_⟩
      split at h
      · cases h
      · rename_i cols hcols
        simp only [Except.ok.injEq, Prod.mk.injEq, true_and] at h
        refine ⟨cols, ?_, h.symm⟩
        rw [unionSurvivors, ← hres]
        exact hcols
  · rw [Union_of_incompatible setOrder s tl tr d ltab rtab hl hr hc] at h
    cases h

theorem lockstepRecords_side (nl nr : Nat) (rows : List Nat) :
    ∀ a ∈ lockstepRecords nl nr rows,
      (a.1 = 0 ∧ a.2 < nl ∨ a.1 = 1 ∧ a.2 < nr) ∧ a.2 ∈ rows := by
  induction rows with
  | nil => intro a ha; cases ha
  | cons row rest ih =>
    intro a ha
    simp only [lockstepRecords, List.mem_append] at ha
    rcases ha with ha | ha | ha
    · by_cases hl : row < nl
      · simp only [hl, if_true, List.mem_singleton] at ha
        subst ha
        exact ⟨Or.inl ⟨rfl, hl⟩, by simp⟩
      · simp [hl] at ha
    · by_cases hr : row < nr
      · simp only [hr, if_true, List.mem_singleton] at ha
        subst ha
        exact ⟨Or.inr ⟨rfl, hr⟩, by simp⟩
      · simp [hr] at ha
    · exact ⟨(ih a ha).1, List.mem_cons_of_mem _ (ih a ha).2⟩

theorem unionSurvivors_mem_lockstep (ltab rtab : Table) :
    ∀ a ∈ unionSurvivors ltab rtab,
      a ∈ lockstepRecords ltab.num_rows rtab.num_rows
        (List.range (Nat.max ltab.num_rows rtab.num_rows)) := by
  intro a ha
  rcases keepFirst_subset _ _ _ a ha with h | h
  · cases h
  · exact h

theorem outputRecords_perm (records : List RowAddr)
    (h : ∀ a ∈ records, a.1 = 0 ∨ a.1 = 1) : (outputRecords records).Perm records := by
  unfold outputRecords
  have : records.filter (fun pr => pr.1 == 1) = records.filter (fun pr => !(pr.1 == 0)) := by
    apply List.filter_congr
    intro a ha
    rcases h a ha with h0 | h1
    · simp [h0]
    · simp [h1]
  rw [this]
  exact List.filter_append_perm _ _

/-- The output order of the records `Union` keeps lists each of them once. -/
theorem outputRecords_survivors_perm (setOrder : Table → Table → List RowAddr → List RowAddr)
    (hso : ValidSetOrder setOrder) (ltab rtab : Table) :
    (outputRecords (setOrder ltab rtab (unionSurvivors ltab rtab))).Perm
      (unionSurvivors ltab rtab) := by
  have hp := hso ltab rtab (unionSurvivors ltab rtab)
  refine (outputRecords_perm _ ?_).trans hp
  intro a ha
  have ha' := unionSurvivors_mem_lockstep ltab rtab a (hp.subset ha)
  rcases (lockstepRecords_side _ _ _ a ha').1 with h | h
  · exact Or.inl h.1
  · exact Or.inr h.1

theorem registers_of_eq (s s' : State) (d : String) (out : Table)
    (h : s' = PutTable s d out) : Registers s s' d out :=
  ⟨h, fun hd => by rw [h]; exact GetTable_PutTable_self s d out hd⟩

/-- The rows of the table `Union` registers, whenever it returns `OK`. -/
theorem Union_ok_rows (setOrder : Table → Table → List RowAddr → List RowAddr)
    (hso : ValidSetOrder setOrder)
    (s : State) (tl tr d : String) (ltab rtab : Table) (s' : State)
    (hl : GetTable s tl = some ltab) (hr : GetTable s tr = some rtab)
    (h : Union setOrder s tl tr d = .ok (Status.OK, s')) :
    ∃ out, Registers s s' d out ∧ out.schema = ltab.schema ∧
      out.rows = if ltab.num_columns = 0 then []
        else (outputRecords (setOrder ltab rtab (unionSurvivors ltab rtab))).map
          (recordValue ltab rtab) := by
  obtain ⟨_, hall, cols, hcols, hs'⟩ := Union_ok_inv setOrder s tl tr d ltab rtab s' hl hr h
  refine ⟨⟨ltab.schema, cols⟩, registers_of_eq _ _ _ _ hs', rfl, ?_⟩
  · by_cases hn : ltab.num_columns = 0
    · simp only [hn, if_true]
      have hlen := (UnionFinalArrays_ok _ _ _ _ hcols).1
      rw [hn] at hlen
      have : cols = [] := List.length_eq_zero.1 hlen
      subst this
      simp [Table.rows, Table.num_rows]
    · simp only [hn, if_false]
      apply Union_output_rows ltab rtab _ cols hcols (Nat.pos_of_ne_zero hn)
      intro a ha
      apply hall
      apply unionSurvivors_mem_lockstep
      exact (outputRecords_survivors_perm setOrder hso ltab rtab).subset ha

theorem unionSurvivors_pairwise (ltab rtab : Table) :
    (unionSurvivors ltab rtab).Pairwise
      (fun a b => recordRow ltab rtab a ≠ recordRow ltab rtab b) :=
  keepFirst_pairwise _ _ _ List.Pairwise.nil

/-- Whenever `Union` returns `OK` the registered table has no two equal
rows. -/
theorem Union_ok_nodup
    (setOrder : Table → Table → List RowAddr → List RowAddr) (hso : ValidSetOrder setOrder)
    (s : State) (tl tr d : String) (ltab rtab : Table) (s' : State)
    (hl : GetTable s tl = some ltab) (hr : GetTable s tr = some rtab)
    (h : Union setOrder s tl tr d = .ok (Status.OK, s')) :
    ∃ out, Registers s s' d out ∧ out.rows.Nodup := by
  obtain ⟨out, hout, _, hrows⟩ := Union_ok_rows setOrder hso s tl tr d ltab rtab s' hl hr h
  refine ⟨out, hout, ?_⟩
  rw [hrows]
  split
  · exact List.nodup_nil
  · obtain ⟨_, hall, _⟩ := Union_ok_inv setOrder s tl tr d ltab rtab s' hl hr h
    have hperm := outputRecords_survivors_perm setOrder hso ltab rtab
    rw [List.Nodup, List.pairwise_map]
    have hpw : (outputRecords (setOrder ltab rtab (unionSurvivors ltab rtab))).Pairwise
        (fun a b => recordRow ltab rtab a ≠ recordRow ltab rtab b) :=
      (hperm.pairwise_iff (fun {a b} hab => Ne.symm hab)).2 (unionSurvivors_pairwise ltab rtab)
    refine List.Pairwise.imp_of_mem ?_ hpw
    intro a b ha hb hne heq
    obtain ⟨ra, hra⟩ := hall a (unionSurvivors_mem_lockstep _ _ a (hperm.subset ha))
    obtain ⟨rb, hrb⟩ := hall b (unionSurvivors_mem_lockstep _ _ b (hperm.subset hb))
    rw [recordValue_of_ok hra, recordValue_of_ok hrb] at heq
    apply hne
    rw [hra, hrb, heq]

theorem insertionOrder_valid : ValidSetOrder insertionOrder := fun _ _ _ => List.Perm.refl _

/-! ## Union on single-chunk tables -/

theorem exists_map_some {α β : Type} (g : α → Option β) (l : List α)
    (h : ∀ x ∈ l, ∃ v, g x = some v) : ∃ bs : List β, l.map g = bs.map some := by
  induction l with
  | nil => exact ⟨[], rfl⟩
  | cons a rest ih =>
    obtain ⟨v, hv⟩ := h a (by simp)
    obtain ⟨bs, hbs⟩ := ih (fun x hx => h x (by simp [hx]))
    exact ⟨v :: bs, by simp [hv, hbs]⟩

theorem forEach_exists {α β : Type} (f : α → Run β) (l : List α)
    (h : ∀ x ∈ l, ∃ b, f x = .ok b) : ∃ bs, forEach f l = .ok bs := by
  induction l with
  | nil => exact ⟨[], rfl⟩
  | cons a rest ih =>
    obtain ⟨b, hb⟩ := h a (by simp)
    obtain ⟨bs, hbs⟩ := ih (fun x hx => h x (by simp [hx]))
    exact ⟨b :: bs, by simp [forEach, hb, hbs]⟩

theorem singleChunk_column {t : Table} (hw : SingleChunk t) (k : Nat) (hk : k < t.num_columns) :
    ∃ a : Array, t.column k = .ok [a] ∧ a.length = t.num_rows := by
  have hk' : k < t.columns.length := by rw [hw.1]; exact hk
  obtain ⟨a, ha, hlen⟩ := hw.2 t.columns[k] (List.getElem_mem hk')
  refine ⟨a, ?_, hlen⟩
  unfold Table.column
  rw [List.getElem?_eq_getElem hk', ha]

theorem singleChunk_keyCell {t : Table} (hw : SingleChunk t) (k : Nat) (hk : k < t.num_columns) :
    ∃ a : Array, a.length = t.num_rows ∧ t.columns[k]? = some [a] ∧
      ∀ i, keyCell t k i = a[i]? := by
  obtain ⟨a, hc, hlen⟩ := singleChunk_column hw k hk
  refine ⟨a, hlen, ?_, fun i => ?_⟩
  · unfold Table.column at hc
    cases hcol : t.columns[k]? with
    | none => rw [hcol] at hc; cases hc
    | some column => rw [hcol] at hc; cases hc; rfl
  · simp [keyCell, hc, ChunkedArray.chunk]

theorem singleChunk_kernelRow {t : Table} (hw : SingleChunk t) (i : Nat) (hi : i < t.num_rows) :
    ∃ row, kernelRow t.num_columns t i = .ok row := by
  have : ∃ bs : List Value,
      (List.range t.num_columns).map (fun k => keyCell t k i) = bs.map some := by
    apply exists_map_some
    intro k hk
    obtain ⟨a, hlen, _, hcell⟩ := singleChunk_keyCell hw k (List.mem_range.1 hk)
    exact ⟨a[i], by rw [hcell, List.getElem?_eq_getElem (hlen ▸ hi)]⟩
  obtain ⟨row, hrow⟩ := this
  exact ⟨row, (kernelRow_ok_iff _ _ _ _).2 hrow⟩

theorem singleChunk_recordRow {ltab rtab : Table} (hwl : SingleChunk ltab)
    (hwr : SingleChunk rtab) (hn : ltab.num_columns = rtab.num_columns) (a : RowAddr)
    (ha : a.1 = 0 ∧ a.2 < ltab.num_rows ∨ a.1 = 1 ∧ a.2 < rtab.num_rows) :
    ∃ row, recordRow ltab rtab a = .ok row := by
  unfold recordRow unionTable
  rcases ha with ⟨h0, hlt⟩ | ⟨h1, hlt⟩
  · simp only [h0, if_true]
    exact singleChunk_kernelRow hwl a.2 hlt
  · simp only [h1, one_ne_zero, if_false, hn]
    exact singleChunk_kernelRow hwr a.2 hlt

theorem singleChunk_copy {t : Table} (hw : SingleChunk t) (k : Nat) (hk : k < t.num_columns)
    (idx : List Nat) (hidx : ∀ i ∈ idx, i < t.num_rows) :
    ∃ out, (do
      let column ← t.column k
      let array ← column.chunk 0
      copy_array_by_indices (some idx) array : Run Array) = .ok out := by
  obtain ⟨a, hc, hlen⟩ := singleChunk_column hw k hk
  simp only [hc, bind, Except.bind, ChunkedArray.chunk, List.getElem?_cons_zero,
    copy_array_by_indices]
  apply forEach_exists
  intro i hi
  have hia : i < a.length := hlen ▸ hidx i hi
  exact ⟨a[i], by simp [Array.at, List.getElem?_eq_getElem hia]⟩

theorem indicesFromTab_bound (setOrder : Table → Table → List RowAddr → List RowAddr)
    (hso : ValidSetOrder setOrder) (ltab rtab : Table) (tab : Nat) (htab : tab = 0 ∨ tab = 1) :
    ∀ i ∈ indicesFromTab (setOrder ltab rtab (unionSurvivors ltab rtab)) tab,
      i < (unionTable ltab rtab tab).num_rows := by
  intro i hi
  unfold indicesFromTab at hi
  obtain ⟨a, ha, rfl⟩ := List.mem_map.1 hi
  obtain ⟨hmem, hside⟩ := List.mem_filter.1 ha
  have hside' : a.1 = tab := by simpa using hside
  have hl := unionSurvivors_mem_lockstep ltab rtab a
    ((hso ltab rtab (unionSurvivors ltab rtab)).subset hmem)
  have := (lockstepRecords_side _ _ _ a hl).1
  unfold unionTable
  rcases htab with rfl | rfl
  · rcases this with ⟨_, h⟩ | ⟨h1, _⟩
    · simpa using h
    · rw [hside'] at h1; cases h1
  · rcases this with ⟨h0, _⟩ | ⟨_, h⟩
    · rw [hside'] at h0; cases h0
    · simpa using h

/-- On single-chunk tables with compatible schemas `Union` returns `OK`
unless the larger table has between one and nine rows. -/
theorem Union_returns (setOrder : Table → Table → List RowAddr → List RowAddr)
    (hso : ValidSetOrder setOrder)
    (s : State) (tl tr d : String) (ltab rtab : Table)
    (hl : GetTable s tl = some ltab) (hr : GetTable s tr = some rtab)
    (hc : SchemaCompatible ltab rtab) (hwl : SingleChunk ltab) (hwr : SingleChunk rtab)
    (hmax : Nat.max ltab.num_rows rtab.num_rows = 0 ∨ 10 ≤ Nat.max ltab.num_rows rtab.num_rows) :
    ∃ s', Union setOrder s tl tr d = .ok (Status.OK, s') := by
  have hn : ltab.num_columns = rtab.num_columns := schemaCompatible_length hc
  rw [Union_of_compatible setOrder s tl tr d ltab rtab hl hr hc]
  have hall : ∀ a ∈ lockstepRecords ltab.num_rows rtab.num_rows
      (List.range (Nat.max ltab.num_rows rtab.num_rows)),
      ∃ row, recordRow ltab rtab a = .ok row := fun a ha =>
    singleChunk_recordRow hwl hwr hn a (lockstepRecords_side _ _ _ a ha).1
  have hth : List.range (Nat.max ltab.num_rows rtab.num_rows) = [] ∨
      Nat.max ltab.num_rows rtab.num_rows / 10 ≠ 0 := by
    rcases hmax with h | h
    · left; rw [h]; rfl
    · right; exact Nat.ne_of_gt (Nat.div_pos h (by decide))
  rw [UnionInsertLoop_of_ok ltab rtab _ _ [] hall hth]
  simp only
  have hfin : ∃ cols, UnionFinalArrays ltab rtab
      (setOrder ltab rtab (unionSurvivors ltab rtab)) = .ok cols := by
    unfold UnionFinalArrays
    apply forEach_exists
    intro k hk
    have hk' : k < ltab.num_columns := List.mem_range.1 hk
    apply forEach_exists
    intro tab htab
    have htab' : tab = 0 ∨ tab = 1 := by simpa using htab
    have hw : SingleChunk (unionTable ltab rtab tab) := by
      unfold unionTable
      rcases htab' with rfl | rfl
      · simpa using hwl
      · simpa using hwr
    have hkt : k < (unionTable ltab rtab tab).num_columns := by
      unfold unionTable
      rcases htab' with rfl | rfl
      · simpa using hk'
      · simpa using hn ▸ hk'
    exact singleChunk_copy hw k hkt _ (indicesFromTab_bound setOrder hso ltab rtab tab htab')
  obtain ⟨cols, hcols⟩ := hfin
  rw [unionSurvivors] at hcols
  rw [hcols]
  exact ⟨_, rfl⟩

/-- Claim C6: for two registered tables, whenever `Union` returns `OK` the
table it registers under the destination has no two equal rows, whatever the
iteration order of the hash set; and it does return `OK` on single-chunk
tables with compatible schemas of which the larger has no row or at least
ten rows. -/
theorem Union_output_no_duplicates
    (setOrder : Table → Table → List RowAddr → List RowAddr) (hso : ValidSetOrder setOrder)
    (s : State) (tl tr d : String) (ltab rtab : Table)
    (hl : GetTable s tl = some ltab) (hr : GetTable s tr = some rtab) :
    (∀ s', Union setOrder s tl tr d = .ok (Status.OK, s') →
      ∃ out, Registers s s' d out ∧ out.rows.Nodup) ∧
    (SchemaCompatible ltab rtab → SingleChunk ltab → SingleChunk rtab →
      (Nat.max ltab.num_rows rtab.num_rows = 0 ∨ 10 ≤ Nat.max ltab.num_rows rtab.num_rows) →
      ∃ s', Union setOrder s tl tr d = .ok (Status.OK, s')) :=
  ⟨fun s' h => Union_ok_nodup setOrder hso s tl tr d ltab rtab s' hl hr h,
   fun hc hwl hwr hmax => Union_returns setOrder hso s tl tr d ltab rtab hl hr hc hwl hwr hmax⟩

/-- The union of `[0,1,1,3,...,9]` and `[1,2]` is registered without the
repeated rows. -/
theorem Union_output_no_duplicates_witness :
    (∃ out, Registers unionState (PutTable unionState "d"
          ⟨tenRows.schema,
           [[[0, 3, 4, 5, 6, 7, 8, 9].map Value.int, [Value.int 1, Value.int 2]]]⟩) "d" out ∧
        out.rows.Nodup) ∧
    ∃ s', Union insertionOrder unionState "l" "r" "d" = .ok (Status.OK, s') :=
  ⟨(Union_output_no_duplicates insertionOrder insertionOrder_valid unionState "l" "r" "d"
      tenRows twoRows (by decide) (by decide)).1 _ (by decide),
   (Union_output_no_duplicates insertionOrder insertionOrder_valid unionState "l" "r" "d"
      tenRows twoRows (by decide) (by decide)).2
      (by decide) (by decide) (by decide) (by decide)⟩

theorem lockstepRecords_mem (nl nr : Nat) (rows : List Nat) (a : RowAddr)
    (hrow : a.2 ∈ rows) (ha : a.1 = 0 ∧ a.2 < nl ∨ a.1 = 1 ∧ a.2 < nr) :
    a ∈ lockstepRecords nl nr rows := by
  induction rows with
  | nil => cases hrow
  | cons row rest ih =>
    simp only [lockstepRecords, List.mem_append]
    rcases List.mem_cons.1 hrow with h | h
    · obtain ⟨side, i⟩ := a
      simp only at h ha
      subst h
      rcases ha with ⟨h0, hlt⟩ | ⟨h1, hlt⟩
      · left; subst h0; simp [hlt]
      · right; left; subst h1; simp [hlt]
    · exact Or.inr (Or.inr (ih h))

theorem lockstepRecords_mem_iff (nl nr : Nat) (a : RowAddr) :
    a ∈ lockstepRecords nl nr (List.range (Nat.max nl nr))
      ↔ (a.1 = 0 ∧ a.2 < nl ∨ a.1 = 1 ∧ a.2 < nr) := by
  constructor
  · intro h
    exact (lockstepRecords_side _ _ _ a h).1
  · intro h
    apply lockstepRecords_mem _ _ _ _ _ h
    rw [List.mem_range]
    rcases h with ⟨_, h⟩ | ⟨_, h⟩
    · exact Nat.lt_of_lt_of_le h (Nat.le_max_left _ _)
    · exact Nat.lt_of_lt_of_le h (Nat.le_max_right _ _)

/-- The logical rows of a single-chunk table are the rows the kernels read. -/
theorem singleChunk_rows {t : Table} (hw : SingleChunk t) (row : Row) :
    row ∈ t.rows ↔ ∃ i, i < t.num_rows ∧ kernelRow t.num_columns t i = .ok row := by
  by_cases hn : t.num_columns = 0
  · have hcols : t.columns = [] := List.length_eq_zero.1 (hw.1.trans hn)
    have hrows : t.num_rows = 0 := by simp [Table.num_rows, hcols]
    simp [Table.rows, hrows]
  · have hpos : 0 < t.columns.length := by
      rw [hw.1]; exact Nat.pos_of_ne_zero hn
    have hval : ∀ i, i < t.num_rows →
        ∃ r, kernelRow t.num_columns t i = .ok r := fun i hi => singleChunk_kernelRow hw i hi
    have key : t.rows = (List.range t.num_rows).map (fun i =>
        match kernelRow t.num_columns t i with
        | .ok r => r
        | .error _ => []) := by
      have ht : t = ⟨t.schema, t.columns⟩ := rfl
      rw [ht]
      apply rows_of_transposed
      · exact hpos
      · intro r hr
        obtain ⟨i, hi, rfl⟩ := List.mem_map.1 hr
        obtain ⟨r', hr'⟩ := hval i (List.mem_range.1 hi)
        simp only [hr']
        rw [kernelRow_length hr', hw.1]
        rfl
      · intro k hk
        have hk' : k < t.num_columns := by
          have := hw.1
          unfold Table.num_columns
          exact this ▸ hk
        obtain ⟨a, hlen, hcol, hcell⟩ := singleChunk_keyCell hw k hk'
        have hck : t.columns[k] = [a] := by
          rw [List.getElem?_eq_getElem hk] at hcol
          exact Option.some.inj hcol
        rw [List.map_map]
        simp only [hck, ChunkedArray.values, List.flatten, List.append_nil]
        rw [← map_range_getElem a, hlen]
        apply List.map_congr_left
        intro i hi
        obtain ⟨r', hr'⟩ := hval i (List.mem_range.1 hi)
        simp only [Function.comp, hr']
        rw [kernelRow_getElem hr' k hk', hcell]
    rw [key, List.mem_map]
    constructor
    · rintro ⟨i, hi, rfl⟩
      obtain ⟨r', hr'⟩ := hval i (List.mem_range.1 hi)
      exact ⟨i, List.mem_range.1 hi, by simp only [hr']⟩
    · rintro ⟨i, hi, hrow⟩
      exact ⟨i, List.mem_range.2 hi, by simp only [hrow]⟩

/-- Which rows the table registered by `Union` holds: the rows of all the
records offered to the set. -/
theorem Union_ok_mem_rows (setOrder : Table → Table → List RowAddr → List RowAddr)
    (hso : ValidSetOrder setOrder)
    (s : State) (tl tr d : String) (ltab rtab : Table) (s' : State)
    (hl : GetTable s tl = some ltab) (hr : GetTable s tr = some rtab)
    (h : Union setOrder s tl tr d = .ok (Status.OK, s')) :
    ∃ out, Registers s s' d out ∧ out.schema = ltab.schema ∧
      ∀ row, row ∈ out.rows ↔
        ltab.num_columns ≠ 0 ∧
        ∃ a : RowAddr, (a.1 = 0 ∧ a.2 < ltab.num_rows ∨ a.1 = 1 ∧ a.2 < rtab.num_rows) ∧
          recordRow ltab rtab a = .ok row := by
  obtain ⟨out, hout, hschema, hrows⟩ :=
    Union_ok_rows setOrder hso s tl tr d ltab rtab s' hl hr h
  obtain ⟨_, hall, _⟩ := Union_ok_inv setOrder s tl tr d ltab rtab s' hl hr h
  have hperm := outputRecords_survivors_perm setOrder hso ltab rtab
  refine ⟨out, hout, hschema, fun row => ?_⟩
  rw [hrows]
  by_cases hn : ltab.num_columns = 0
  · simp [hn]
  · simp only [hn, if_false, ne_eq, not_false_eq_true, true_and, List.mem_map]
    constructor
    · rintro ⟨a, ha, rfl⟩
      have hlock := unionSurvivors_mem_lockstep _ _ a (hperm.subset ha)
      obtain ⟨r, hr'⟩ := hall a hlock
      exact ⟨a, (lockstepRecords_mem_iff _ _ a).1 hlock, by rw [recordValue_of_ok hr', hr']⟩
    · rintro ⟨a, hvalid, hrow⟩
      have hlock := (lockstepRecords_mem_iff _ _ a).2 hvalid
      obtain ⟨b, hb, hkey⟩ := keepFirst_cover (recordRow ltab rtab) _ [] a (Or.inr hlock)
      refine ⟨b, hperm.symm.subset hb, ?_⟩
      rw [hrow] at hkey
      exact recordValue_of_ok hkey

theorem recordRow_left (ltab rtab : Table) (i : Nat) :
    recordRow ltab rtab (0, i) = kernelRow ltab.num_columns ltab i := by
  simp [recordRow, unionTable]

theorem recordRow_right (ltab rtab : Table) (i : Nat) :
    recordRow ltab rtab (1, i) = kernelRow ltab.num_columns rtab i := by
  simp [recordRow, unionTable]

theorem exists_record_iff (ltab rtab : Table) (row : Row) :
    (∃ a : RowAddr, (a.1 = 0 ∧ a.2 < ltab.num_rows ∨ a.1 = 1 ∧ a.2 < rtab.num_rows) ∧
        recordRow ltab rtab a = .ok row)
      ↔ (∃ i, i < ltab.num_rows ∧ kernelRow ltab.num_columns ltab i = .ok row) ∨
        (∃ i, i < rtab.num_rows ∧ kernelRow ltab.num_columns rtab i = .ok row) := by
  constructor
  · rintro ⟨⟨side, i⟩, hvalid, hrow⟩
    simp only at hvalid
    rcases hvalid with ⟨rfl, hlt⟩ | ⟨rfl, hlt⟩
    · exact Or.inl ⟨i, hlt, by rw [← recordRow_left ltab rtab i]; exact hrow⟩
    · exact Or.inr ⟨i, hlt, by rw [← recordRow_right ltab rtab i]; exact hrow⟩
  · rintro (⟨i, hlt, hrow⟩ | ⟨i, hlt, hrow⟩)
    · exact ⟨(0, i), Or.inl ⟨rfl, hlt⟩, by rw [recordRow_left]; exact hrow⟩
    · exact ⟨(1, i), Or.inr ⟨rfl, hlt⟩, by rw [recordRow_right]; exact hrow⟩

/-- Claim C7 (as amended): for two registered single-chunk tables with
compatible schemas, of which the larger has no row or at least ten rows,
`Union` returns `OK` and registers under the destination id a table in which
a row occurs exactly when it is a row of the left table or of the right
table. -/
theorem Union_is_set_union (setOrder : Table → Table → List RowAddr → List RowAddr)
    (hso : ValidSetOrder setOrder)
    (s : State) (tl tr d : String) (ltab rtab : Table)
    (hl : GetTable s tl = some ltab) (hr : GetTable s tr = some rtab)
    (hc : SchemaCompatible ltab rtab) (hwl : SingleChunk ltab) (hwr : SingleChunk rtab)
    (hmax : Nat.max ltab.num_rows rtab.num_rows = 0 ∨ 10 ≤ Nat.max ltab.num_rows rtab.num_rows) :
    ∃ s' out, Union setOrder s tl tr d = .ok (Status.OK, s') ∧ Registers s s' d out ∧
      ∀ row, row ∈ out.rows ↔ row ∈ ltab.rows ∨ row ∈ rtab.rows := by
  obtain ⟨s', hs'⟩ := Union_returns setOrder hso s tl tr d ltab rtab hl hr hc hwl hwr hmax
  obtain ⟨out, hout, _, hmem⟩ :=
    Union_ok_mem_rows setOrder hso s tl tr d ltab rtab s' hl hr hs'
  have hn : ltab.num_columns = rtab.num_columns := schemaCompatible_length hc
  refine ⟨s', out, hs', hout, fun row => ?_⟩
  rw [hmem row, exists_record_iff, singleChunk_rows hwl, singleChunk_rows hwr, ← hn]
  constructor
  · exact fun h => h.2
  · intro h
    refine ⟨?_, h⟩
    intro h0
    have hl0 : ltab.num_rows = 0 := by
      have : ltab.columns = [] := List.length_eq_zero.1 (hwl.1.trans h0)
      simp [Table.num_rows, this]
    have hr0 : rtab.num_rows = 0 := by
      have : rtab.columns = [] := List.length_eq_zero.1 (hwr.1.trans (hn.symm.trans h0))
      simp [Table.num_rows, this]
    rcases h with ⟨i, hi, _⟩ | ⟨i, hi, _⟩
    · rw [hl0] at hi; cases hi
    · rw [hr0] at hi; cases hi

/-- The union of `[0,1,1,3,...,9]` and `[1,2]` holds the rows of both. -/
theorem Union_is_set_union_witness :
    ∃ s' out, Union insertionOrder unionState "l" "r" "d" = .ok (Status.OK, s') ∧
      Registers unionState s' "d" out ∧
      ∀ row, row ∈ out.rows ↔ row ∈ tenRows.rows ∨ row ∈ twoRows.rows :=
  Union_is_set_union insertionOrder insertionOrder_valid unionState "l" "r" "d" tenRows twoRows
    (by decide) (by decide) (by decide) (by decide) (by decide) (by decide)

/-- Claim C7 (counterexample): the left table holds ten rows in two chunks of
nine rows and one row, the right table is empty and has the same schema.
`Union` reads every row in chunk 0 of its column, so row 9 is read past the
end of the chunk and no union is returned. -/
theorem Union_two_chunks_fault :
    SchemaCompatible twoChunks noRows ∧ twoChunks.rows.length = 10 ∧
    Union insertionOrder chunkedState "l" "r" "d" = .error Fault.outOfRange := by
  decide

/-- When both orders of the arguments return `OK`, the two registered tables
hold the same set of rows. -/
theorem Union_ok_comm (order1 order2 : Table → Table → List RowAddr → List RowAddr)
    (ho1 : ValidSetOrder order1) (ho2 : ValidSetOrder order2)
    (s : State) (tl tr d : String) (ltab rtab : Table) (s1 s2 : State)
    (hl : GetTable s tl = some ltab) (hr : GetTable s tr = some rtab)
    (h1 : Union order1 s tl tr d = .ok (Status.OK, s1))
    (h2 : Union order2 s tr tl d = .ok (Status.OK, s2)) :
    ∃ out1 out2, Registers s s1 d out1 ∧ Registers s s2 d out2 ∧
      ∀ row, row ∈ out1.rows ↔ row ∈ out2.rows := by
  obtain ⟨out1, hout1, _, hmem1⟩ :=
    Union_ok_mem_rows order1 ho1 s tl tr d ltab rtab s1 hl hr h1
  obtain ⟨out2, hout2, _, hmem2⟩ :=
    Union_ok_mem_rows order2 ho2 s tr tl d rtab ltab s2 hr hl h2
  have hc := (Union_ok_inv order1 s tl tr d ltab rtab s1 hl hr h1).1
  have hn : ltab.num_columns = rtab.num_columns := schemaCompatible_length hc
  refine ⟨out1, out2, hout1, hout2, fun row => ?_⟩
  rw [hmem1 row, hmem2 row, exists_record_iff, exists_record_iff, ← hn]
  constructor
  · rintro ⟨h0, h⟩
    exact ⟨h0, h.symm⟩
  · rintro ⟨h0, h⟩
    exact ⟨h0, h.symm⟩

/-- Claim C8: for two registered tables, whenever `Union` of the left and the
right table and `Union` of the right and the left table return `OK`, the two
tables they register hold the same set of rows,
whatever the iteration orders of the two hash sets; and both calls do return
`OK` on single-chunk tables with compatible schemas of which the larger has
no row or at least ten rows. -/
theorem Union_commutative (order1 order2 : Table → Table → List RowAddr → List RowAddr)
    (ho1 : ValidSetOrder order1) (ho2 : ValidSetOrder order2)
    (s : State) (tl tr d : String) (ltab rtab : Table)
    (hl : GetTable s tl = some ltab) (hr : GetTable s tr = some rtab) :
    (∀ s1 s2, Union order1 s tl tr d = .ok (Status.OK, s1) →
      Union order2 s tr tl d = .ok (Status.OK, s2) →
      ∃ out1 out2, Registers s s1 d out1 ∧ Registers s s2 d out2 ∧
        ∀ row, row ∈ out1.rows ↔ row ∈ out2.rows) ∧
    (SchemaCompatible ltab rtab → SingleChunk ltab → SingleChunk rtab →
      (Nat.max ltab.num_rows rtab.num_rows = 0 ∨ 10 ≤ Nat.max ltab.num_rows rtab.num_rows) →
      ∃ s1 s2, Union order1 s tl tr d = .ok (Status.OK, s1) ∧
        Union order2 s tr tl d = .ok (Status.OK, s2)) := by
  refine ⟨fun s1 s2 h1 h2 =>
    Union_ok_comm order1 order2 ho1 ho2 s tl tr d ltab rtab s1 s2 hl hr h1 h2,
    fun hc hwl hwr hmax => ?_⟩
  obtain ⟨s1, h1⟩ := Union_returns order1 ho1 s tl tr d ltab rtab hl hr hc hwl hwr hmax
  have hc' : SchemaCompatible rtab ltab := by
    unfold SchemaCompatible at hc ⊢
    exact hc.symm
  have hmax' : Nat.max rtab.num_rows ltab.num_rows = 0 ∨
      10 ≤ Nat.max rtab.num_rows ltab.num_rows := by
    have e : Nat.max rtab.num_rows ltab.num_rows = Nat.max ltab.num_rows rtab.num_rows :=
      Nat.max_comm _ _
    rw [e]; exact hmax
  obtain ⟨s2, h2⟩ := Union_returns order2 ho2 s tr tl d rtab ltab hr hl hc' hwr hwl hmax'
  exact ⟨s1, s2, h1, h2⟩

/-- The unions of `[0,1,1,3,...,9]` and `[1,2]` in the two orders hold the same
rows. -/
theorem Union_commutative_witness :
    (∃ out1 out2,
      Registers unionState (PutTable unionState "d"
        ⟨tenRows.schema, [[[0, 3, 4, 5, 6, 7, 8, 9].map Value.int, [Value.int 1, Value.int 2]]]⟩)
        "d" out1 ∧
      Registers unionState (PutTable unionState "d"
        ⟨tenRows.schema, [[[1, 2].map Value.int, [0, 3, 4, 5, 6, 7, 8, 9].map Value.int]]⟩)
        "d" out2 ∧
      ∀ row, row ∈ out1.rows ↔ row ∈ out2.rows) ∧
    ∃ s1 s2, Union insertionOrder unionState "l" "r" "d" = .ok (Status.OK, s1) ∧
      Union insertionOrder unionState "r" "l" "d" = .ok (Status.OK, s2) :=
  ⟨(Union_commutative insertionOrder insertionOrder insertionOrder_valid insertionOrder_valid
      unionState "l" "r" "d" tenRows twoRows (by decide) (by decide)).1 _ _
      (by decide) (by decide),
   (Union_commutative insertionOrder insertionOrder insertionOrder_valid insertionOrder_valid
      unionState "l" "r" "d" tenRows twoRows (by decide) (by decide)).2
      (by decide) (by decide) (by decide) (by decide)⟩

/-! ## Union: the layout of the output -/

theorem lockstepRecords_pairwise (nl nr : Nat) (rows : List Nat)
    (h : rows.Pairwise (fun a b => a < b)) :
    (lockstepRecords nl nr rows).Pairwise lockstepBefore := by
  induction rows with
  | nil => exact List.Pairwise.nil
  | cons row rest ih =>
    rw [List.pairwise_cons] at h
    have hrest := ih h.2
    have htail : ∀ a ∈ lockstepRecords nl nr rest, row < a.2 := fun a ha =>
      h.1 a.2 (lockstepRecords_side nl nr rest a ha).2
    simp only [lockstepRecords]
    rw [List.pairwise_append]
    refine ⟨?_, ?_, ?_⟩
    · split
      · exact List.pairwise_singleton _ _
      · exact List.Pairwise.nil
    · rw [List.pairwise_append]
      refine ⟨?_, hrest, ?_⟩
      · split
        · exact List.pairwise_singleton _ _
        · exact List.Pairwise.nil
      · intro a ha b hb
        have ha2 : a.2 = row := by
          split at ha
          · have : a = (1, row) := by simpa using ha
            rw [this]
          · cases ha
        exact Or.inl (ha2 ▸ htail b hb)
    · intro a ha b hb
      have ha' : a = (0, row) := by
        split at ha
        · simpa using ha
        · cases ha
      subst ha'
      rcases List.mem_append.1 hb with hb | hb
      · have hb' : b = (1, row) := by
          split at hb
          · simpa using hb
          · cases hb
        subst hb'
        exact Or.inr ⟨rfl, Nat.zero_lt_one⟩
      · exact Or.inl (htail b hb)

/-- The records `Union` keeps: those with no record of equal row before them
in the order of insertion. -/
theorem unionSurvivors_mem_iff (ltab rtab : Table) (a : RowAddr) :
    a ∈ unionSurvivors ltab rtab ↔
      validRecord ltab rtab a ∧
        ∀ b, validRecord ltab rtab b → lockstepBefore b a →
          recordRow ltab rtab b ≠ recordRow ltab rtab a := by
  unfold unionSurvivors
  rw [keepFirst_mem_iff (recordRow ltab rtab) lockstepBefore
    (fun a h => by unfold lockstepBefore at h; omega)
    (fun a b h1 h2 => by unfold lockstepBefore at h1 h2; omega) _ []
    (lockstepRecords_pairwise _ _ _ (List.pairwise_lt_range _)) a]
  simp only [List.not_mem_nil, false_or, lockstepRecords_mem_iff, IsEmpty.forall_iff,
    implies_true, true_and]
  rfl

/-- Claim C9 (as amended): for two registered single-chunk tables with
compatible schemas, of which the larger has no row or at least ten rows,
`Union` returns `OK` and the registered table lists the rows of the kept
records of the left table, then the rows of the kept records of the right
table, each part in the iteration order of the hash set; a record is kept
exactly when no record with an equal row comes before it in the order of
insertion `L[0], R[0], L[1], R[1], ...`. -/
theorem Union_layout (setOrder : Table → Table → List RowAddr → List RowAddr)
    (hso : ValidSetOrder setOrder)
    (s : State) (tl tr d : String) (ltab rtab : Table)
    (hl : GetTable s tl = some ltab) (hr : GetTable s tr = some rtab)
    (hc : SchemaCompatible ltab rtab) (hwl : SingleChunk ltab) (hwr : SingleChunk rtab)
    (hmax : Nat.max ltab.num_rows rtab.num_rows = 0 ∨ 10 ≤ Nat.max ltab.num_rows rtab.num_rows) :
    ∃ (s' : State) (out : Table) (kept : List RowAddr),
      Union setOrder s tl tr d = .ok (Status.OK, s') ∧ Registers s s' d out ∧
      kept.Perm (unionSurvivors ltab rtab) ∧
      out.rows = (kept.filter (fun a => a.1 == 0)).map (recordValue ltab rtab)
        ++ (kept.filter (fun a => a.1 == 1)).map (recordValue ltab rtab) ∧
      ∀ a, a ∈ kept ↔
        validRecord ltab rtab a ∧
          ∀ b, validRecord ltab rtab b → lockstepBefore b a →
            recordRow ltab rtab b ≠ recordRow ltab rtab a := by
  obtain ⟨s', hs'⟩ := Union_returns setOrder hso s tl tr d ltab rtab hl hr hc hwl hwr hmax
  obtain ⟨out, hout, _, hrows⟩ := Union_ok_rows setOrder hso s tl tr d ltab rtab s' hl hr hs'
  have hperm := hso ltab rtab (unionSurvivors ltab rtab)
  refine ⟨s', out, setOrder ltab rtab (unionSurvivors ltab rtab), hs', hout, hperm, ?_,
    fun a => ?_⟩
  · rw [hrows]
    by_cases hn : ltab.num_columns = 0
    · have hl0 : ltab.num_rows = 0 := by
        have : ltab.columns = [] := List.length_eq_zero.1 (hwl.1.trans hn)
        simp [Table.num_rows, this]
      have hr0 : rtab.num_rows = 0 := by
        have : rtab.columns = [] :=
          List.length_eq_zero.1 (hwr.1.trans ((schemaCompatible_length hc).symm.trans hn))
        simp [Table.num_rows, this]
      have hnil : unionSurvivors ltab rtab = [] := by
        simp [unionSurvivors, hl0, hr0, lockstepRecords, keepFirst]
      rw [hnil] at hperm ⊢
      simp [hn, List.Perm.eq_nil hperm]
    · simp only [hn, if_false, outputRecords, List.map_append]
  · rw [← unionSurvivors_mem_iff]
    exact hperm.mem_iff

/-- The layout of the union of `[0,1,1,3,...,9]` and `[1,2]`. -/
theorem Union_layout_witness :
    ∃ (s' : State) (out : Table) (kept : List RowAddr),
      Union insertionOrder unionState "l" "r" "d" = .ok (Status.OK, s') ∧
      Registers unionState s' "d" out ∧
      kept.Perm (unionSurvivors tenRows twoRows) ∧
      out.rows = (kept.filter (fun a => a.1 == 0)).map (recordValue tenRows twoRows)
        ++ (kept.filter (fun a => a.1 == 1)).map (recordValue tenRows twoRows) ∧
      ∀ a, a ∈ kept ↔
        validRecord tenRows twoRows a ∧
          ∀ b, validRecord tenRows twoRows b → lockstepBefore b a →
            recordRow tenRows twoRows b ≠ recordRow tenRows twoRows a :=
  Union_layout insertionOrder insertionOrder_valid unionState "l" "r" "d" tenRows twoRows
    (by decide) (by decide) (by decide) (by decide) (by decide) (by decide)

/-- Claim C9 (counterexample): the left table is `[0,1,1,3,4,5,6,7,8,9]` and
the right table `[1,2]`.  The right row 1 is inserted before the left rows 1,
which are then dropped as duplicates, so even with the set iterated in
insertion order the output is `[0,3,4,5,6,7,8,9,1,2]`, not the layout
`[0,1,3,4,5,6,7,8,9,2]` of first occurrences, left table first. -/
theorem Union_layout_counterexample :
    Union insertionOrder unionState "l" "r" "d"
      = .ok (Status.OK, PutTable unionState "d"
          ⟨tenRows.schema,
           [[[0, 3, 4, 5, 6, 7, 8, 9].map Value.int, [Value.int 1, Value.int 2]]]⟩) ∧
    (⟨tenRows.schema,
      [[[0, 3, 4, 5, 6, 7, 8, 9].map Value.int, [Value.int 1, Value.int 2]]]⟩ : Table).rows
      = [0, 3, 4, 5, 6, 7, 8, 9, 1, 2].map (fun v => [Value.int v]) ∧
    firstOccurrenceLayout tenRows.rows twoRows.rows
      = [0, 1, 3, 4, 5, 6, 7, 8, 9, 2].map (fun v => [Value.int v]) ∧
    (⟨tenRows.schema,
      [[[0, 3, 4, 5, 6, 7, 8, 9].map Value.int, [Value.int 1, Value.int 2]]]⟩ : Table).rows
      ≠ firstOccurrenceLayout tenRows.rows twoRows.rows := by
  decide

/-- On the example of the specification (three and two rows) the insertion
loop of `Union` ends in the modulo by `print_threshold = 3 / 10 = 0`. -/
theorem Union_spec_example_fault :
    Union insertionOrder specState "l" "r" "d" = .error Fault.moduloByZero := by
  decide

/-! ## HashPartition: the partitions cover the table -/

theorem filter_lt_append_eq_perm {α : Type} (g : α → Nat) (P : Nat) (z : List α) :
    (z.filter (fun x => decide (g x < P)) ++ z.filter (fun x => g x == P)).Perm
      (z.filter (fun x => decide (g x < P + 1))) := by
  induction z with
  | nil => simp
  | cons x rest ih =>
    rcases Nat.lt_trichotomy (g x) P with h | h | h
    · have h1 : g x < P + 1 := by omega
      have h2 : ¬ g x = P := by omega
      simp only [List.filter_cons, h, h1, decide_True, if_true, beq_iff_eq, h2, if_false,
        List.cons_append]
      exact List.Perm.cons _ ih
    · have h1 : decide (g x < P + 1) = true := by simp; omega
      have h2 : decide (g x < P) = false := by simp; omega
      have h3 : (g x == P) = true := by simp [h]
      simp only [List.filter_cons, h1, h2, h3, if_true, Bool.false_eq_true, if_false]
      exact List.perm_middle.trans (List.Perm.cons _ ih)
    · have h1 : ¬ g x < P + 1 := by omega
      have h2 : ¬ g x < P := by omega
      have h3 : ¬ g x = P := by omega
      simp only [List.filter_cons, h1, h2, h3, decide_False, Bool.false_eq_true, if_false,
        beq_iff_eq]
      exact ih

theorem flatten_filter_range_perm {α : Type} (g : α → Nat) (P : Nat) (z : List α) :
    ((List.range P).map (fun p => z.filter (fun x => g x == p))).flatten.Perm
      (z.filter (fun x => decide (g x < P))) := by
  induction P with
  | zero => simp
  | succ P ih =>
    rw [List.range_succ, List.map_append, List.flatten_append]
    simp only [List.map_cons, List.map_nil, List.flatten_cons, List.flatten_nil,
      List.append_nil]
    exact (List.Perm.append_right _ ih).trans (filter_lt_append_eq_perm g P z)

/-- The partitions put one after the other are a permutation of the rows. -/
theorem concatPartitions_perm (rows : List Row) (pv : List Nat) (P : Nat)
    (hlen : pv.length = rows.length) (hlt : ∀ p ∈ pv, p < P) :
    (concatPartitions rows pv P).Perm rows := by
  unfold concatPartitions partitionRows
  have h1 := flatten_filter_range_perm (fun x : Row × Nat => x.2) P (rows.zip pv)
  have h2 : (rows.zip pv).filter (fun x => decide (x.2 < P)) = rows.zip pv := by
    apply List.filter_eq_self.2
    intro x hx
    simpa using hlt x.2 (List.of_mem_zip hx).2
  rw [h2] at h1
  have h3 := h1.map Prod.fst
  rw [List.map_flatten, List.map_map] at h3
  have h4 : (rows.zip pv).map Prod.fst = rows := List.map_fst_zip _ _ (by omega)
  rw [h4] at h3
  exact h3

/-! ## HashPartition on a single-chunk table -/

theorem singleChunk_firstChunk {t : Table} (hw : SingleChunk t) (k : Nat)
    (hk : k < t.num_columns) :
    t.column k = .ok [firstChunk t k] ∧ (firstChunk t k).length = t.num_rows := by
  obtain ⟨a, hlen, hcol, _⟩ := singleChunk_keyCell hw k hk
  have hf : firstChunk t k = a := by simp [firstChunk, hcol]
  rw [hf]
  exact ⟨by simp [Table.column, hcol], hlen⟩

theorem HashPartitionKeys_singleChunk {t : Table} (hw : SingleChunk t) (K : List Nat)
    (hK : ∀ k ∈ K, k < t.num_columns) (arrays : List Array) (length : Nat)
    (hlen : length = 0 ∨ length = t.num_rows) :
    HashPartitionKeys t K arrays length
      = .ok (some (arrays ++ K.map (firstChunk t), if K = [] then length else t.num_rows)) := by
  induction K generalizing arrays length with
  | nil => simp [HashPartitionKeys]
  | cons k rest ih =>
    obtain ⟨hc, hl⟩ := singleChunk_firstChunk hw k (hK k (by simp))
    have hcl : ChunkedArray.length [firstChunk t k] = t.num_rows := by
      simp [ChunkedArray.length, hl]
    have hcheck : (!(length == 0 || length == t.num_rows)) = false := by
      rcases hlen with h | h <;> simp [h]
    simp only [HashPartitionKeys, hc, ChunkedArray.chunk, List.getElem?_cons_zero, hcl, hcheck,
      Bool.false_eq_true, if_false]
    rw [ih (fun k' hk' => hK k' (by simp [hk'])) _ _ (Or.inr rfl)]
    simp

theorem HashPartitionArrays_total (combined_hash : List Value → Nat) (arrays : List Array)
    (N P : Nat) (hP : 0 < P) (harr : ∀ a ∈ arrays, a.length = N) :
    ∃ pv, HashPartitionArrays combined_hash arrays N (List.range P) = .ok pv ∧
      pv.length = N ∧ ∀ p ∈ pv, p < P := by
  have hex : ∃ pv, HashPartitionArrays combined_hash arrays N (List.range P) = .ok pv := by
    unfold HashPartitionArrays
    apply forEach_exists
    intro index hindex
    have hi : index < N := List.mem_range.1 hindex
    obtain ⟨keys, hkeys⟩ := forEach_exists (fun a => Array.at a index) arrays (fun a ha => by
      have : index < a.length := by rw [harr a ha]; exact hi
      exact ⟨a[index], by simp [Array.at, List.getElem?_eq_getElem this]⟩)
    have hm : combined_hash keys % (List.range P).length < (List.range P).length := by
      rw [List.length_range]; exact Nat.mod_lt _ hP
    refine ⟨(List.range P)[combined_hash keys % (List.range P).length], ?_⟩
    simp only [bind, Except.bind, hkeys, List.getElem?_eq_getElem hm]
  obtain ⟨pv, hpv⟩ := hex
  have hlen : pv.length = N := by
    have := forEach_length hpv
    simpa using this
  refine ⟨pv, hpv, hlen, fun p hp => ?_⟩
  obtain ⟨i, hi, hpi⟩ := List.getElem_of_mem hp
  obtain ⟨keys, _, hstep, _⟩ := HashPartitionArrays_step combined_hash arrays N _ pv hpv i
    (hlen ▸ hi)
  rw [List.getElem?_eq_getElem hi, hpi] at hstep
  have hm : combined_hash keys % (List.range P).length < (List.range P).length := by
    rw [List.length_range]; exact Nat.mod_lt _ hP
  rw [List.getElem?_eq_getElem hm, List.getElem_range] at hstep
  have : p = combined_hash keys % (List.range P).length := Option.some.inj hstep
  rw [this]
  simpa using hm

theorem HashPartitionVector_total (combined_hash : List Value → Nat) {t : Table}
    (hw : SingleChunk t) (K : List Nat) (hK : ∀ k ∈ K, k < t.num_columns) (P : Nat)
    (hP : 0 < P) :
    ∃ pv, HashPartitionVector combined_hash t K P = .ok (some pv) := by
  have hkeys := HashPartitionKeys_singleChunk hw K hK [] 0 (Or.inl rfl)
  rw [List.nil_append] at hkeys
  have harr : ∀ a ∈ K.map (firstChunk t), a.length = (if K = [] then 0 else t.num_rows) := by
    intro a ha
    obtain ⟨k, hk, rfl⟩ := List.mem_map.1 ha
    have hne : K ≠ [] := List.ne_nil_of_mem hk
    simp only [hne, if_false]
    exact (singleChunk_firstChunk hw k (hK k hk)).2
  obtain ⟨pv, hpv, _, _⟩ := HashPartitionArrays_total combined_hash _ _ P hP harr
  exact ⟨pv, by simp only [HashPartitionVector, hkeys, hpv]⟩

/-- Claim C4: the partition vector of `HashPartition` is a function of the key
columns only.  Two rows that are equal on all key columns get the same
partition, and two tables (say on two workers) whose key columns are the same
get the same partition vector, whatever their other columns hold.  The vector
exists for every single-chunk table, valid key columns and `P ≥ 1`. -/
theorem HashPartition_assignment_by_key (combined_hash : List Value → Nat)
    (t1 t2 : Table) (hash_columns : List Nat) (P : Nat) :
    (∀ pv, HashPartitionVector combined_hash t1 hash_columns P = .ok (some pv) →
      ∀ i j, i < pv.length → j < pv.length → SameKey t1 hash_columns i j → pv[i]? = pv[j]?) ∧
    ((∀ k ∈ hash_columns, t1.column k = t2.column k) →
      HashPartitionVector combined_hash t1 hash_columns P
        = HashPartitionVector combined_hash t2 hash_columns P) ∧
    (SingleChunk t1 → (∀ k ∈ hash_columns, k < t1.num_columns) → 0 < P →
      ∃ pv, HashPartitionVector combined_hash t1 hash_columns P = .ok (some pv)) := by
  refine ⟨fun pv h i j hi hj hs =>
    HashPartitionVector_same_key combined_hash t1 hash_columns P pv h i j hi hj hs,
    fun h => ?_, fun hw hK hP => HashPartitionVector_total combined_hash hw hash_columns hK P hP⟩
  unfold HashPartitionVector
  rw [HashPartitionKeys_congr t1 t2 hash_columns h]

/-- The keys 4, 7, 4 with two partitions: rows 0 and 2 share partition 0. -/
theorem HashPartition_assignment_by_key_witness :
    HashPartitionVector sumHash keysTable [0] 2 = .ok (some [0, 1, 0]) ∧
    SameKey keysTable [0] 0 2 ∧ ([0, 1, 0] : List Nat)[0]? = ([0, 1, 0] : List Nat)[2]? ∧
    HashPartitionVector sumHash keysTable [0] 2
      = HashPartitionVector sumHash ⟨[], keysTable.columns⟩ [0] 2 ∧
    ∃ pv, HashPartitionVector sumHash keysTable [0] 2 = .ok (some pv) :=
  ⟨by decide, by decide,
   (HashPartition_assignment_by_key sumHash keysTable ⟨[], keysTable.columns⟩ [0] 2).1
     [0, 1, 0] (by decide) 0 2 (by decide) (by decide) (by decide),
   (HashPartition_assignment_by_key sumHash keysTable ⟨[], keysTable.columns⟩ [0] 2).2.1
     (fun _ _ => rfl),
   (HashPartition_assignment_by_key sumHash keysTable ⟨[], keysTable.columns⟩ [0] 2).2.2
     (by decide) (by decide) (by decide)⟩

theorem forEach_at_range (a : Array) :
    forEach (fun i => Array.at a i) (List.range a.length) = .ok a := by
  rw [forEach_eq_ok_iff]
  simp only [Array.at]
  exact (map_run_iff (fun i => a[i]?) _ a).2 (map_range_getElem a)

theorem Split_eq (a : Array) (pv targets : List Nat) (h : pv.length = a.length) :
    Split a pv targets = .ok (targets.map (fun t => (t, partitionCells a pv t))) := by
  unfold Split
  rw [h, forEach_at_range]
  rfl

theorem HashPartitionSplit_singleChunk {t : Table} (hw : SingleChunk t) (pv : List Nat)
    (P : Nat) (hlen : pv.length = t.num_rows) :
    HashPartitionSplit t pv (List.range P)
      = .ok ((List.range t.num_columns).map (fun k =>
          (List.range P).map (fun p => (p, partitionCells (firstChunk t k) pv p)))) := by
  unfold HashPartitionSplit
  apply forEach_of_forall
  intro k hk
  obtain ⟨hc, hl⟩ := singleChunk_firstChunk hw k (List.mem_range.1 hk)
  simp only [hc, bind, Except.bind, ChunkedArray.chunk, List.getElem?_cons_zero]
  exact Split_eq _ _ _ (hlen.trans hl.symm)

theorem lookup_map_self {β : Type} (f : Nat → β) (l : List Nat) (t : Nat) (ht : t ∈ l) :
    (l.map (fun p => (p, f p))).lookup t = some (f t) := by
  induction l with
  | nil => cases ht
  | cons a rest ih =>
    simp only [List.map_cons, List.lookup_cons]
    by_cases h : t = a
    · subst h; simp
    · have : (t == a) = false := by simpa using h
      rw [this]
      rcases List.mem_cons.1 ht with h' | h'
      · exact absurd h' h
      · exact ih h'

theorem HashPartitionDataArrays_eq (t : Table) (pv : List Nat) (P : Nat) :
    HashPartitionDataArrays (List.range P)
        ((List.range t.num_columns).map (fun k =>
          (List.range P).map (fun p => (p, partitionCells (firstChunk t k) pv p))))
      = (List.range P).map (fun p =>
          (p, (List.range t.num_columns).map (fun k => partitionCells (firstChunk t k) pv p))) := by
  unfold HashPartitionDataArrays
  apply List.map_congr_left
  intro p hp
  congr 1
  rw [List.filterMap_map]
  rw [← List.filterMap_eq_map]
  apply List.filterMap_congr
  intro k _
  simp only [Function.comp]
  exact lookup_map_self _ _ p hp

/-! ## HashPartition: registering the partitions -/

theorem insert_uuid_count (s : State) (id : String) (t : Option Table) :
    (s.insert id t).uuid_count = s.uuid_count := by
  unfold State.insert
  split <;> rfl

theorem PutTableNew_state (uuid : Nat → String) (s : State) (t : Table)
    (hfresh : FreshUuids uuid s) :
    (PutTableNew uuid s t).1 = uuid s.uuid_count ∧
    (PutTableNew uuid s t).2.uuid_count = s.uuid_count + 1 ∧
    (PutTableNew uuid s t).2.find (uuid s.uuid_count) = some (some t) ∧
    (∀ id, id ≠ uuid s.uuid_count → (PutTableNew uuid s t).2.find id = s.find id) ∧
    FreshUuids uuid (PutTableNew uuid s t).2 := by
  have hnone : ({ s with uuid_count := s.uuid_count + 1 } : State).find (uuid s.uuid_count)
      = none := hfresh.2 _ (Nat.le_refl _)
  have hcount : (PutTableNew uuid s t).2.uuid_count = s.uuid_count + 1 := by
    simp only [PutTableNew, PutTable, insert_uuid_count]
  have hother : ∀ id, id ≠ uuid s.uuid_count → (PutTableNew uuid s t).2.find id = s.find id := by
    intro id hid
    simp only [PutTableNew, PutTable]
    rw [find_insert_other _ _ _ _ hid]
    rfl
  refine ⟨rfl, hcount, ?_, hother, ?_, ?_⟩
  · simp only [PutTableNew, PutTable]
    exact find_insert_self _ _ _ hnone
  · intro i j hi hij
    rw [hcount] at hi
    exact hfresh.1 i j (by omega) hij
  · intro i hi
    rw [hcount] at hi
    rw [hother _ (fun e => hfresh.1 s.uuid_count i (Nat.le_refl _) (by omega) e.symm)]
    exact hfresh.2 i (by omega)

theorem HashPartitionRegister_spec (uuid : Nat → String) (schema : List Field)
    (das : List (Nat × List Array)) (s : State) (out : List (Nat × String))
    (hfresh : FreshUuids uuid s) (hkeys : (das.map Prod.fst).Nodup)
    (hdisj : ∀ x ∈ das, ∀ y ∈ out, y.1 ≠ x.1) :
    (HashPartitionRegister uuid schema das s out).1
      = out ++ (das.zip (List.range' s.uuid_count das.length)).map (fun x => (x.1.1, uuid x.2)) ∧
    (∀ j (hj : j < das.length),
      GetTable (HashPartitionRegister uuid schema das s out).2 (uuid (s.uuid_count + j))
        = some (Table.Make schema das[j].2)) ∧
    (∀ id, s.find id ≠ none →
      (HashPartitionRegister uuid schema das s out).2.find id = s.find id) := by
  induction das generalizing s out with
  | nil =>
    refine ⟨by simp [HashPartitionRegister], fun j hj => ?_, fun id _ => rfl⟩
    cases hj
  | cons d rest ih =>
    obtain ⟨t, arrays⟩ := d
    obtain ⟨hid, hcount, hself, hother, hfresh'⟩ :=
      PutTableNew_state uuid s (Table.Make schema arrays) hfresh
    have hany : out.any (fun x => x.1 == t) = false := by
      rw [List.any_eq_false]
      intro y hy
      simpa using hdisj (t, arrays) (by simp) y hy
    rw [List.map_cons, List.nodup_cons] at hkeys
    have hdisj' : ∀ x ∈ rest, ∀ y ∈ out ++ [(t, uuid s.uuid_count)], y.1 ≠ x.1 := by
      intro x hx y hy
      rcases List.mem_append.1 hy with hy | hy
      · exact hdisj x (List.mem_cons_of_mem _ hx) y hy
      · have : y = (t, uuid s.uuid_count) := by simpa using hy
        rw [this]
        intro e
        exact hkeys.1 (List.mem_map.2 ⟨x, hx, e.symm⟩)
    obtain ⟨h1, h2, h3⟩ := ih (PutTableNew uuid s (Table.Make schema arrays)).2
      (out ++ [(t, uuid s.uuid_count)]) hfresh' hkeys.2 hdisj'
    simp only [HashPartitionRegister, hany, Bool.false_eq_true, if_false, hid]
    refine ⟨?_, ?_, ?_⟩
    · rw [h1, hcount, List.length_cons, List.range'_succ, List.zip_cons_cons, List.map_cons,
        List.append_assoc]
      rfl
    · intro j hj
      cases j with
      | zero =>
        have := h3 (uuid s.uuid_count) (by rw [hself]; simp)
        simp only [GetTable, Nat.add_zero, this, hself, List.getElem_cons_zero]
      | succ j =>
        have := h2 j (by simpa using hj)
        rw [hcount] at this
        have e : s.uuid_count + (j + 1) = s.uuid_count + 1 + j := by omega
        rw [e]
        simpa using this
    · intro id hne
      have hid' : id ≠ uuid s.uuid_count := by
        intro e
        apply hne
        rw [e]
        exact hfresh.2 _ (Nat.le_refl _)
      rw [h3 id (by rw [hother id hid']; exact hne), hother id hid']

/-! ## HashPartition: the rows of a partition -/

theorem singleChunk_rows_facts {t : Table} (hw : SingleChunk t) (hn : t.num_columns ≠ 0) :
    t.rows.length = t.num_rows ∧ (∀ r ∈ t.rows, r.length = t.num_columns) ∧
    ∀ k, k < t.num_columns → t.rows.map (fun r => r[k]?) = (firstChunk t k).map some := by
  have hval : ∀ i, i < t.num_rows →
      ∃ r, kernelRow t.num_columns t i = .ok r := fun i hi => singleChunk_kernelRow hw i hi
  have hcol : ∀ k, k < t.num_columns →
      ((List.range t.num_rows).map (fun i =>
        match kernelRow t.num_columns t i with
        | .ok r => r
        | .error _ => [])).map (fun r => r[k]?) = (firstChunk t k).map some := by
    intro k hk
    obtain ⟨a, hlen, hcolk, hcell⟩ := singleChunk_keyCell hw k hk
    have hf : firstChunk t k = a := by simp [firstChunk, hcolk]
    rw [hf, List.map_map, ← map_range_getElem a, hlen]
    apply List.map_congr_left
    intro i hi
    obtain ⟨r', hr'⟩ := hval i (List.mem_range.1 hi)
    simp only [Function.comp, hr']
    rw [kernelRow_getElem hr' k hk, hcell]
  have hrowlen : ∀ r ∈ (List.range t.num_rows).map (fun i =>
        match kernelRow t.num_columns t i with
        | .ok r => r
        | .error _ => []), r.length = t.num_columns := by
    intro r hr
    obtain ⟨i, hi, rfl⟩ := List.mem_map.1 hr
    obtain ⟨r', hr'⟩ := hval i (List.mem_range.1 hi)
    simp only [hr']
    exact kernelRow_length hr'
  have key : t.rows = (List.range t.num_rows).map (fun i =>
      match kernelRow t.num_columns t i with
      | .ok r => r
      | .error _ => []) := by
    have ht : t = ⟨t.schema, t.columns⟩ := rfl
    rw [ht]
    apply rows_of_transposed
    · show 0 < t.columns.length
      rw [hw.1]; exact Nat.pos_of_ne_zero hn
    · intro r hr
      rw [hrowlen r hr, hw.1]
      rfl
    · intro k hk
      have hk' : k < t.num_columns := by
        unfold Table.num_columns
        exact hw.1 ▸ hk
      obtain ⟨a, _, hcolk, _⟩ := singleChunk_keyCell hw k hk'
      have hck : t.columns[k] = [a] := by
        rw [List.getElem?_eq_getElem hk] at hcolk
        exact Option.some.inj hcolk
      have hf : firstChunk t k = a := by simp [firstChunk, hcolk]
      rw [hcol k hk', hf]
      simp only [hck, ChunkedArray.values, List.flatten, List.append_nil]
  rw [key]
  exact ⟨by simp, hrowlen, hcol⟩

theorem zip_filter_map_congr {α β γ : Type} (g1 : α → γ) (g2 : β → γ) (q : Nat → Bool)
    (xs : List α) (ys : List β) (pv : List Nat) (h : xs.map g1 = ys.map g2) :
    (((xs.zip pv).filter (fun x => q x.2)).map Prod.fst).map g1
      = (((ys.zip pv).filter (fun x => q x.2)).map Prod.fst).map g2 := by
  induction xs generalizing ys pv with
  | nil =>
    cases ys with
    | nil => rfl
    | cons y ys' => simp at h
  | cons x xs' ih =>
    cases ys with
    | nil => simp at h
    | cons y ys' =>
      simp only [List.map_cons, List.cons.injEq] at h
      cases pv with
      | nil => rfl
      | cons p0 pv' =>
        simp only [List.zip_cons_cons, List.filter_cons]
        cases q p0
        · simpa using ih ys' pv' h.2
        · simpa [h.1] using ih ys' pv' h.2

/-- The table built from the split columns of partition `p` holds the rows
of the input that the partition vector gives to `p`, in their order. -/
theorem partition_table_rows {t : Table} (hw : SingleChunk t) (hn : t.num_columns ≠ 0)
    (pv : List Nat) (p : Nat) :
    (Table.Make t.schema
      ((List.range t.num_columns).map (fun k => partitionCells (firstChunk t k) pv p))).rows
      = partitionRows t.rows pv p := by
  obtain ⟨_, hrowlen, hcol⟩ := singleChunk_rows_facts hw hn
  unfold Table.Make
  apply rows_of_transposed
  · simpa using Nat.pos_of_ne_zero hn
  · intro r hr
    simp only [List.length_map, List.length_range]
    apply hrowlen
    unfold partitionRows at hr
    obtain ⟨x, hx, rfl⟩ := List.mem_map.1 hr
    exact (List.of_mem_zip (List.mem_filter.1 hx).1).1
  · intro k hk
    have hk' : k < t.num_columns := by simpa using hk
    simp only [List.getElem_map, List.getElem_range, ChunkedArray.values, List.flatten,
      List.append_nil]
    unfold partitionCells partitionRows
    exact zip_filter_map_congr some (fun r : Row => r[k]?) (fun x => x == p)
      (firstChunk t k) t.rows pv (hcol k hk').symm

/-! ## HashPartition: the contract -/

theorem map_fst_zip_map {α : Type} (uuid : Nat → String) (das : List (Nat × α))
    (l : List Nat) (h : das.length = l.length) :
    ((das.zip l).map (fun x => (x.1.1, uuid x.2))).map Prod.fst = das.map Prod.fst := by
  rw [List.map_map]
  have : (Prod.fst ∘ fun x : (Nat × α) × Nat => (x.1.1, uuid x.2))
      = (Prod.fst ∘ Prod.fst) := rfl
  rw [this, ← List.map_map, List.map_fst_zip _ _ (by omega)]

theorem map_snd_zip_map {α : Type} (uuid : Nat → String) (das : List (Nat × α))
    (l : List Nat) (h : das.length = l.length) :
    ((das.zip l).map (fun x => (x.1.1, uuid x.2))).map Prod.snd = l.map uuid := by
  rw [List.map_map]
  have : (Prod.snd ∘ fun x : (Nat × α) × Nat => (x.1.1, uuid x.2))
      = (uuid ∘ Prod.snd) := rfl
  rw [this, ← List.map_map, List.map_snd_zip _ _ (by omega)]

theorem mem_zip_rangeFrom {α : Type} (das : List α) (c : Nat) (x : α × Nat)
    (h : x ∈ das.zip (List.range' c das.length)) :
    ∃ j, ∃ hj : j < das.length, das[j] = x.1 ∧ x.2 = c + j := by
  obtain ⟨j, hj, hx⟩ := List.getElem_of_mem h
  have hj1 : j < das.length := by
    simp only [List.length_zip, List.length_range'] at hj
    omega
  refine ⟨j, hj1, ?_, ?_⟩
  · rw [← hx, List.getElem_zip]
  · rw [← hx, List.getElem_zip, List.getElem_range']
    simp

/-- Claim C3 (as amended): for a registered single-chunk table, a non-empty
list of valid key columns, `P ≥ 1` and fresh UUIDs, `HashPartition` returns
`OK` with exactly one output id for each partition of `[0, P)`, all
different; the table under the id of partition `p` has the schema of the
input and holds exactly the rows whose entry in the partition vector is `p`,
in their original order; the partitions put one after the other are a
permutation of the rows of the input. -/
theorem HashPartition_partitions (combined_hash : List Value → Nat) (uuid : Nat → String)
    (mapOrder : List (Nat × List Array) → List (Nat × List Array))
    (hmo : ValidMapOrder mapOrder)
    (s : State) (id : String) (K : List Nat) (P : Nat) (t : Table)
    (ht : GetTable s id = some t) (hw : SingleChunk t)
    (hK0 : K ≠ []) (hK : ∀ k ∈ K, k < t.num_columns) (hP : 0 < P)
    (hfresh : FreshUuids uuid s) :
    ∃ (pv : List Nat) (out : List (Nat × String)) (s' : State),
      HashPartitionVector combined_hash t K P = .ok (some pv) ∧
      pv.length = t.num_rows ∧
      HashPartition combined_hash uuid mapOrder s id K P = .ok (Status.OK, out, s') ∧
      (out.map Prod.fst).Perm (List.range P) ∧ (out.map Prod.snd).Nodup ∧
      (∀ p u, (p, u) ∈ out →
        ∃ part, GetTable s' u = some part ∧ part.schema = t.schema ∧
          part.rows = partitionRows t.rows pv p) ∧
      (concatPartitions t.rows pv P).Perm t.rows := by
  have hn : t.num_columns ≠ 0 := by
    cases K with
    | nil => exact absurd rfl hK0
    | cons k rest => exact Nat.ne_of_gt (Nat.lt_of_le_of_lt (Nat.zero_le _) (hK k (by simp)))
  have hkeys : HashPartitionKeys t K [] 0 = .ok (some (K.map (firstChunk t), t.num_rows)) := by
    rw [HashPartitionKeys_singleChunk hw K hK [] 0 (Or.inl rfl)]
    simp [hK0]
  obtain ⟨pv, hpv, hlen, hlt⟩ := HashPartitionArrays_total combined_hash (K.map (firstChunk t))
    t.num_rows P hP (by
      intro a ha
      obtain ⟨k, hk, rfl⟩ := List.mem_map.1 ha
      exact (singleChunk_firstChunk hw k (hK k hk)).2)
  have hvec : HashPartitionVector combined_hash t K P = .ok (some pv) := by
    simp only [HashPartitionVector, hkeys, hpv]
  obtain ⟨hrl, _, _⟩ := singleChunk_rows_facts hw hn
  -- the entries of `data_arrays`
  let das : List (Nat × List Array) := (List.range P).map (fun p =>
    (p, (List.range t.num_columns).map (fun k => partitionCells (firstChunk t k) pv p)))
  have hdas_keys : das.map Prod.fst = List.range P := by
    simp only [das, List.map_map]
    exact List.map_id' _
  have hperm := hmo das
  have hnodup : ((mapOrder das).map Prod.fst).Nodup := by
    have := (hperm.map Prod.fst).nodup_iff.2 (by rw [hdas_keys]; exact List.nodup_range P)
    exact this
  obtain ⟨hout, hget, _⟩ := HashPartitionRegister_spec uuid t.schema (mapOrder das) s []
    hfresh hnodup (fun _ _ y hy => by cases hy)
  have hrun : HashPartition combined_hash uuid mapOrder s id K P
      = .ok (Status.OK, (HashPartitionRegister uuid t.schema (mapOrder das) s []).1,
          (HashPartitionRegister uuid t.schema (mapOrder das) s []).2) := by
    simp only [HashPartition, ht, hvec, HashPartitionSplit_singleChunk hw pv P hlen,
      HashPartitionDataArrays_eq, das]
  rw [List.nil_append] at hout
  have hzl : (mapOrder das).length = (List.range' s.uuid_count (mapOrder das).length).length := by
    simp
  refine ⟨pv, _, _, hvec, hlen, hrun, ?_, ?_, ?_, ?_⟩
  · rw [hout, map_fst_zip_map uuid _ _ hzl]
    exact (hperm.map Prod.fst).trans (by rw [hdas_keys])
  · rw [hout, map_snd_zip_map uuid _ _ hzl]
    apply List.Nodup.map_on
    · intro x hx y hy hxy
      have hx' := (List.mem_range'_1.1 hx).1
      have hy' := (List.mem_range'_1.1 hy).1
      rcases Nat.lt_trichotomy x y with h | h | h
      · exact absurd hxy (hfresh.1 x y hx' h)
      · exact h
      · exact absurd hxy.symm (hfresh.1 y x hy' h)
    · exact List.nodup_range' _ _
  · intro p u hpu
    rw [hout] at hpu
    obtain ⟨x, hx, hxe⟩ := List.mem_map.1 hpu
    obtain ⟨j, hj, hdj, hxj⟩ := mem_zip_rangeFrom (mapOrder das) s.uuid_count x hx
    simp only [Prod.mk.injEq] at hxe
    have hmem : (mapOrder das)[j] ∈ das := hperm.subset (List.getElem_mem hj)
    obtain ⟨p', _, hp'⟩ := List.mem_map.1 hmem
    have hpp : p' = p := by
      have := congrArg Prod.fst hp'
      simp only at this
      rw [this, hdj]
      exact hxe.1
    refine ⟨Table.Make t.schema (mapOrder das)[j].2, ?_, rfl, ?_⟩
    · rw [← hxe.2, hxj]
      exact hget j hj
    · rw [← hp', hpp]
      exact partition_table_rows hw hn pv p
  · exact concatPartitions_perm t.rows pv P (hlen.trans hrl.symm) hlt

theorem indexOrder_valid : ValidMapOrder indexOrder := fun _ => List.Perm.refl _

theorem countingUuid_injective (i j : Nat) (h : countingUuid i = countingUuid j) : i = j := by
  unfold countingUuid at h
  have h1 := congrArg (fun x => x.data.length) h
  simp only [List.length_replicate] at h1
  omega

theorem countingUuid_fresh : FreshUuids countingUuid keysState := by
  refine ⟨fun i j _ hij e => ?_, fun i _ => ?_⟩
  · have := countingUuid_injective i j e
    omega
  · have hne : ¬ ("t" = countingUuid i) := by
      intro e
      have h1 := congrArg (fun x => x.data.head?) e
      simp [countingUuid, List.replicate_succ] at h1
    simp [State.find, keysState, hne]

/-- The keys 4, 7, 4 split into two partitions. -/
theorem HashPartition_partitions_witness :
    ∃ (pv : List Nat) (out : List (Nat × String)) (s' : State),
      HashPartitionVector sumHash keysTable [0] 2 = .ok (some pv) ∧
      pv.length = keysTable.num_rows ∧
      HashPartition sumHash countingUuid indexOrder keysState "t" [0] 2
        = .ok (Status.OK, out, s') ∧
      (out.map Prod.fst).Perm (List.range 2) ∧ (out.map Prod.snd).Nodup ∧
      (∀ p u, (p, u) ∈ out →
        ∃ part, GetTable s' u = some part ∧ part.schema = keysTable.schema ∧
          part.rows = partitionRows keysTable.rows pv p) ∧
      (concatPartitions keysTable.rows pv 2).Perm keysTable.rows :=
  HashPartition_partitions sumHash countingUuid indexOrder indexOrder_valid keysState "t" [0] 2
    keysTable (by decide) (by decide) (by decide) (by decide) (by decide) countingUuid_fresh

/-- Claim C3 (counterexample): a table of two rows held in two chunks of one
row is not partitioned: the keys are read in chunk 0 only and row 1 is read
past its end.  And with an empty list of key columns the partition vector is
empty, so for the three-row table `keysTable` both output tables are empty
and their concatenation is not a permutation of the three rows. -/
theorem HashPartition_counterexample :
    twoChunkRows.rows.length = 2 ∧
    HashPartition sumHash countingUuid indexOrder twoChunkState "t" [0] 1
      = .error Fault.outOfRange ∧
    keysTable.rows.length = 3 ∧
    HashPartition sumHash countingUuid indexOrder keysState "t" [] 2
      = .ok (Status.OK, [(0, "u"), (1, "uu")],
          ⟨[("t", some keysTable), ("u", some ⟨keysTable.schema, [[[]]]⟩),
            ("uu", some ⟨keysTable.schema, [[[]]]⟩)], 2⟩) ∧
    (⟨keysTable.schema, [[[]]]⟩ : Table).rows = [] := by
  decide

/-! ## The registry as a finite map -/

theorem find_remove_self (s : State) (id : String) : (RemoveTable s id).find id = none := by
  unfold RemoveTable State.find
  simp only [Option.map_eq_none', List.find?_eq_none, List.mem_filter]
  rintro x ⟨_, hx⟩
  simpa using hx

theorem find_remove_other (s : State) (id id' : String) (h : id' ≠ id) :
    (RemoveTable s id).find id' = s.find id' := by
  unfold RemoveTable State.find
  simp only [List.find?_filter]
  congr 2
  funext a
  by_cases ha : a.1 = id'
  · have hne : ¬ a.1 = id := fun e => h (ha.symm.trans e)
    simp [ha, hne, h]
  · simp [ha]

theorem GetTable_of_find_none (s : State) (id : String) (h : s.find id = none) :
    GetTable s id = none := by
  unfold GetTable
  rw [h]

/-- C20: the registry behaves as a finite map.  After `PutTable(id, t)` on a
registry without `id`, `GetTable(id)` is `t`; `PutTable(t)` returns an id (a
UUID that is not registered yet) under which `GetTable` returns `t`; after
`RemoveTable(id)`, and for an id that is not in the registry, `GetTable`
returns null; each of the three operations leaves the binding of every other
id as it was. -/
theorem registry_is_finite_map (uuid : Nat → String) (s : State) (id other : String)
    (t : Table) (hother : other ≠ id) :
    (s.find id = none → GetTable (PutTable s id t) id = some t) ∧
    (s.find (uuid s.uuid_count) = none →
      GetTable (PutTableNew uuid s t).2 (PutTableNew uuid s t).1 = some t) ∧
    GetTable (RemoveTable s id) id = none ∧
    (s.find id = none → GetTable s id = none) ∧
    (PutTable s id t).find other = s.find other ∧
    (other ≠ (PutTableNew uuid s t).1 →
      (PutTableNew uuid s t).2.find other = s.find other) ∧
    (RemoveTable s id).find other = s.find other := by
  refine ⟨GetTable_PutTable_self s id t, ?_, ?_, GetTable_of_find_none s id,
    find_insert_other s id other (some t) hother, ?_, find_remove_other s id other hother⟩
  · intro h
    exact GetTable_PutTable_self { s with uuid_count := s.uuid_count + 1 } _ t h
  · exact GetTable_of_find_none _ _ (find_remove_self s id)
  · intro h
    exact find_insert_other { s with uuid_count := s.uuid_count + 1 } _ other (some t) h

theorem registry_is_finite_map_witness :
    GetTable (PutTable keysState "a" tenRows) "a" = some tenRows ∧
    GetTable (PutTableNew countingUuid keysState tenRows).2 "u" = some tenRows ∧
    GetTable (RemoveTable keysState "t") "t" = none ∧
    (RemoveTable keysState "a").find "t" = some (some keysTable) := by
  have h := registry_is_finite_map countingUuid keysState "a" "t" tenRows (by decide)
  refine ⟨h.1 (by decide), h.2.1 (by decide), by decide, ?_⟩
  rw [h.2.2.2.2.2.2]
  decide

/-! ## Project -/

theorem ProjectColumn_ok (T : Table) (col_index : Nat) (hs : col_index < T.schema.length)
    (hc : col_index < T.columns.length) :
    ProjectColumn (some T) col_index = .ok (T.schema[col_index], T.columns[col_index]) := by
  simp only [ProjectColumn, Table.field, Table.column, List.getElem?_eq_getElem hs,
    List.getElem?_eq_getElem hc, bind, Except.bind, pure, Except.pure]

theorem map_range_getElem_self {α : Type} (l : List α) (g : Nat → α)
    (h : ∀ i (hi : i < l.length), g i = l[i]) : (List.range l.length).map g = l := by
  apply List.ext_getElem?
  intro i
  by_cases hi : i < l.length
  · simp [List.getElem?_map, List.getElem?_range hi, List.getElem?_eq_getElem hi, h i hi]
  · have h1 : l.length ≤ i := Nat.le_of_not_lt hi
    rw [List.getElem?_eq_none h1, List.getElem?_eq_none (by simpa using h1)]

/-- C12: for a registered table `T` with one column per field and a list of
valid column indices, `Project` returns OK and hands to `PutTable(out, ...)` a
table whose `i`-th field and `i`-th column (with its chunks) are the field and
the column of `T` at `project_columns[i]`; for the list `0, ..., n - 1` of all
columns that table is `T` itself (same schema, same rows, same chunks). -/
theorem Project_picks_columns (s : State) (id out : String) (T : Table)
    (project_columns : List Nat) (hT : GetTable s id = some T)
    (hwf : T.columns.length = T.schema.length)
    (hvalid : ∀ col_index ∈ project_columns, col_index < T.num_columns) :
    ∃ (P : Table) (s' : State),
      Project s id project_columns out = .ok (Status.OK, s') ∧ Registers s s' out P ∧
      P.schema.length = project_columns.length ∧
      P.columns.length = project_columns.length ∧
      (∀ i (hi : i < project_columns.length),
        P.schema[i]? = T.schema[project_columns[i]]? ∧
        (P.schema[i]?).isSome ∧
        P.columns[i]? = T.columns[project_columns[i]]? ∧
        (P.columns[i]?).isSome) ∧
      (project_columns = List.range T.num_columns → P = T ∧ P.rows = T.rows) := by
  have hrun : forEach (ProjectColumn (some T)) project_columns
      = .ok (project_columns.map (fun col_index =>
          ((T.schema[col_index]?).getD ⟨"", DataType.bool⟩,
            (T.columns[col_index]?).getD []))) := by
    apply forEach_of_forall
    intro col_index hmem
    have hs : col_index < T.schema.length := hvalid col_index hmem
    have hc : col_index < T.columns.length := hwf ▸ hs
    rw [ProjectColumn_ok T col_index hs hc, List.getElem?_eq_getElem hs,
      List.getElem?_eq_getElem hc]
    rfl
  refine ⟨⟨(project_columns.map (fun col_index =>
      ((T.schema[col_index]?).getD ⟨"", DataType.bool⟩,
        (T.columns[col_index]?).getD []))).map Prod.fst,
    (project_columns.map (fun col_index =>
      ((T.schema[col_index]?).getD ⟨"", DataType.bool⟩,
        (T.columns[col_index]?).getD []))).map Prod.snd⟩, _, ?_,
    registers_of_eq _ _ _ _ rfl, ?_, ?_, ?_, ?_⟩
  · simp only [Project, hT, hrun]
  · simp
  · simp
  · intro i hi
    have hs : project_columns[i] < T.schema.length := hvalid _ (List.getElem_mem hi)
    have hc : project_columns[i] < T.columns.length := hwf ▸ hs
    simp [List.getElem?_map, List.getElem?_eq_getElem hi, List.getElem?_eq_getElem hs,
      List.getElem?_eq_getElem hc]
  · intro hall
    have hP : (⟨(project_columns.map (fun col_index =>
          ((T.schema[col_index]?).getD ⟨"", DataType.bool⟩,
            (T.columns[col_index]?).getD []))).map Prod.fst,
        (project_columns.map (fun col_index =>
          ((T.schema[col_index]?).getD ⟨"", DataType.bool⟩,
            (T.columns[col_index]?).getD []))).map Prod.snd⟩ : Table) = T := by
      rw [hall]
      cases T with
      | mk schema columns =>
        simp only [Table.num_columns, List.map_map, Table.mk.injEq]
        simp only at hwf
        constructor
        · apply map_range_getElem_self
          intro i hi
          simp [List.getElem?_eq_getElem hi]
        · rw [← hwf]
          apply map_range_getElem_self
          intro i hi
          simp [List.getElem?_eq_getElem hi]
    exact ⟨hP, by rw [hP]⟩

theorem Project_picks_columns_witness :
    ∃ (P : Table) (s' : State),
      Project specState "l" [0, 1] "p" = .ok (Status.OK, s') ∧ Registers specState s' "p" P ∧
      P.schema.length = [0, 1].length ∧
      P.columns.length = [0, 1].length ∧
      (∀ i (hi : i < [0, 1].length),
        P.schema[i]? = specLeft.schema[[0, 1][i]]? ∧
        (P.schema[i]?).isSome ∧
        P.columns[i]? = specLeft.columns[[0, 1][i]]? ∧
        (P.columns[i]?).isSome) ∧
      ([0, 1] = List.range specLeft.num_columns → P = specLeft ∧ P.rows = specLeft.rows) :=
  Project_picks_columns specState "l" "p" specLeft [0, 1] (by decide) (by decide) (by decide)

/-! ## JoinTables: the two exits -/

/-- C17: when the left or the right id is not registered, `JoinTables` returns
`KeyError` and the state it leaves is the state it was given, whatever the
join kernel is (even one that ends the execution on every call): the kernel
is not invoked and nothing is registered under `dest_id`. -/
theorem JoinTables_unregistered_KeyError (join : JoinKernel) (s : State)
    (table_left table_right : String) (join_config : JoinConfig) (dest_id : String)
    (h : GetTable s table_left = none ∨ GetTable s table_right = none) :
    JoinTables join s table_left table_right join_config dest_id
      = .ok (⟨Code.KeyError⟩, s) := by
  unfold JoinTables
  rcases h with h | h
  · simp only [h]
  · cases hl : GetTable s table_left with
    | none => rfl
    | some l => simp only [h]

theorem JoinTables_unregistered_KeyError_witness :
    JoinTables (fun _ _ _ => .error Fault.fatalLog) keysState "t" "missing" firstColumns "d"
      = .ok (⟨Code.KeyError⟩, keysState) :=
  JoinTables_unregistered_KeyError _ keysState "t" "missing" firstColumns "d"
    (Or.inr (by decide))

/-- C18: `JoinTables` hands the output pointer of the join kernel to
`PutTable(dest_id, ...)` before it looks at the status.  When the kernel
reports a failure on two registered tables, `JoinTables` returns that status
and `dest_id`, free before, is a key of `table_map` afterwards, bound to
whatever the kernel left in the pointer. -/
theorem JoinTables_registers_on_kernel_failure (join : JoinKernel) (s : State)
    (table_left table_right : String) (join_config : JoinConfig) (dest_id : String)
    (l r : Table) (status : Status) (table : Option Table)
    (hl : GetTable s table_left = some l) (hr : GetTable s table_right = some r)
    (hj : join l r join_config = .ok (status, table)) (hs : status.is_ok = false)
    (hd : s.find dest_id = none) :
    ∃ s', JoinTables join s table_left table_right join_config dest_id = .ok (status, s') ∧
      status ≠ Status.OK ∧ s'.find dest_id = some table ∧
      ∀ t, PutTable s' dest_id t = s' := by
  refine ⟨s.insert dest_id table, ?_, ?_, find_insert_self s dest_id table hd, ?_⟩
  · simp only [JoinTables, hl, hr, hj]
  · intro e
    rw [e] at hs
    cases hs
  · intro t
    unfold PutTable
    generalize hs' : s.insert dest_id table = s'
    have hf : s'.find dest_id = some table := hs' ▸ find_insert_self s dest_id table hd
    unfold State.insert
    rw [hf]

theorem JoinTables_registers_on_kernel_failure_witness :
    ∃ s', JoinTables failingJoin keysState "t" "t" firstColumns "d"
        = .ok (⟨Code.ExecutionError⟩, s') ∧
      (⟨Code.ExecutionError⟩ : Status) ≠ Status.OK ∧ s'.find "d" = some none ∧
      ∀ t, PutTable s' "d" t = s' :=
  JoinTables_registers_on_kernel_failure failingJoin keysState "t" "t" firstColumns "d"
    keysTable keysTable ⟨Code.ExecutionError⟩ none (by decide) (by decide) rfl (by decide)
    (by decide)

/-! ## Merge: unregistered ids -/

theorem ConcatenateTablesCheck_null (first_schema : List Field) (rest : List (Option Table))
    (h : none ∈ rest) :
    ConcatenateTablesCheck first_schema rest = .error Fault.nullDereference ∨
      ConcatenateTablesCheck first_schema rest = .ok false := by
  induction rest with
  | nil => cases h
  | cons t rest ih =>
    cases t with
    | none => exact Or.inl rfl
    | some t =>
      have hmem : none ∈ rest := by
        rcases List.mem_cons.1 h with h | h
        · cases h
        · exact h
      unfold ConcatenateTablesCheck
      by_cases hs : t.schema = first_schema
      · rw [if_pos hs]
        exact ih hmem
      · rw [if_neg hs]
        exact Or.inr rfl

/-- C15: `Merge` does not check the pointers that `GetTable` returns.  When
some id of `table_ids` is not registered, the null pointer reaches the
concatenate kernel: the call either ends in a null dereference or, when a
table listed before the unregistered id has a schema different from the
first, returns `Invalid`.  It never returns `KeyError`. -/
theorem Merge_unregistered_id_no_KeyError (s : State) (table_ids : List String)
    (merged_tab : String) (h : ∃ id ∈ table_ids, GetTable s id = none) :
    (Merge s table_ids merged_tab = .error Fault.nullDereference ∨
      Merge s table_ids merged_tab = .ok (⟨Code.Invalid⟩, s)) ∧
    ∀ s', Merge s table_ids merged_tab ≠ .ok (⟨Code.KeyError⟩, s') := by
  have hmem : none ∈ table_ids.map (fun id => GetTable s id) := by
    obtain ⟨id, hid, hnone⟩ := h
    exact List.mem_map.2 ⟨id, hid, hnone⟩
  have hcases : Merge s table_ids merged_tab = .error Fault.nullDereference ∨
      Merge s table_ids merged_tab = .ok (⟨Code.Invalid⟩, s) := by
    unfold Merge
    generalize table_ids.map (fun id => GetTable s id) = tables at hmem
    cases tables with
    | nil => cases hmem
    | cons first rest =>
      cases first with
      | none => exact Or.inl rfl
      | some first =>
        have hrest : none ∈ rest := by
          rcases List.mem_cons.1 hmem with h | h
          · cases h
          · exact h
        rcases ConcatenateTablesCheck_null first.schema rest hrest with hc | hc
        · left
          simp only [ConcatenateTables, hc]
        · right
          simp only [ConcatenateTables, hc]
  refine ⟨hcases, ?_⟩
  intro s' he
  rcases hcases with hc | hc
  · rw [hc] at he
    cases he
  · rw [hc] at he
    cases he

theorem Merge_unregistered_id_no_KeyError_witness :
    (Merge keysState ["t", "missing"] "m" = .error Fault.nullDereference ∨
      Merge keysState ["t", "missing"] "m" = .ok (⟨Code.Invalid⟩, keysState)) ∧
    ∀ s', Merge keysState ["t", "missing"] "m" ≠ .ok (⟨Code.KeyError⟩, s') :=
  Merge_unregistered_id_no_KeyError keysState ["t", "missing"] "m"
    ⟨"missing", by decide, by decide⟩

/-! ## Table::Merge: the ids it passes -/

/-- C16: `Table::Merge` creates `table_ids` with one empty string per table
and appends the ids of the tables to it, so `Merge` is given `2n` ids of which
the first `n` are empty.  For at least one table, and without a table
registered under the empty id, the call ends in a null dereference instead of
returning OK. -/
theorem Table_Merge_null_dereference (uuid : Nat → String) (s : State)
    (tables : List String) (hne : tables ≠ []) (hempty : GetTable s "" = none) :
    Table_Merge uuid s tables = .error Fault.nullDereference := by
  cases tables with
  | nil => exact absurd rfl hne
  | cons t rest =>
    have hg : GetTable { s with uuid_count := s.uuid_count + 1 } "" = none := hempty
    simp only [Table_Merge, Merge, List.length_cons, List.replicate_succ, List.cons_append,
      List.map_cons, hg, ConcatenateTables]

theorem Table_Merge_null_dereference_witness :
    Table_Merge countingUuid keysState ["t"] = .error Fault.nullDereference :=
  Table_Merge_null_dereference countingUuid keysState ["t"] (by decide) (by decide)

/-! ## Rows of a well-formed table -/

theorem collect_map {α β γ : Type} (f : β → Option γ) (g : α → β) (l : List α) :
    collect f (l.map g) = collect (fun a => f (g a)) l := by
  induction l with
  | nil => rfl
  | cons a rest ih => simp only [List.map_cons, collect, ih]

/-- The rows of a table depend on the cells of its columns only, not on how
the cells are cut into chunks. -/
theorem rows_congr_values (t1 t2 : Table)
    (h : t1.columns.map ChunkedArray.values = t2.columns.map ChunkedArray.values) :
    t1.rows = t2.rows := by
  have hnum : ∀ t : Table,
      t.num_rows = (((t.columns.map ChunkedArray.values).head?).map List.length).getD 0 := by
    intro t
    unfold Table.num_rows
    cases t.columns with
    | nil => rfl
    | cons column rest => simp [chunked_length_eq]
  have hrow : ∀ (t : Table) (i : Nat),
      t.row? i = collect (fun v : List Value => v[i]?) (t.columns.map ChunkedArray.values) := by
    intro t i
    unfold Table.row?
    rw [collect_map]
  unfold Table.rows
  rw [hnum t1, hnum t2, h]
  congr 1
  funext i
  rw [hrow t1, hrow t2, h]

theorem rectangular_of_singleChunk {t : Table} (hw : SingleChunk t) : Rectangular t := by
  refine ⟨hw.1, ?_⟩
  intro column hmem
  obtain ⟨a, rfl, ha⟩ := hw.2 column hmem
  simp [ChunkedArray.length, ha]

theorem rows_of_no_columns (t : Table) (h : t.columns = []) : t.rows = [] := by
  unfold Table.rows Table.num_rows
  rw [h]
  rfl

/-- The rows of a well-formed table, read cell by cell. -/
theorem rectangular_rows {t : Table} (hw : Rectangular t) (hn : t.columns ≠ []) :
    t.rows = (List.range t.num_rows).map (fun i =>
      t.columns.map (fun column => ((ChunkedArray.values column)[i]?).getD Value.null)) := by
  have ht : t = ⟨t.schema, t.columns⟩ := rfl
  conv_lhs => rw [ht]
  apply rows_of_transposed
  · exact List.length_pos.2 hn
  · intro r hr
    obtain ⟨i, _, rfl⟩ := List.mem_map.1 hr
    simp
  · intro k hk
    have hlen : (ChunkedArray.values t.columns[k]).length = t.num_rows := by
      rw [← chunked_length_eq]
      exact hw.2 _ (List.getElem_mem hk)
    apply List.ext_getElem?
    intro i
    by_cases hi : i < t.num_rows
    · have hi' : i < (ChunkedArray.values t.columns[k]).length := hlen ▸ hi
      simp [List.getElem?_map, List.getElem?_range hi, List.getElem?_eq_getElem hi',
        List.getElem?_eq_getElem hk]
    · have h1 : t.num_rows ≤ i := Nat.le_of_not_lt hi
      rw [List.getElem?_eq_none (by simpa [hlen] using h1),
        List.getElem?_eq_none (by simpa using h1)]

theorem rectangular_rows_facts {t : Table} (hw : Rectangular t) (hn : t.columns ≠ []) :
    t.rows.length = t.num_rows ∧ (∀ r ∈ t.rows, r.length = t.columns.length) ∧
    ∀ k (hk : k < t.columns.length),
      t.rows.map (fun r => r[k]?) = (ChunkedArray.values t.columns[k]).map some := by
  rw [rectangular_rows hw hn]
  refine ⟨by simp, ?_, ?_⟩
  · intro r hr
    obtain ⟨i, _, rfl⟩ := List.mem_map.1 hr
    simp
  · intro k hk
    have hlen : (ChunkedArray.values t.columns[k]).length = t.num_rows := by
      rw [← chunked_length_eq]
      exact hw.2 _ (List.getElem_mem hk)
    apply List.ext_getElem?
    intro i
    by_cases hi : i < t.num_rows
    · have hi' : i < (ChunkedArray.values t.columns[k]).length := hlen ▸ hi
      simp [List.getElem?_map, List.getElem?_range hi, List.getElem?_eq_getElem hi',
        List.getElem?_eq_getElem hk]
    · have h1 : t.num_rows ≤ i := Nat.le_of_not_lt hi
      rw [List.getElem?_eq_none (by simpa using h1),
        List.getElem?_eq_none (by simpa [hlen] using h1)]

/-- Rows of a well-formed table have one value per field. -/
theorem rectangular_row_length {t : Table} (hw : Rectangular t) (r : Row) (hr : r ∈ t.rows) :
    r.length = t.num_columns := by
  by_cases hn : t.columns = []
  · rw [rows_of_no_columns t hn] at hr
    cases hr
  · rw [(rectangular_rows_facts hw hn).2.1 r hr, hw.1]
    rfl

theorem zip_filter_map_congr_gen {α β γ δ : Type} (g1 : α → γ) (g2 : β → γ) (q : δ → Bool)
    (xs : List α) (ys : List β) (pv : List δ) (h : xs.map g1 = ys.map g2) :
    (((xs.zip pv).filter (fun x => q x.2)).map Prod.fst).map g1
      = (((ys.zip pv).filter (fun x => q x.2)).map Prod.fst).map g2 := by
  induction xs generalizing ys pv with
  | nil =>
    cases ys with
    | nil => rfl
    | cons y ys' => simp at h
  | cons x xs' ih =>
    cases ys with
    | nil => simp at h
    | cons y ys' =>
      simp only [List.map_cons, List.cons.injEq] at h
      cases pv with
      | nil => rfl
      | cons p0 pv' =>
        simp only [List.zip_cons_cons, List.filter_cons]
        cases q p0
        · simpa using ih ys' pv' h.2
        · simpa [h.1] using ih ys' pv' h.2

/-! ## Select -/

theorem SelectMask_logging (p : RowHandle → Bool) (id : String) (indices : List Nat)
    (log : List RowHandle) :
    SelectMask (loggingSelector p) id indices log
      = (indices.map (fun i => p ⟨id, i⟩), log ++ indices.map (fun i => ⟨id, i⟩)) := by
  induction indices generalizing log with
  | nil => simp [SelectMask]
  | cons i rest ih =>
    simp only [SelectMask, ih, loggingSelector, List.map_cons, List.append_assoc,
      List.singleton_append]

theorem zip_map_filter_fst {α β : Type} (xs : List α) (ys : List β) (f : β → Bool) :
    ((xs.zip (ys.map f)).filter (fun x => x.2)).map Prod.fst
      = ((xs.zip ys).filter (fun x => f x.2)).map Prod.fst := by
  induction xs generalizing ys with
  | nil => rfl
  | cons x xs' ih =>
    cases ys with
    | nil => rfl
    | cons y ys' =>
      simp only [List.map_cons, List.zip_cons_cons, List.filter_cons]
      cases f y
      · simpa using ih ys'
      · simpa using ih ys'

/-- The filter kernel on a well-formed table and a mask of its length keeps
the rows whose mask entry is true. -/
theorem Filter_rows {t : Table} (hw : Rectangular t) (mask : List Bool)
    (hm : mask.length = t.num_rows) :
    ∃ O, Filter t mask = some O ∧ O.schema = t.schema ∧
      O.rows = ((t.rows.zip mask).filter (fun x => x.2)).map Prod.fst := by
  have hall : t.columns.all (fun column => ChunkedArray.length column == mask.length)
      = true := by
    rw [List.all_eq_true]
    intro column hmem
    rw [hw.2 column hmem, hm]
    simp
  refine ⟨⟨t.schema, t.columns.map (fun column =>
      [(((ChunkedArray.values column).zip mask).filter (fun x => x.2)).map Prod.fst])⟩,
    by rw [Filter, if_pos hall], rfl, ?_⟩
  by_cases hn : t.columns = []
  · rw [rows_of_no_columns _ (by simp [hn]), rows_of_no_columns t hn]
    rfl
  · obtain ⟨_, hlen, hcols⟩ := rectangular_rows_facts hw hn
    apply rows_of_transposed
    · simpa using List.length_pos.2 hn
    · intro r hr
      obtain ⟨x, hx, rfl⟩ := List.mem_map.1 hr
      have hx' := (List.mem_filter.1 hx).1
      rw [hlen _ (List.of_mem_zip hx').1]
      simp
    · intro k hk
      have hk' : k < t.columns.length := by simpa using hk
      have hv : ChunkedArray.values (t.columns.map (fun column =>
          [(((ChunkedArray.values column).zip mask).filter (fun x => x.2)).map Prod.fst]))[k]
          = (((ChunkedArray.values t.columns[k]).zip mask).filter (fun x => x.2)).map
              Prod.fst := by
        rw [List.getElem_map]
        simp [ChunkedArray.values]
      rw [hv]
      exact zip_filter_map_congr_gen some (fun r => r[k]?) (fun b => b)
        (ChunkedArray.values t.columns[k]) t.rows mask (hcols k hk').symm

/-- C13: on a registered well-formed table `T`, `Select` calls the predicate
once on the handle of every row index `0, ..., rows(T) - 1`, in increasing
order (the log of the calls is exactly that list), returns OK and hands to
`PutTable(out, ...)` a table with the schema of `T` whose rows are the rows of
`T` on which the predicate answered true, in their original order. -/
theorem Select_filters_rows (s : State) (id out : String) (T : Table)
    (p : RowHandle → Bool) (hT : GetTable s id = some T) (hw : Rectangular T) :
    ∃ (O : Table) (s' : State),
      Select s id (loggingSelector p) [] out
        = .ok (Status.OK, (List.range T.num_rows).map (fun i => ⟨id, i⟩), s') ∧
      Registers s s' out O ∧ O.schema = T.schema ∧
      O.rows = ((T.rows.zip (List.range T.num_rows)).filter
        (fun x => p ⟨id, x.2⟩)).map Prod.fst := by
  obtain ⟨O, hO, hschema, hrows⟩ := Filter_rows hw
    ((List.range T.num_rows).map (fun i => p ⟨id, i⟩)) (by simp)
  refine ⟨O, PutTable s out O, ?_, registers_of_eq _ _ _ _ rfl, hschema, ?_⟩
  · simp only [Select, hT, SelectMask_logging, hO, List.nil_append]
  · rw [hrows]
    exact zip_map_filter_fst T.rows (List.range T.num_rows) (fun i => p ⟨id, i⟩)

theorem Select_filters_rows_witness :
    ∃ (O : Table) (s' : State),
      Select unionState "r" (loggingSelector (fun row => row.row_index == 1)) [] "o"
        = .ok (Status.OK, (List.range twoRows.num_rows).map (fun i => ⟨"r", i⟩), s') ∧
      Registers unionState s' "o" O ∧ O.schema = twoRows.schema ∧
      O.rows = ((twoRows.rows.zip (List.range twoRows.num_rows)).filter
        (fun x => (fun row : RowHandle => row.row_index == 1) ⟨"r", x.2⟩)).map Prod.fst :=
  Select_filters_rows unionState "r" "o" twoRows (fun row => row.row_index == 1)
    (by decide) (by decide)

/-! ## The concatenate and combine kernels on well-formed tables -/

theorem ConcatenateTablesCheck_same (first_schema : List Field) (rest : List Table)
    (h : ∀ t ∈ rest, t.schema = first_schema) :
    ConcatenateTablesCheck first_schema (rest.map some) = .ok true := by
  induction rest with
  | nil => rfl
  | cons t rest ih =>
    simp only [List.map_cons, ConcatenateTablesCheck, h t (by simp), if_true]
    exact ih (fun t' ht' => h t' (by simp [ht']))

/-- The chunks of column `i` of the tables, in table order. -/
theorem ConcatenateTablesColumn_ok (tabs : List Table) (i : Nat)
    (h : ∀ t ∈ tabs, i < t.columns.length) :
    ConcatenateTablesColumn (tabs.map some) i
      = .ok ((tabs.map (fun t => (t.columns[i]?).getD [])).flatten) := by
  have hrun : forEach (ConcatenateTablesChunks i) (tabs.map some)
      = .ok (tabs.map (fun t => (t.columns[i]?).getD [])) := by
    rw [forEach_eq_ok_iff, List.map_map, List.map_map]
    apply List.map_congr_left
    intro t ht
    simp [ConcatenateTablesChunks, Table.column, List.getElem?_eq_getElem (h t ht)]
  simp only [ConcatenateTablesColumn, hrun]

theorem rectangular_rows_length {t : Table} (hw : Rectangular t) :
    t.rows.length = t.num_rows := by
  by_cases hn : t.columns = []
  · rw [rows_of_no_columns t hn]
    unfold Table.num_rows
    rw [hn]
    rfl
  · exact (rectangular_rows_facts hw hn).1

/-- Concatenating well-formed tables of one schema gives a well-formed table
of that schema whose rows are the rows of the tables in list order. -/
theorem ConcatenateTables_rectangular (first : Table) (rest : List Table)
    (hw : ∀ t ∈ first :: rest, Rectangular t) (hs : ∀ t ∈ rest, t.schema = first.schema) :
    ∃ C, ConcatenateTables ((first :: rest).map some) = .ok (.ok C) ∧
      C.schema = first.schema ∧
      C.columns = (List.range first.num_columns).map (fun i =>
        ((first :: rest).map (fun t => (t.columns[i]?).getD [])).flatten) ∧
      Rectangular C ∧ C.rows = ((first :: rest).map Table.rows).flatten := by
  have hcl : ∀ t ∈ first :: rest, t.columns.length = first.num_columns := by
    intro t ht
    rw [(hw t ht).1]
    rcases List.mem_cons.1 ht with h | h
    · rw [h]; rfl
    · rw [hs t h]; rfl
  have hcols : forEach (ConcatenateTablesColumn ((first :: rest).map some))
      (List.range first.num_columns)
      = .ok ((List.range first.num_columns).map (fun i =>
          ((first :: rest).map (fun t => (t.columns[i]?).getD [])).flatten)) := by
    apply forEach_of_forall
    intro i hi
    apply ConcatenateTablesColumn_ok
    intro t ht
    rw [hcl t ht]
    exact List.mem_range.1 hi
  have hrun : ConcatenateTables ((first :: rest).map some)
      = .ok (.ok ⟨first.schema, (List.range first.num_columns).map (fun i =>
          ((first :: rest).map (fun t => (t.columns[i]?).getD [])).flatten)⟩) := by
    have hc := hcols
    rw [List.map_cons] at hc
    simp only [List.map_cons, ConcatenateTables, ConcatenateTablesCheck_same _ rest hs, hc]
  -- the cells of column `k` of the result
  have hval : ∀ k, k < first.num_columns →
      (ChunkedArray.values
        ((first :: rest).map (fun t => (t.columns[k]?).getD [])).flatten).map some
      = (((first :: rest).map Table.rows).flatten).map (fun r => r[k]?) := by
    intro k hk
    unfold ChunkedArray.values
    rw [List.flatten_flatten, List.map_flatten, List.map_flatten, List.map_map, List.map_map,
      List.map_map]
    congr 1
    apply List.map_congr_left
    intro t ht
    have hkt : k < t.columns.length := (hcl t ht).symm ▸ hk
    have hne : t.columns ≠ [] := fun e => by rw [e] at hkt; cases hkt
    have := (rectangular_rows_facts (hw t ht) hne).2.2 k hkt
    simp only [Function.comp, List.getElem?_eq_getElem hkt, Option.getD_some]
    rw [this]
    rfl
  have hrows : (⟨first.schema, (List.range first.num_columns).map (fun i =>
      ((first :: rest).map (fun t => (t.columns[i]?).getD [])).flatten)⟩ : Table).rows
      = ((first :: rest).map Table.rows).flatten := by
    by_cases hn : first.num_columns = 0
    · rw [rows_of_no_columns _ (by simp [hn])]
      symm
      rw [List.flatten_eq_nil_iff]
      intro l hl
      obtain ⟨t, ht, rfl⟩ := List.mem_map.1 hl
      apply rows_of_no_columns
      exact List.length_eq_zero.1 ((hcl t ht).trans hn)
    · apply rows_of_transposed
      · simpa using Nat.pos_of_ne_zero hn
      · intro r hr
        obtain ⟨l, hl, hrl⟩ := List.mem_flatten.1 hr
        obtain ⟨t, ht, rfl⟩ := List.mem_map.1 hl
        rw [rectangular_row_length (hw t ht) r hrl]
        simp only [List.length_map, List.length_range]
        rw [← hcl t ht, (hw t ht).1]
        rfl
      · intro k hk
        have hk' : k < first.num_columns := by simpa using hk
        rw [List.getElem_map, List.getElem_range]
        exact hval k hk'
  refine ⟨_, hrun, rfl, rfl, ?_, hrows⟩
  -- the result is well formed
  refine ⟨by simp [Table.num_columns], ?_⟩
  intro column hmem
  obtain ⟨k, hk, rfl⟩ := List.mem_map.1 hmem
  have hk' : k < first.num_columns := List.mem_range.1 hk
  have hlen : ∀ j, j < first.num_columns →
      ChunkedArray.length ((first :: rest).map (fun t => (t.columns[j]?).getD [])).flatten
        = (((first :: rest).map Table.rows).flatten).length := by
    intro j hj
    rw [chunked_length_eq]
    have := congrArg List.length (hval j hj)
    rw [List.length_map, List.length_map] at this
    exact this
  rw [hlen k hk']
  unfold Table.num_rows
  have h0 : 0 < first.num_columns := Nat.lt_of_le_of_lt (Nat.zero_le _) hk'
  obtain ⟨n, hn⟩ : ∃ n, first.num_columns = n + 1 := ⟨first.num_columns - 1, by omega⟩
  simp only [hn, List.range_succ_eq_map, List.map_cons]
  exact (hlen 0 h0).symm

/-- The combine kernel keeps the schema and the rows. -/
theorem CombineChunks_rows (C : Table) :
    (CombineChunks C).schema = C.schema ∧ (CombineChunks C).rows = C.rows := by
  refine ⟨rfl, ?_⟩
  apply rows_congr_values
  simp only [CombineChunks, List.map_map]
  apply List.map_congr_left
  intro column _
  simp only [Function.comp]
  split
  · rfl
  · simp [ChunkedArray.values]

theorem CombineChunks_num_rows (C : Table) : (CombineChunks C).num_rows = C.num_rows := by
  unfold Table.num_rows CombineChunks
  cases C.columns with
  | nil => rfl
  | cons column rest =>
    simp only [List.map_cons]
    split
    · rfl
    · simp [ChunkedArray.length, ChunkedArray.values]

theorem CombineChunks_rectangular {C : Table} (hw : Rectangular C) :
    Rectangular (CombineChunks C) := by
  refine ⟨by simpa [CombineChunks] using hw.1, ?_⟩
  intro column hmem
  rw [CombineChunks_num_rows]
  simp only [CombineChunks, List.mem_map] at hmem
  obtain ⟨column0, h0, rfl⟩ := hmem
  rw [← hw.2 column0 h0]
  split
  · rfl
  · simp [ChunkedArray.length, ChunkedArray.values]

/-- Combining a well-formed table whose columns all have a chunk leaves every
column in exactly one chunk. -/
theorem CombineChunks_singleChunk {C : Table} (hw : Rectangular C)
    (hc : ∀ column ∈ C.columns, column ≠ []) : SingleChunk (CombineChunks C) := by
  refine ⟨by simpa [CombineChunks] using hw.1, ?_⟩
  intro column hmem
  rw [CombineChunks_num_rows]
  simp only [CombineChunks, List.mem_map] at hmem
  obtain ⟨column0, h0, rfl⟩ := hmem
  have hl := hw.2 column0 h0
  have hne := hc column0 h0
  split
  · rename_i hle
    match column0, hle, hne, hl with
    | [a], _, _, hl => exact ⟨a, rfl, by simpa [ChunkedArray.length] using hl⟩
    | [], _, hne, _ => exact absurd rfl hne
    | _ :: _ :: _, hle, _, _ => simp [ChunkedArray.num_chunks] at hle
  · exact ⟨_, rfl, by rw [← hl, chunked_length_eq]⟩

/-! ## Merge -/

/-- C14 (amended): for a non-empty list of ids of registered well-formed
tables (equal-length columns, each held in at least one chunk) with one
schema, `Merge` returns OK and hands to `PutTable(merged_tab, ...)` a
single-chunk table of that schema whose rows are the rows of the inputs in
list order; its row count is the sum of theirs. -/
theorem Merge_concatenates (s : State) (table_ids : List String) (merged_tab : String)
    (first : Table) (rest : List Table)
    (hreg : table_ids.map (fun id => GetTable s id) = (first :: rest).map some)
    (hw : ∀ t ∈ first :: rest, Rectangular t ∧ ∀ column ∈ t.columns, column ≠ [])
    (hs : ∀ t ∈ rest, t.schema = first.schema) :
    ∃ (M : Table) (s' : State),
      Merge s table_ids merged_tab = .ok (Status.OK, s') ∧ Registers s s' merged_tab M ∧
      SingleChunk M ∧ M.schema = first.schema ∧
      M.rows = ((first :: rest).map Table.rows).flatten ∧
      M.num_rows = ((first :: rest).map Table.num_rows).sum := by
  obtain ⟨C, hC, hschema, hcols, hrect, hrows⟩ :=
    ConcatenateTables_rectangular first rest (fun t ht => (hw t ht).1) hs
  have hchunks : ∀ column ∈ C.columns, column ≠ [] := by
    intro column hmem
    rw [hcols] at hmem
    obtain ⟨k, hk, rfl⟩ := List.mem_map.1 hmem
    have hk' : k < first.columns.length := by
      rw [(hw first (by simp)).1.1]
      exact List.mem_range.1 hk
    have hne := (hw first (by simp)).2 _ (List.getElem_mem hk')
    simp only [List.map_cons, List.flatten_cons, List.getElem?_eq_getElem hk',
      Option.getD_some]
    intro e
    exact hne (List.append_eq_nil.1 e).1
  refine ⟨CombineChunks C, PutTable s merged_tab (CombineChunks C), ?_,
    registers_of_eq _ _ _ _ rfl, CombineChunks_singleChunk hrect hchunks, hschema,
    (CombineChunks_rows C).2.trans hrows, ?_⟩
  · simp only [Merge, hreg, hC]
  · rw [← rectangular_rows_length (CombineChunks_rectangular hrect), (CombineChunks_rows C).2,
      hrows, List.length_flatten, List.map_map]
    congr 1
    apply List.map_congr_left
    intro t ht
    exact rectangular_rows_length (hw t ht).1

theorem Merge_concatenates_witness :
    ∃ (M : Table) (s' : State),
      Merge unionState ["l", "r"] "m" = .ok (Status.OK, s') ∧ Registers unionState s' "m" M ∧
      SingleChunk M ∧ M.schema = tenRows.schema ∧
      M.rows = ((tenRows :: [twoRows]).map Table.rows).flatten ∧
      M.num_rows = ((tenRows :: [twoRows]).map Table.num_rows).sum :=
  Merge_concatenates unionState ["l", "r"] "m" tenRows [twoRows] (by decide) (by decide)
    (by decide)

/-- C14 as stated fails on the empty list: the concatenate kernel refuses it
and `Merge` returns `Invalid` without registering a table. -/
theorem Merge_empty_list_invalid :
    Merge unionState [] "m" = .ok (⟨Code.Invalid⟩, unionState) := by
  decide

/-! ## Inner join of rows: order and colocation -/

theorem flatten_map_perm {ι α : Type} (l : List ι) (f g : ι → List α)
    (h : ∀ i ∈ l, (f i).Perm (g i)) : ((l.map f).flatten).Perm ((l.map g).flatten) := by
  induction l with
  | nil => exact List.Perm.refl _
  | cons i rest ih =>
    simp only [List.map_cons, List.flatten_cons]
    exact List.Perm.append (h i (by simp)) (ih (fun j hj => h j (by simp [hj])))

theorem flatMap_flatten_map {ι α β : Type} (l : List ι) (f : ι → List α) (g : α → List β) :
    ((l.map f).flatten).flatMap g = (l.map (fun i => (f i).flatMap g)).flatten := by
  induction l with
  | nil => rfl
  | cons i rest ih =>
    simp only [List.map_cons, List.flatten_cons, List.flatMap_append, ih]

/-- The inner join does not depend on the order of the rows of either side,
up to the order of its own rows. -/
theorem joinRows_perm (kl kr : Nat) {left left' right right' : List Row}
    (hl : left.Perm left') (hr : right.Perm right') :
    (joinRows kl kr left right).Perm (joinRows kl kr left' right') := by
  unfold joinRows
  refine (List.Perm.flatMap_left left (fun l _ => ?_)).trans (List.Perm.flatMap_right _ hl)
  exact (hr.filter _).map _

/-- Colocation: when the rows of both sides are split by a function of the
key into the classes `0, ..., W - 1`, the joins of the classes, taken
together, are the join of the whole. -/
theorem joinRows_colocated (kl kr W : Nat) (H : Option Value → Nat) (left right : List Row)
    (hH : ∀ l ∈ left, H l[kl]? < W) :
    (((List.range W).map (fun r =>
      joinRows kl kr (left.filter (fun l => H l[kl]? == r))
        (right.filter (fun x => H x[kr]? == r)))).flatten).Perm
      (joinRows kl kr left right) := by
  have hclass : ∀ r, joinRows kl kr (left.filter (fun l => H l[kl]? == r))
      (right.filter (fun x => H x[kr]? == r))
      = (left.filter (fun l => H l[kl]? == r)).flatMap (fun l =>
          (right.filter (fun x => decide (l[kl]? = x[kr]?))).map (fun x => l ++ x)) := by
    intro r
    unfold joinRows
    apply List.flatMap_congr
    intro l hl
    have hlr : H l[kl]? = r := by simpa using (List.mem_filter.1 hl).2
    rw [List.filter_filter]
    congr 1
    apply List.filter_congr
    intro x _
    by_cases hx : l[kl]? = x[kr]?
    · simp [hx, ← hlr]
    · simp [hx]
  have hall : left.filter (fun l => decide (H l[kl]? < W)) = left :=
    List.filter_eq_self.2 (fun l hl => by simpa using hH l hl)
  have e1 : ((List.range W).map (fun r =>
        joinRows kl kr (left.filter (fun l => H l[kl]? == r))
          (right.filter (fun x => H x[kr]? == r)))).flatten
      = (((List.range W).map (fun r => left.filter (fun l => H l[kl]? == r))).flatten).flatMap
          (fun l => (right.filter (fun x => decide (l[kl]? = x[kr]?))).map
            (fun x => l ++ x)) := by
    rw [flatMap_flatten_map]
    congr 1
    apply List.map_congr_left
    intro r _
    exact hclass r
  rw [e1]
  refine (List.Perm.flatMap_right _
    (flatten_filter_range_perm (fun l => H l[kl]?) W left)).trans ?_
  rw [hall]
  exact List.Perm.refl _

theorem partitionRows_map (rows : List Row) (f : Row → Nat) (p : Nat) :
    partitionRows rows (rows.map f) p = rows.filter (fun row => f row == p) := by
  unfold partitionRows
  induction rows with
  | nil => rfl
  | cons row rest ih =>
    simp only [List.map_cons, List.zip_cons_cons, List.filter_cons]
    cases hf : f row == p
    · simpa using ih
    · simpa using ih

/-! ## HashPartition on one key column -/

/-- On a single-chunk table and one key column the partition vector is the
hash of the key cell of every row, modulo the number of partitions. -/
theorem HashPartitionVector_single_key (combined_hash : List Value → Nat) {t : Table}
    (hw : SingleChunk t) (k : Nat) (hk : k < t.num_columns) (W : Nat) (hW : 0 < W) :
    HashPartitionVector combined_hash t [k] W
      = .ok (some (t.rows.map (fun row => cellHash combined_hash W row[k]?))) := by
  have hn : t.num_columns ≠ 0 := Nat.ne_of_gt (Nat.lt_of_le_of_lt (Nat.zero_le _) hk)
  have hkeys : HashPartitionKeys t [k] [] 0 = .ok (some ([firstChunk t k], t.num_rows)) := by
    rw [HashPartitionKeys_singleChunk hw [k] (fun c hc => by
      rw [List.mem_singleton.1 hc]; exact hk) [] 0 (Or.inl rfl)]
    simp
  have hlen : (firstChunk t k).length = t.num_rows := (singleChunk_firstChunk hw k hk).2
  have harr : HashPartitionArrays combined_hash [firstChunk t k] t.num_rows (List.range W)
      = .ok ((List.range t.num_rows).map (fun index =>
          cellHash combined_hash W (firstChunk t k)[index]?)) := by
    unfold HashPartitionArrays
    apply forEach_of_forall
    intro index hindex
    have hi : index < (firstChunk t k).length := hlen ▸ List.mem_range.1 hindex
    have hm : combined_hash [(firstChunk t k)[index]] % W < (List.range W).length := by
      rw [List.length_range]; exact Nat.mod_lt _ hW
    simp only [forEach, Array.at, List.getElem?_eq_getElem hi, bind, Except.bind,
      List.length_range, cellHash]
    rw [List.getElem?_eq_getElem (by simpa using hm), List.getElem_range]
  have hrows : (List.range t.num_rows).map (fun index =>
      cellHash combined_hash W (firstChunk t k)[index]?)
      = t.rows.map (fun row => cellHash combined_hash W row[k]?) := by
    have h1 := (singleChunk_rows_facts hw hn).2.2 k hk
    have h2 : t.rows.map (fun row => cellHash combined_hash W row[k]?)
        = (t.rows.map (fun r => r[k]?)).map (cellHash combined_hash W) := by
      rw [List.map_map]; rfl
    rw [h2, h1, ← hlen, ← map_range_getElem, List.map_map]
    rfl
  simp only [HashPartitionVector, hkeys, harr, hrows]

theorem partitionCells_length (a : Array) (pv : List Nat) (p : Nat)
    (h : a.length = pv.length) :
    (partitionCells a pv p).length = (pv.filter (fun x => x == p)).length := by
  unfold partitionCells
  induction a generalizing pv with
  | nil =>
    cases pv with
    | nil => rfl
    | cons q pv' => simp at h
  | cons v rest ih =>
    cases pv with
    | nil => simp at h
    | cons q pv' =>
      simp only [List.length_cons, Nat.add_right_cancel_iff] at h
      simp only [List.zip_cons_cons, List.filter_cons]
      cases q == p
      · simpa using ih pv' h
      · simpa using ih pv' h

/-- The table of a partition is a single-chunk table of the schema of the
input. -/
theorem partitionTable_singleChunk (combined_hash : List Value → Nat) (W k : Nat) {t : Table}
    (hw : SingleChunk t) (p : Nat) :
    SingleChunk (partitionTable combined_hash W k t p) := by
  have hcells : ∀ c, c < t.num_columns →
      (partitionCells (firstChunk t c)
        (t.rows.map (fun row => cellHash combined_hash W row[k]?)) p).length
      = ((t.rows.map (fun row => cellHash combined_hash W row[k]?)).filter
          (fun x => x == p)).length := by
    intro c hc
    apply partitionCells_length
    have hn : t.num_columns ≠ 0 := Nat.ne_of_gt (Nat.lt_of_le_of_lt (Nat.zero_le _) hc)
    rw [(singleChunk_firstChunk hw c hc).2, List.length_map, (singleChunk_rows_facts hw hn).1]
  refine ⟨by simp [partitionTable, Table.Make, Table.num_columns], ?_⟩
  intro column hmem
  simp only [partitionTable, Table.Make, List.map_map, List.mem_map, List.mem_range] at hmem
  obtain ⟨c, hc, rfl⟩ := hmem
  refine ⟨_, rfl, ?_⟩
  have h0 : 0 < t.num_columns := Nat.lt_of_le_of_lt (Nat.zero_le _) hc
  obtain ⟨n, hn⟩ : ∃ n, t.num_columns = n + 1 := ⟨t.num_columns - 1, by omega⟩
  have hnum : (partitionTable combined_hash W k t p).num_rows
      = (partitionCells (firstChunk t 0)
          (t.rows.map (fun row => cellHash combined_hash W row[k]?)) p).length := by
    simp [partitionTable, Table.Make, Table.num_rows, hn, List.range_succ_eq_map,
      ChunkedArray.length]
  rw [hnum, hcells c hc, hcells 0 h0]

/-- The table of partition `p` holds the rows whose key cell hashes to `p`, in
their original order. -/
theorem partitionTable_rows (combined_hash : List Value → Nat) (W k : Nat) {t : Table}
    (hw : SingleChunk t) (hn : t.num_columns ≠ 0) (p : Nat) :
    (partitionTable combined_hash W k t p).rows
      = t.rows.filter (fun row => cellHash combined_hash W row[k]? == p) := by
  unfold partitionTable
  rw [partition_table_rows hw hn, partitionRows_map]

theorem HashPartitionRegister_fresh (uuid : Nat → String) (schema : List Field)
    (das : List (Nat × List Array)) (s : State) (out : List (Nat × String))
    (hfresh : FreshUuids uuid s) :
    FreshUuids uuid (HashPartitionRegister uuid schema das s out).2 := by
  induction das generalizing s out with
  | nil => exact hfresh
  | cons d rest ih =>
    obtain ⟨t, arrays⟩ := d
    simp only [HashPartitionRegister]
    exact ih _ _ (PutTableNew_state uuid s (Table.Make schema arrays) hfresh).2.2.2.2

/-- `HashPartition` on a registered single-chunk table and one valid key
column: it returns OK, `out` has one entry for each of the `W` partitions, the
id of partition `p` is bound to the table of that partition, the UUIDs to come
are still new and the ids registered before keep their binding. -/
theorem HashPartition_single_key (combined_hash : List Value → Nat) (uuid : Nat → String)
    (mapOrder : List (Nat × List Array) → List (Nat × List Array))
    (hmo : ValidMapOrder mapOrder)
    (s : State) (id : String) (k W : Nat) (t : Table)
    (ht : GetTable s id = some t) (hw : SingleChunk t)
    (hk : k < t.num_columns) (hW : 0 < W) (hfresh : FreshUuids uuid s) :
    ∃ (out : List (Nat × String)) (s' : State),
      HashPartition combined_hash uuid mapOrder s id [k] W = .ok (Status.OK, out, s') ∧
      (out.map Prod.fst).Perm (List.range W) ∧
      (∀ p u, (p, u) ∈ out → GetTable s' u = some (partitionTable combined_hash W k t p)) ∧
      FreshUuids uuid s' ∧ (∀ id', s.find id' ≠ none → s'.find id' = s.find id') := by
  have hn : t.num_columns ≠ 0 := Nat.ne_of_gt (Nat.lt_of_le_of_lt (Nat.zero_le _) hk)
  have hvec := HashPartitionVector_single_key combined_hash hw k hk W hW
  obtain ⟨hrl, _, _⟩ := singleChunk_rows_facts hw hn
  have hlen : (t.rows.map (fun row => cellHash combined_hash W row[k]?)).length = t.num_rows := by
    rw [List.length_map, hrl]
  let das : List (Nat × List Array) := (List.range W).map (fun p =>
    (p, (List.range t.num_columns).map (fun c => partitionCells (firstChunk t c)
      (t.rows.map (fun row => cellHash combined_hash W row[k]?)) p)))
  have hdas_keys : das.map Prod.fst = List.range W := by
    simp only [das, List.map_map]
    exact List.map_id' _
  have hperm := hmo das
  have hnodup : ((mapOrder das).map Prod.fst).Nodup :=
    (hperm.map Prod.fst).nodup_iff.2 (by rw [hdas_keys]; exact List.nodup_range W)
  obtain ⟨hout, hget, hkeep⟩ := HashPartitionRegister_spec uuid t.schema (mapOrder das) s []
    hfresh hnodup (fun _ _ y hy => by cases hy)
  have hrun : HashPartition combined_hash uuid mapOrder s id [k] W
      = .ok (Status.OK, (HashPartitionRegister uuid t.schema (mapOrder das) s []).1,
          (HashPartitionRegister uuid t.schema (mapOrder das) s []).2) := by
    simp only [HashPartition, ht, hvec, HashPartitionSplit_singleChunk hw _ W hlen,
      HashPartitionDataArrays_eq, das]
  rw [List.nil_append] at hout
  have hzl : (mapOrder das).length = (List.range' s.uuid_count (mapOrder das).length).length := by
    simp
  refine ⟨_, _, hrun, ?_, ?_, HashPartitionRegister_fresh uuid t.schema _ s [] hfresh, hkeep⟩
  · rw [hout, map_fst_zip_map uuid _ _ hzl]
    exact (hperm.map Prod.fst).trans (by rw [hdas_keys])
  · intro p u hpu
    rw [hout] at hpu
    obtain ⟨x, hx, hxe⟩ := List.mem_map.1 hpu
    obtain ⟨j, hj, hdj, hxj⟩ := mem_zip_rangeFrom (mapOrder das) s.uuid_count x hx
    simp only [Prod.mk.injEq] at hxe
    have hmem : (mapOrder das)[j] ∈ das := hperm.subset (List.getElem_mem hj)
    obtain ⟨p', _, hp'⟩ := List.mem_map.1 hmem
    have hpp : p' = p := by
      have := congrArg Prod.fst hp'
      simp only at this
      rw [this, hdj]
      exact hxe.1
    rw [← hxe.2, hxj, hget j hj, ← hp', hpp]
    rfl

/-! ## Shuffle: what a worker sends and keeps -/

theorem filter_key_unique {β : Type} (l : List (Nat × β)) (r : Nat)
    (hnd : (l.map Prod.fst).Nodup) (hr : r ∈ l.map Prod.fst) :
    ∃ u, (r, u) ∈ l ∧ l.filter (fun x => x.1 == r) = [(r, u)] := by
  induction l with
  | nil => cases hr
  | cons x rest ih =>
    obtain ⟨p, u⟩ := x
    rw [List.map_cons, List.nodup_cons] at hnd
    by_cases hp : p = r
    · subst hp
      refine ⟨u, by simp, ?_⟩
      have hrest : rest.filter (fun x => x.1 == p) = [] := by
        rw [List.filter_eq_nil_iff]
        intro y hy hyp
        exact hnd.1 (List.mem_map.2 ⟨y, hy, by simpa using hyp⟩)
      simp [List.filter_cons, hrest]
    · have hmem : r ∈ rest.map Prod.fst := by
        rcases List.mem_cons.1 hr with h | h
        · exact absurd h.symm hp
        · exact h
      obtain ⟨u', hu', hf⟩ := ih hnd.2 hmem
      refine ⟨u', List.mem_cons_of_mem _ hu', ?_⟩
      simp [List.filter_cons, hp, hf]

theorem filter_key_absent {β : Type} (l : List (Nat × β)) (r : Nat)
    (hr : r ∉ l.map Prod.fst) : l.filter (fun x => x.1 == r) = [] := by
  rw [List.filter_eq_nil_iff]
  intro y hy hyp
  exact hr (List.mem_map.2 ⟨y, hy, by simpa using hyp⟩)

/-- The first half of `Shuffle` on a registered single-chunk table and one
valid key column: the worker keeps its own partition, hands the partition of
every other rank to the exchange, and leaves a state in which the ids
registered before keep their binding. -/
theorem ShufflePartition_single_key (combined_hash : List Value → Nat) (uuid : Nat → String)
    (mapOrder : List (Nat × List Array) → List (Nat × List Array))
    (tableOrder : List (Nat × String) → List (Nat × String))
    (hmo : ValidMapOrder mapOrder) (hto : ValidTableOrder tableOrder)
    (ctx : TwisterXContext) (s : State) (id : String) (k : Nat) (t : Table)
    (ht : GetTable s id = some t) (hw : SingleChunk t) (hk : k < t.num_columns)
    (hrank : ctx.rank < ctx.world_size) (hfresh : FreshUuids uuid s) :
    ∃ (ins : List (Nat × Option Table)) (s1 : State),
      ShufflePartition combined_hash uuid mapOrder tableOrder ctx s id [k]
        = .ok (ins, [some (partitionTable combined_hash ctx.world_size k t ctx.rank)], s1) ∧
      (∀ r, (ins.filter (fun x => x.1 == r)).map Prod.snd
        = if r < ctx.world_size ∧ r ≠ ctx.rank then
            [some (partitionTable combined_hash ctx.world_size k t r)]
          else []) ∧
      FreshUuids uuid s1 ∧ (∀ id', s.find id' ≠ none → s1.find id' = s.find id') := by
  have hW : 0 < ctx.world_size := Nat.lt_of_le_of_lt (Nat.zero_le _) hrank
  obtain ⟨out, s', hrun, hkeys, hget, hfresh', hkeep⟩ :=
    HashPartition_single_key combined_hash uuid mapOrder hmo s id k ctx.world_size t ht hw hk
      hW hfresh
  have hperm : ((tableOrder out).map Prod.fst).Perm (List.range ctx.world_size) :=
    ((hto out).map Prod.fst).trans hkeys
  have hnd : ((tableOrder out).map Prod.fst).Nodup :=
    hperm.nodup_iff.2 (List.nodup_range _)
  have hmem : ∀ r, r ∈ (tableOrder out).map Prod.fst ↔ r < ctx.world_size := by
    intro r
    rw [hperm.mem_iff, List.mem_range]
  have hget' : ∀ p u, (p, u) ∈ tableOrder out →
      GetTable s' u = some (partitionTable combined_hash ctx.world_size k t p) :=
    fun p u hpu => hget p u ((hto out).subset hpu)
  refine ⟨ShuffleInserts ctx s' (tableOrder out), s', ?_, ?_, hfresh', hkeep⟩
  · obtain ⟨u, hu, hf⟩ := filter_key_unique (tableOrder out) ctx.rank hnd ((hmem _).2 hrank)
    simp only [ShufflePartition, hrun, ht, ShuffleLocal, hf, List.map_cons, List.map_nil,
      hget' _ _ hu]
  · intro r
    unfold ShuffleInserts
    rw [List.filter_map, List.filter_filter, List.map_map]
    by_cases hr : r < ctx.world_size ∧ r ≠ ctx.rank
    · rw [if_pos hr]
      obtain ⟨u, hu, hf⟩ := filter_key_unique (tableOrder out) r hnd ((hmem _).2 hr.1)
      have hpred : (tableOrder out).filter (fun a =>
          ((fun x : Nat × Option Table => x.1 == r) ∘ fun partitioned_table : Nat × String =>
            (partitioned_table.1, GetTable s' partitioned_table.2)) a &&
              (a.1 != ctx.rank)) = (tableOrder out).filter (fun x => x.1 == r) := by
        apply List.filter_congr
        intro x _
        by_cases hx : x.1 = r
        · simp [hx, hr.2]
        · simp [hx]
      rw [hpred, hf]
      simp [hget' _ _ hu]
    · rw [if_neg hr]
      have hpred : (tableOrder out).filter (fun a =>
          ((fun x : Nat × Option Table => x.1 == r) ∘ fun partitioned_table : Nat × String =>
            (partitioned_table.1, GetTable s' partitioned_table.2)) a &&
              (a.1 != ctx.rank)) = [] := by
        rw [List.filter_eq_nil_iff]
        intro x hx hp
        simp only [Function.comp, Bool.and_eq_true, beq_iff_eq, bne_iff_ne, ne_eq] at hp
        apply hr
        refine ⟨?_, fun e => hp.2 (hp.1.trans e)⟩
        rw [← hp.1]
        exact (hmem _).1 (List.mem_map.2 ⟨x, hx, rfl⟩)
      rw [hpred]
      rfl

/-! ## Shuffle: what a worker ends up with -/

theorem flatten_split_at {α : Type} (l : List Nat) (r : Nat) (f : Nat → List α)
    (hnd : l.Nodup) (hr : r ∈ l) :
    (f r ++ (l.map (fun w => if w = r then [] else f w)).flatten).Perm (l.map f).flatten := by
  induction l with
  | nil => cases hr
  | cons a rest ih =>
    rw [List.nodup_cons] at hnd
    by_cases ha : a = r
    · subst ha
      have hrest : rest.map (fun w => if w = a then [] else f w) = rest.map f := by
        apply List.map_congr_left
        intro w hw
        have : w ≠ a := fun e => hnd.1 (e ▸ hw)
        simp [this]
      simp [hrest]
    · have hmem : r ∈ rest := by
        rcases List.mem_cons.1 hr with h | h
        · exact absurd h.symm ha
        · exact h
      simp only [List.map_cons, List.flatten_cons, if_neg ha]
      refine List.Perm.trans ?_ (List.Perm.append_left (f a) (ih hnd.2 hmem))
      rw [← List.append_assoc, ← List.append_assoc]
      exact List.Perm.append_right _ List.perm_append_comm

theorem flatten_rows_of_pointers (l : List Nat) (r : Nat) (P : Nat → Table) :
    (((l.map (fun w => if w = r then [] else [some (P w)])).flatten).map
        (fun o : Option Table => (o.map Table.rows).getD [])).flatten
      = (l.map (fun w => if w = r then [] else (P w).rows)).flatten := by
  induction l with
  | nil => rfl
  | cons a rest ih =>
    by_cases ha : a = r
    · simpa [ha] using ih
    · simpa [ha] using ih

/-- `Shuffle` on one key column among `W` workers that hold single-chunk
shards of one schema, when the exchange delivers what was inserted: worker `r`
returns OK and a well-formed table of that schema whose rows are, in some
order, the rows of all shards whose key cell hashes to `r`. -/
theorem Shuffle_colocates (combined_hash : List Value → Nat) (uuid : Nat → String)
    (mapOrder : List (Nat × List Array) → List (Nat × List Array))
    (tableOrder : List (Nat × String) → List (Nat × String))
    (hmo : ValidMapOrder mapOrder) (hto : ValidTableOrder tableOrder)
    (W : Nat) (s : Nat → State) (T : Nat → Table) (sch : List Field) (id : String) (k : Nat)
    (delivered : Nat → List Table)
    (hT : ∀ w, w < W → GetTable (s w) id = some (T w) ∧ SingleChunk (T w) ∧ (T w).schema = sch)
    (hk : k < sch.length)
    (hfresh : ∀ w, w < W → FreshUuids uuid (s w))
    (hd : AllToAllDelivers W (fun w =>
      shuffleInserts combined_hash uuid mapOrder tableOrder ⟨w, W⟩ (s w) id [k]) delivered)
    (r : Nat) (hr : r < W) :
    ∃ F, Shuffle combined_hash uuid mapOrder tableOrder ⟨r, W⟩ (delivered r) (s r) id [k]
        = .ok (Status.OK, some F,
            shuffleState combined_hash uuid mapOrder tableOrder ⟨r, W⟩ (s r) id [k]) ∧
      Rectangular F ∧ F.schema = sch ∧
      F.rows.Perm ((((List.range W).map (fun w => (T w).rows)).flatten).filter
        (fun row => cellHash combined_hash W row[k]? == r)) := by
  have hkw : ∀ w, w < W → k < (T w).num_columns := by
    intro w hw
    unfold Table.num_columns
    rw [(hT w hw).2.2]
    exact hk
  have hpart : ∀ w, w < W → ∃ (ins : List (Nat × Option Table)) (s1 : State),
      ShufflePartition combined_hash uuid mapOrder tableOrder ⟨w, W⟩ (s w) id [k]
        = .ok (ins, [some (partitionTable combined_hash W k (T w) w)], s1) ∧
      (∀ r', (ins.filter (fun x => x.1 == r')).map Prod.snd
        = if r' < W ∧ r' ≠ w then [some (partitionTable combined_hash W k (T w) r')]
          else []) := by
    intro w hw
    obtain ⟨ins, s1, h1, h2, _, _⟩ := ShufflePartition_single_key combined_hash uuid mapOrder
      tableOrder hmo hto ⟨w, W⟩ (s w) id k (T w) (hT w hw).1 (hT w hw).2.1 (hkw w hw) hw
      (hfresh w hw)
    exact ⟨ins, s1, h1, h2⟩
  have hins : ∀ w, w ∈ List.range W →
      (((shuffleInserts combined_hash uuid mapOrder tableOrder ⟨w, W⟩ (s w) id [k]).filter
        (fun x => x.1 == r)).map Prod.snd)
      = if w = r then [] else [some (partitionTable combined_hash W k (T w) r)] := by
    intro w hw
    obtain ⟨ins, s1, h1, h2⟩ := hpart w (List.mem_range.1 hw)
    simp only [shuffleInserts, h1, h2 r]
    by_cases hwr : w = r
    · simp [hwr]
    · have : r ≠ w := fun e => hwr e.symm
      simp [hwr, this, hr]
  have hdel : ((delivered r).map some).Perm
      (((List.range W).map (fun w =>
        if w = r then [] else [some (partitionTable combined_hash W k (T w) r)])).flatten) := by
    have := hd r hr
    rw [List.filter_flatten, List.map_flatten, List.map_map, List.map_map] at this
    have e : (List.range W).map (fun w =>
        ((shuffleInserts combined_hash uuid mapOrder tableOrder ⟨w, W⟩ (s w) id [k]).filter
          (fun x => x.1 == r)).map Prod.snd)
        = (List.range W).map (fun w =>
          if w = r then [] else [some (partitionTable combined_hash W k (T w) r)]) :=
      List.map_congr_left (fun w hw => hins w hw)
    exact this.trans (List.Perm.of_eq (congrArg List.flatten e))
  have hmemd : ∀ t ∈ delivered r, ∃ w, w < W ∧ t = partitionTable combined_hash W k (T w) r := by
    intro t ht
    have h1 : some t ∈ (delivered r).map some := List.mem_map.2 ⟨t, ht, rfl⟩
    obtain ⟨l, hl, htl⟩ := List.mem_flatten.1 (hdel.subset h1)
    obtain ⟨w, hw, rfl⟩ := List.mem_map.1 hl
    refine ⟨w, List.mem_range.1 hw, ?_⟩
    by_cases hwr : w = r
    · simp [hwr] at htl
    · simpa [hwr] using htl
  have hsingle : ∀ w, w < W → SingleChunk (partitionTable combined_hash W k (T w) r) :=
    fun w hw => partitionTable_singleChunk combined_hash W k (hT w hw).2.1 r
  have hschema : ∀ w, w < W → (partitionTable combined_hash W k (T w) r).schema = sch :=
    fun w hw => (hT w hw).2.2
  obtain ⟨C, hC, hCs, _, hCrect, hCrows⟩ := ConcatenateTables_rectangular
    (partitionTable combined_hash W k (T r) r) (delivered r)
    (by
      intro t ht
      rcases List.mem_cons.1 ht with h | h
      · rw [h]; exact rectangular_of_singleChunk (hsingle r hr)
      · obtain ⟨w, hw, rfl⟩ := hmemd t h
        exact rectangular_of_singleChunk (hsingle w hw))
    (by
      intro t ht
      obtain ⟨w, hw, rfl⟩ := hmemd t ht
      rw [hschema w hw, hschema r hr])
  obtain ⟨ins, s1, h1, _⟩ := hpart r hr
  refine ⟨CombineChunks C, ?_, CombineChunks_rectangular hCrect, hCs.trans (hschema r hr), ?_⟩
  · have hlist : [some (partitionTable combined_hash W k (T r) r)] ++ (delivered r).map some
        = (partitionTable combined_hash W k (T r) r :: delivered r).map some := rfl
    simp only [Shuffle, shuffleState, h1, hlist, hC]
  · rw [(CombineChunks_rows C).2, hCrows, List.map_cons, List.flatten_cons]
    have hrowsd : ((delivered r).map Table.rows).flatten.Perm
        (((List.range W).map (fun w =>
          if w = r then [] else (partitionTable combined_hash W k (T w) r).rows)).flatten) := by
      have h2 := (hdel.map (fun o : Option Table => (o.map Table.rows).getD [])).flatten
      rw [List.map_map, flatten_rows_of_pointers] at h2
      exact h2
    refine (List.Perm.append_left _ hrowsd).trans ?_
    refine (flatten_split_at (List.range W) r
      (fun w => (partitionTable combined_hash W k (T w) r).rows) (List.nodup_range W)
      (List.mem_range.2 hr)).trans ?_
    rw [List.filter_flatten, List.map_map]
    have hcongr : (List.range W).map (fun w => (partitionTable combined_hash W k (T w) r).rows)
        = (List.range W).map (List.filter (fun row => cellHash combined_hash W row[k]? == r) ∘
            fun w => (T w).rows) := by
      apply List.map_congr_left
      intro w hw
      have hw' := List.mem_range.1 hw
      exact partitionTable_rows combined_hash W k (hT w hw').2.1
        (Nat.ne_of_gt (Nat.lt_of_le_of_lt (Nat.zero_le _) (hkw w hw'))) r
    rw [hcongr]

/-- The state after a shuffle: the UUIDs to come are still new and the ids
registered before keep their binding. -/
theorem shuffleState_keeps (combined_hash : List Value → Nat) (uuid : Nat → String)
    (mapOrder : List (Nat × List Array) → List (Nat × List Array))
    (tableOrder : List (Nat × String) → List (Nat × String))
    (hmo : ValidMapOrder mapOrder) (hto : ValidTableOrder tableOrder)
    (ctx : TwisterXContext) (s : State) (id : String) (k : Nat) (t : Table)
    (ht : GetTable s id = some t) (hw : SingleChunk t) (hk : k < t.num_columns)
    (hrank : ctx.rank < ctx.world_size) (hfresh : FreshUuids uuid s) :
    FreshUuids uuid (shuffleState combined_hash uuid mapOrder tableOrder ctx s id [k]) ∧
    ∀ id', s.find id' ≠ none →
      (shuffleState combined_hash uuid mapOrder tableOrder ctx s id [k]).find id'
        = s.find id' := by
  obtain ⟨ins, s1, h1, _, h3, h4⟩ := ShufflePartition_single_key combined_hash uuid mapOrder
    tableOrder hmo hto ctx s id k t ht hw hk hrank hfresh
  simp only [shuffleState, h1]
  exact ⟨h3, h4⟩

/-! ## The reference join kernel -/

theorem filterMap_map_some {α β : Type} (f : α → Option β) (l : List α)
    (h : ∀ a ∈ l, (f a).isSome) : (l.filterMap f).map some = l.map f := by
  induction l with
  | nil => rfl
  | cons a rest ih =>
    have ha := h a (by simp)
    cases hf : f a with
    | none => rw [hf] at ha; cases ha
    | some b =>
      simp only [List.filterMap_cons, hf, List.map_cons]
      rw [ih (fun x hx => h x (by simp [hx]))]

/-- The table built from rows that have one value per field holds these
rows. -/
theorem ofRows_rows (schema : List Field) (rows : List Row) (hn : 0 < schema.length)
    (hlen : ∀ r ∈ rows, r.length = schema.length) :
    (Table.ofRows schema rows).rows = rows := by
  unfold Table.ofRows Table.Make
  apply rows_of_transposed
  · simpa using hn
  · intro r hr
    simpa using hlen r hr
  · intro k hk
    have hk' : k < schema.length := by simpa using hk
    simp only [List.getElem_map, List.getElem_range, ChunkedArray.values, List.flatten,
      List.append_nil]
    apply filterMap_map_some
    intro r hr
    have : k < r.length := by rw [hlen r hr]; exact hk'
    simp [List.getElem?_eq_getElem this]

theorem joinRows_length (kl kr : Nat) (left right : List Row) (nl nr : Nat)
    (hl : ∀ l ∈ left, l.length = nl) (hr : ∀ r ∈ right, r.length = nr) :
    ∀ row ∈ joinRows kl kr left right, row.length = nl + nr := by
  intro row hrow
  unfold joinRows at hrow
  obtain ⟨l, hl', hmem⟩ := List.mem_flatMap.1 hrow
  obtain ⟨r, hr', rfl⟩ := List.mem_map.1 hmem
  rw [List.length_append, hl l hl', hr r (List.mem_filter.1 hr').1]

/-- The reference kernel computes the inner join. -/
theorem joinTables_inner : InnerJoinKernel joinTables := by
  intro left right join_config hkind hwl hwr hkey
  obtain ⟨lf, rf, hlf, hrf, htype⟩ := hkey
  have hrun : joinTables left right join_config
      = .ok (Status.OK, some (Table.ofRows (left.schema ++ right.schema)
        (joinRows join_config.left_column_index join_config.right_column_index
          left.rows right.rows))) := by
    simp only [joinTables, Table.field, hlf, hrf, htype, if_true, hkind, unmatchedRows,
      List.append_nil]
  refine ⟨_, hrun, ?_⟩
  rw [ofRows_rows]
  · rw [List.length_append]
    have : join_config.left_column_index < left.schema.length := by
      by_contra hc
      rw [List.getElem?_eq_none (Nat.le_of_not_lt hc)] at hlf
      cases hlf
    omega
  · intro row hrow
    rw [List.length_append]
    exact joinRows_length _ _ _ _ _ _ (fun l hl => rectangular_row_length hwl l hl)
      (fun r hr => rectangular_row_length hwr r hr) row hrow

theorem ConcatenateTables_rectangular_list (tabs : List Table) (sch : List Field)
    (hne : tabs ≠ []) (hw : ∀ t ∈ tabs, Rectangular t ∧ t.schema = sch) :
    ∃ C, ConcatenateTables (tabs.map some) = .ok (.ok C) ∧ C.schema = sch ∧
      Rectangular C ∧ C.rows = (tabs.map Table.rows).flatten := by
  cases tabs with
  | nil => exact absurd rfl hne
  | cons first rest =>
    obtain ⟨C, h1, h2, _, h3, h4⟩ := ConcatenateTables_rectangular first rest
      (fun t ht => (hw t ht).1)
      (fun t ht => ((hw t (List.mem_cons_of_mem _ ht)).2).trans (hw first (by simp)).2.symm)
    exact ⟨C, h1, h2.trans (hw first (by simp)).2, h3, h4⟩

theorem cellHash_lt (combined_hash : List Value → Nat) (W : Nat) (hW : 0 < W)
    (cell : Option Value) : cellHash combined_hash W cell < W := by
  cases cell with
  | none => exact hW
  | some v => exact Nat.mod_lt _ hW

theorem countingUuid_fresh_of (s : State)
    (h : ∀ p ∈ s.table_map, p.1.data.head? ≠ some 'u') : FreshUuids countingUuid s := by
  refine ⟨fun i j _ hij e => ?_, fun i _ => ?_⟩
  · have := countingUuid_injective i j e
    omega
  · unfold State.find
    simp only [Option.map_eq_none', List.find?_eq_none]
    intro p hp he
    apply h p hp
    have : p.1 = countingUuid i := by simpa using he
    rw [this]
    simp [countingUuid, List.replicate_succ]

/-! ## DistributedJoinTables: the inner join over all workers -/

theorem find_ne_none_of_GetTable {s : State} {id : String} {t : Table}
    (h : GetTable s id = some t) : s.find id ≠ none := by
  intro e
  rw [GetTable_of_find_none s id e] at h
  cases h

theorem GetTable_of_find_eq {s s' : State} {id : String} (h : s'.find id = s.find id) :
    GetTable s' id = GetTable s id := by
  unfold GetTable
  rw [h]

/-- One worker of the distributed inner join: with the shuffled tables of both
sides at hand it returns OK and hands the joined table to
`PutTable(dest_id, ...)`. -/
theorem DistributedJoinTables_worker (join : JoinKernel) (combined_hash : List Value → Nat)
    (uuid : Nat → String)
    (mapOrder : List (Nat × List Array) → List (Nat × List Array))
    (tableOrder : List (Nat × String) → List (Nat × String))
    (w W : Nat) (hW : W ≠ 1) (delivered_left delivered_right : List Table) (s s1 s2 : State)
    (table_left table_right dest_id : String) (join_config : JoinConfig)
    (l r LF RF J : Table)
    (hl : GetTable s table_left = some l) (hr : GetTable s table_right = some r)
    (hsl : Shuffle combined_hash uuid mapOrder tableOrder ⟨w, W⟩ delivered_left s table_left
      [join_config.left_column_index] = .ok (Status.OK, some LF, s1))
    (hsr : Shuffle combined_hash uuid mapOrder tableOrder ⟨w, W⟩ delivered_right s1 table_right
      [join_config.right_column_index] = .ok (Status.OK, some RF, s2))
    (hj : join LF RF join_config = .ok (Status.OK, some J)) :
    DistributedJoinTables join combined_hash uuid mapOrder tableOrder ⟨w, W⟩ delivered_left
      delivered_right s table_left table_right join_config dest_id
      = .ok (Status.OK, PutTable s2 dest_id J) := by
  have hok : Status.OK.is_ok = true := rfl
  simp only [DistributedJoinTables, hW, if_false, ShuffleTwoTables, hl, hr, hsl, hok, if_true,
    hsr, callJoin, hj]
  rfl

/-- `ShuffleTwoTables` when both shuffles succeed: the two shuffled tables and
the state after the second shuffle. -/
theorem ShuffleTwoTables_ok (combined_hash : List Value → Nat) (uuid : Nat → String)
    (mapOrder : List (Nat × List Array) → List (Nat × List Array))
    (tableOrder : List (Nat × String) → List (Nat × String))
    (ctx : TwisterXContext) (delivered_left delivered_right : List Table) (s s1 s2 : State)
    (table_left table_right : String) (left_hash_columns right_hash_columns : List Nat)
    (l r LF RF : Table)
    (hl : GetTable s table_left = some l) (hr : GetTable s table_right = some r)
    (hsl : Shuffle combined_hash uuid mapOrder tableOrder ctx delivered_left s table_left
      left_hash_columns = .ok (Status.OK, some LF, s1))
    (hsr : Shuffle combined_hash uuid mapOrder tableOrder ctx delivered_right s1 table_right
      right_hash_columns = .ok (Status.OK, some RF, s2)) :
    ShuffleTwoTables combined_hash uuid mapOrder tableOrder ctx delivered_left delivered_right
      s table_left left_hash_columns table_right right_hash_columns
      = .ok (Status.OK, some LF, some RF, s2) := by
  have hok : Status.OK.is_ok = true := rfl
  simp only [ShuffleTwoTables, hl, hr, hsl, hok, if_true, hsr]

/-- C11 (amended): for `W ≥ 2` workers that hold single-chunk shards of the
two tables (one schema per side, key columns of one type), a join kernel that
computes the inner join and an exchange that delivers every inserted table
once to its target, on every worker `ShuffleTwoTables` returns OK with the two
shuffled tables, the join kernel returns OK on them with the table `out w`,
and `DistributedJoinTables` (INNER) returns OK and hands `out w` to
`PutTable(dest_id, ...)` on the state after the shuffles (so `out w` is the
table under `dest_id` when that id was free there).  The rows of the tables
`out w` over all workers are, as a multiset, the rows of the local inner join
of the concatenation of all left shards with the concatenation of all right
shards. -/
theorem DistributedJoinTables_inner_join (join : JoinKernel) (hjoin : InnerJoinKernel join)
    (combined_hash : List Value → Nat) (uuid : Nat → String)
    (mapOrder : List (Nat × List Array) → List (Nat × List Array))
    (tableOrder : List (Nat × String) → List (Nat × String))
    (hmo : ValidMapOrder mapOrder) (hto : ValidTableOrder tableOrder)
    (W : Nat) (hW : 2 ≤ W) (s : Nat → State) (L R : Nat → Table) (SL SR : List Field)
    (delivered_left delivered_right : Nat → List Table)
    (table_left table_right dest_id : String) (join_config : JoinConfig)
    (hkind : join_config.kind = JoinType.INNER)
    (hL : ∀ w, w < W →
      GetTable (s w) table_left = some (L w) ∧ SingleChunk (L w) ∧ (L w).schema = SL)
    (hR : ∀ w, w < W →
      GetTable (s w) table_right = some (R w) ∧ SingleChunk (R w) ∧ (R w).schema = SR)
    (hkey : ∃ lf rf, SL[join_config.left_column_index]? = some lf ∧
      SR[join_config.right_column_index]? = some rf ∧ lf.type = rf.type)
    (hfresh : ∀ w, w < W → FreshUuids uuid (s w))
    (hdl : AllToAllDelivers W (fun w =>
      shuffleInserts combined_hash uuid mapOrder tableOrder ⟨w, W⟩ (s w) table_left
        [join_config.left_column_index]) delivered_left)
    (hdr : AllToAllDelivers W (fun w =>
      shuffleInserts combined_hash uuid mapOrder tableOrder ⟨w, W⟩
        (shuffleState combined_hash uuid mapOrder tableOrder ⟨w, W⟩ (s w) table_left
          [join_config.left_column_index])
        table_right [join_config.right_column_index]) delivered_right) :
    ∃ (out : Nat → Table) (Lall Rall J : Table),
      (∀ w, w < W → ∃ (LF RF : Table) (s2 s' : State),
        ShuffleTwoTables combined_hash uuid mapOrder tableOrder ⟨w, W⟩ (delivered_left w)
          (delivered_right w) (s w) table_left [join_config.left_column_index] table_right
          [join_config.right_column_index] = .ok (Status.OK, some LF, some RF, s2) ∧
        join LF RF join_config = .ok (Status.OK, some (out w)) ∧
        DistributedJoinTables join combined_hash uuid mapOrder tableOrder ⟨w, W⟩
          (delivered_left w) (delivered_right w) (s w) table_left table_right join_config
          dest_id = .ok (Status.OK, s') ∧
        Registers s2 s' dest_id (out w)) ∧
      ConcatenateTables ((List.range W).map (fun w => some (L w))) = .ok (.ok Lall) ∧
      ConcatenateTables ((List.range W).map (fun w => some (R w))) = .ok (.ok Rall) ∧
      join Lall Rall join_config = .ok (Status.OK, some J) ∧
      (((List.range W).map (fun w => (out w).rows)).flatten).Perm J.rows := by
  obtain ⟨lf, rf, hlf, hrf, htype⟩ := hkey
  have hkl : join_config.left_column_index < SL.length := by
    by_contra hc
    rw [List.getElem?_eq_none (Nat.le_of_not_lt hc)] at hlf
    cases hlf
  have hkr : join_config.right_column_index < SR.length := by
    by_contra hc
    rw [List.getElem?_eq_none (Nat.le_of_not_lt hc)] at hrf
    cases hrf
  have hW0 : 0 < W := by omega
  have hW1 : W ≠ 1 := by omega
  -- the states after the left shuffle
  have hkeep : ∀ w, w < W →
      FreshUuids uuid (shuffleState combined_hash uuid mapOrder tableOrder ⟨w, W⟩ (s w)
        table_left [join_config.left_column_index]) ∧
      ∀ id', (s w).find id' ≠ none →
        (shuffleState combined_hash uuid mapOrder tableOrder ⟨w, W⟩ (s w) table_left
          [join_config.left_column_index]).find id' = (s w).find id' := by
    intro w hw
    exact shuffleState_keeps combined_hash uuid mapOrder tableOrder hmo hto ⟨w, W⟩ (s w)
      table_left _ (L w) (hL w hw).1 (hL w hw).2.1
      (by unfold Table.num_columns; rw [(hL w hw).2.2]; exact hkl) hw (hfresh w hw)
  have hR1 : ∀ w, w < W →
      GetTable (shuffleState combined_hash uuid mapOrder tableOrder ⟨w, W⟩ (s w) table_left
        [join_config.left_column_index]) table_right = some (R w) ∧
      SingleChunk (R w) ∧ (R w).schema = SR := by
    intro w hw
    refine ⟨?_, (hR w hw).2⟩
    rw [GetTable_of_find_eq ((hkeep w hw).2 table_right (find_ne_none_of_GetTable (hR w hw).1))]
    exact (hR w hw).1
  have hleft := Shuffle_colocates combined_hash uuid mapOrder tableOrder hmo hto W s L SL
    table_left join_config.left_column_index delivered_left hL hkl hfresh hdl
  have hright := Shuffle_colocates combined_hash uuid mapOrder tableOrder hmo hto W
    (fun w => shuffleState combined_hash uuid mapOrder tableOrder ⟨w, W⟩ (s w) table_left
      [join_config.left_column_index]) R SR table_right join_config.right_column_index
    delivered_right hR1 hkr (fun w hw => (hkeep w hw).1) hdr
  -- every worker
  have hworker : ∀ w, w < W → ∃ (Jw LF RF : Table) (s2 : State),
      ShuffleTwoTables combined_hash uuid mapOrder tableOrder ⟨w, W⟩ (delivered_left w)
        (delivered_right w) (s w) table_left [join_config.left_column_index] table_right
        [join_config.right_column_index] = .ok (Status.OK, some LF, some RF, s2) ∧
      join LF RF join_config = .ok (Status.OK, some Jw) ∧
      DistributedJoinTables join combined_hash uuid mapOrder tableOrder ⟨w, W⟩
        (delivered_left w) (delivered_right w) (s w) table_left table_right join_config
        dest_id = .ok (Status.OK, PutTable s2 dest_id Jw) ∧
      Jw.rows.Perm (joinRows join_config.left_column_index join_config.right_column_index
        ((((List.range W).map (fun v => (L v).rows)).flatten).filter
          (fun row => cellHash combined_hash W row[join_config.left_column_index]? == w))
        ((((List.range W).map (fun v => (R v).rows)).flatten).filter
          (fun row => cellHash combined_hash W row[join_config.right_column_index]? == w))) := by
    intro w hw
    obtain ⟨LF, hsl, hLFw, hLFs, hLFr⟩ := hleft w hw
    obtain ⟨RF, hsr, hRFw, hRFs, hRFr⟩ := hright w hw
    obtain ⟨Jw, hj, hJr⟩ := hjoin LF RF join_config hkind hLFw hRFw
      ⟨lf, rf, by rw [hLFs]; exact hlf, by rw [hRFs]; exact hrf, htype⟩
    exact ⟨Jw, LF, RF, _, ShuffleTwoTables_ok combined_hash uuid mapOrder tableOrder ⟨w, W⟩
      (delivered_left w) (delivered_right w) (s w) _ _ table_left table_right _ _ (L w) (R w)
      LF RF (hL w hw).1 (hR w hw).1 hsl hsr, hj,
      DistributedJoinTables_worker join combined_hash uuid mapOrder tableOrder w W
      hW1 (delivered_left w) (delivered_right w) (s w) _ _ table_left table_right dest_id
      join_config (L w) (R w) LF RF Jw (hL w hw).1 (hR w hw).1 hsl hsr hj,
      hJr.trans (joinRows_perm _ _ hLFr hRFr)⟩
  choose Jw LF RF s2 hshuffle hjw hrun hrows using hworker
  -- the join of the concatenations
  have hne : ∀ T : Nat → Table, (List.range W).map T ≠ [] := by
    intro T e
    have := congrArg List.length e
    simp at this
    omega
  obtain ⟨Lall, hLall, hLs, hLw, hLr⟩ := ConcatenateTables_rectangular_list
    ((List.range W).map L) SL (hne L) (by
      intro t ht
      obtain ⟨w, hw, rfl⟩ := List.mem_map.1 ht
      have hw' := List.mem_range.1 hw
      exact ⟨rectangular_of_singleChunk (hL w hw').2.1, (hL w hw').2.2⟩)
  obtain ⟨Rall, hRall, hRs, hRw, hRr⟩ := ConcatenateTables_rectangular_list
    ((List.range W).map R) SR (hne R) (by
      intro t ht
      obtain ⟨w, hw, rfl⟩ := List.mem_map.1 ht
      have hw' := List.mem_range.1 hw
      exact ⟨rectangular_of_singleChunk (hR w hw').2.1, (hR w hw').2.2⟩)
  obtain ⟨J, hJ, hJr⟩ := hjoin Lall Rall join_config hkind hLw hRw
    ⟨lf, rf, by rw [hLs]; exact hlf, by rw [hRs]; exact hrf, htype⟩
  rw [List.map_map] at hLall hRall hLr hRr
  refine ⟨fun w => if h : w < W then Jw w h else ⟨[], []⟩, Lall, Rall, J, ?_, hLall, hRall,
    hJ, ?_⟩
  · intro w hw
    refine ⟨LF w hw, RF w hw, s2 w hw, PutTable (s2 w hw) dest_id (Jw w hw), hshuffle w hw,
      ?_, ?_, ?_⟩
    · simp only [dif_pos hw]
      exact hjw w hw
    · exact hrun w hw
    · simp only [dif_pos hw]
      exact registers_of_eq _ _ _ _ rfl
  · refine List.Perm.trans ?_ hJr.symm
    rw [hLr, hRr]
    refine List.Perm.trans (flatten_map_perm (List.range W) _ _ (fun w hw => ?_))
      (joinRows_colocated join_config.left_column_index join_config.right_column_index W
        (cellHash combined_hash W) _ _ (fun l _ => cellHash_lt combined_hash W hW0 _))
    have hw' := List.mem_range.1 hw
    simp only [dif_pos hw']
    exact hrows w hw'

theorem tableIndexOrder_valid : ValidTableOrder tableIndexOrder := fun _ => List.Perm.refl _

theorem joinWorld_fresh (w : Nat) : FreshUuids countingUuid (joinWorld w) := by
  apply countingUuid_fresh_of
  intro p hp
  simp only [joinWorld, List.mem_cons, List.mem_singleton, List.not_mem_nil, or_false] at hp
  rcases hp with rfl | rfl
  · show "l".data.head? ≠ some 'u'
    decide
  · show "r".data.head? ≠ some 'u'
    decide

theorem DistributedJoinTables_inner_join_witness :
    ∃ (out : Nat → Table) (Lall Rall J : Table),
      (∀ w, w < 2 → ∃ (LF RF : Table) (s2 s' : State),
        ShuffleTwoTables sumHash countingUuid indexOrder tableIndexOrder ⟨w, 2⟩
          (joinDeliveredLeft w) (joinDeliveredRight w) (joinWorld w) "l"
          [firstColumns.left_column_index] "r" [firstColumns.right_column_index]
          = .ok (Status.OK, some LF, some RF, s2) ∧
        joinTables LF RF firstColumns = .ok (Status.OK, some (out w)) ∧
        DistributedJoinTables joinTables sumHash countingUuid indexOrder tableIndexOrder ⟨w, 2⟩
          (joinDeliveredLeft w) (joinDeliveredRight w) (joinWorld w) "l" "r" firstColumns
          "d" = .ok (Status.OK, s') ∧
        Registers s2 s' "d" (out w)) ∧
      ConcatenateTables ((List.range 2).map (fun w => some (joinLeft w))) = .ok (.ok Lall) ∧
      ConcatenateTables ((List.range 2).map (fun w => some (joinRight w))) = .ok (.ok Rall) ∧
      joinTables Lall Rall firstColumns = .ok (Status.OK, some J) ∧
      (((List.range 2).map (fun w => (out w).rows)).flatten).Perm J.rows :=
  DistributedJoinTables_inner_join joinTables joinTables_inner sumHash countingUuid indexOrder
    tableIndexOrder indexOrder_valid tableIndexOrder_valid 2 (by decide) joinWorld joinLeft
    joinRight joinLeft0.schema joinRight0.schema joinDeliveredLeft joinDeliveredRight
    "l" "r" "d" firstColumns rfl (by decide) (by decide)
    ⟨⟨"id", DataType.int64⟩, ⟨"id", DataType.int64⟩, rfl, rfl, rfl⟩
    (fun w _ => joinWorld_fresh w)
    (by unfold AllToAllDelivers; decide) (by unfold AllToAllDelivers; decide)

/-- C11 as stated fails for a shard held in more than one chunk: the local
hash partition of the shuffle reads chunk 0 only, so on worker 0 of two, whose
left shard has ten rows in two chunks (the other worker holds empty shards and
sends empty tables), the call ends in an out-of-range read and produces no
rows. -/
theorem DistributedJoinTables_two_chunks_fault :
    DistributedJoinTables joinTables sumHash countingUuid indexOrder tableIndexOrder ⟨0, 2⟩
      [noRows] [noRows] chunkedState "l" "r" firstColumns "d"
      = .error Fault.outOfRange := by
  decide

/-! ## DistributedUnion: the ids that stay behind -/

/-- C19: the ids that `HashPartition` registers inside `Shuffle` are never
removed.  On worker 0 of two, with the ten-row table `l` and the two-row table
`r` registered and the other worker sending ten even rows for each side,
`DistributedUnion` returns OK and leaves, besides `l`, `r` and the destination
`d`, the four partition ids in the registry (only the ids of the two shuffled
tables are removed); `DistributedJoinTables` with a failing join kernel
returns the error and leaves the same four ids. -/
theorem DistributedUnion_leaves_partition_ids :
    (DistributedUnion insertionOrder sumHash countingUuid indexOrder tableIndexOrder ⟨0, 2⟩
        [evenRows] [evenRows] unionState "l" "r" "d").map
      (fun result => (result.1, result.2.table_map.map Prod.fst))
      = .ok (Status.OK, ["l", "r", "u", "uu", "uuu", "uuuu", "d"]) ∧
    (DistributedJoinTables failingJoin sumHash countingUuid indexOrder tableIndexOrder ⟨0, 2⟩
        [evenRows] [evenRows] unionState "l" "r" firstColumns "d").map
      (fun result => (result.1, result.2.table_map.map Prod.fst))
      = .ok (⟨Code.ExecutionError⟩, ["l", "r", "u", "uu", "uuu", "uuuu", "d"]) ∧
    shuffleInserts sumHash countingUuid indexOrder tableIndexOrder ⟨1, 2⟩
      ⟨[("l", some evenRows), ("r", some evenRows)], 0⟩ "l" [0] = [(0, some evenRows)] := by
  decide

/-! ## DistributedJoinTables on one worker alone -/

/-- C22: with a world size of 1 and both input ids registered,
`DistributedJoinTables` is `JoinTables`: for every join kernel it returns the
same status and leaves the same state (what the kernel left in the output
pointer inserted under `dest_id`).  Nothing of the shuffle takes part: the
result does not depend on the hash, the UUID generator, the iteration orders
or what an exchange would deliver. -/
theorem DistributedJoinTables_single_worker (join : JoinKernel)
    (combined_hash : List Value → Nat) (uuid : Nat → String)
    (mapOrder : List (Nat × List Array) → List (Nat × List Array))
    (tableOrder : List (Nat × String) → List (Nat × String))
    (ctx : TwisterXContext) (delivered_left delivered_right : List Table)
    (s : State) (table_left table_right : String) (join_config : JoinConfig)
    (dest_id : String) (l r : Table)
    (hW : ctx.world_size = 1)
    (hl : GetTable s table_left = some l) (hr : GetTable s table_right = some r) :
    DistributedJoinTables join combined_hash uuid mapOrder tableOrder ctx delivered_left
        delivered_right s table_left table_right join_config dest_id
      = JoinTables join s table_left table_right join_config dest_id ∧
    JoinTables join s table_left table_right join_config dest_id
      = match join l r join_config with
        | .error e => .error e
        | .ok (status, table) => .ok (status, s.insert dest_id table) := by
  constructor
  · simp only [DistributedJoinTables, hW, if_true, hl, hr, callJoin, JoinTables]
  · simp only [JoinTables, hl, hr]

theorem DistributedJoinTables_single_worker_witness :
    DistributedJoinTables joinTables sumHash countingUuid indexOrder tableIndexOrder ⟨0, 1⟩
        [] [] (joinWorld 0) "l" "r" firstColumns "d"
      = JoinTables joinTables (joinWorld 0) "l" "r" firstColumns "d" ∧
    JoinTables joinTables (joinWorld 0) "l" "r" firstColumns "d"
      = match joinTables joinLeft0 joinRight0 firstColumns with
        | .error e => .error e
        | .ok (status, table) => .ok (status, (joinWorld 0).insert "d" table) :=
  DistributedJoinTables_single_worker joinTables sumHash countingUuid indexOrder
    tableIndexOrder ⟨0, 1⟩ [] [] (joinWorld 0) "l" "r" firstColumns "d" joinLeft0 joinRight0
    rfl (by decide) (by decide)

/-! ## Union: the divisor of the progress log -/

/-- C24: `Union` does evaluate a modulo by zero.  For two registered
single-chunk tables with compatible schemas of which the larger has between 1
and 9 rows, `print_threshold = max / 10` is 0 and the first iteration of the
insertion loop computes `row % 0`: the call does not return. -/
theorem Union_modulo_by_zero (setOrder : Table → Table → List RowAddr → List RowAddr)
    (s : State) (tl tr d : String) (ltab rtab : Table)
    (hl : GetTable s tl = some ltab) (hr : GetTable s tr = some rtab)
    (hc : SchemaCompatible ltab rtab) (hwl : SingleChunk ltab) (hwr : SingleChunk rtab)
    (h1 : 1 ≤ Nat.max ltab.num_rows rtab.num_rows)
    (h9 : Nat.max ltab.num_rows rtab.num_rows ≤ 9) :
    Nat.max ltab.num_rows rtab.num_rows / 10 = 0 ∧
    Union setOrder s tl tr d = .error Fault.moduloByZero := by
  have hn : ltab.num_columns = rtab.num_columns := schemaCompatible_length hc
  have hth : Nat.max ltab.num_rows rtab.num_rows / 10 = 0 :=
    Nat.div_eq_of_lt (Nat.lt_of_le_of_lt h9 (by decide))
  refine ⟨hth, ?_⟩
  rw [Union_of_compatible setOrder s tl tr d ltab rtab hl hr hc, hth]
  obtain ⟨n, hn1⟩ : ∃ n, Nat.max ltab.num_rows rtab.num_rows = n + 1 :=
    ⟨Nat.max ltab.num_rows rtab.num_rows - 1, by omega⟩
  rw [hn1, List.range_succ_eq_map]
  have hloop : UnionInsertLoop ltab rtab 0 (0 :: List.map Nat.succ (List.range n)) []
      = .error Fault.moduloByZero := by
    unfold UnionInsertLoop
    have hfirst : ∃ set1, (if 0 < ltab.num_rows then rowsSetInsert ltab rtab [] (0, 0)
        else .ok []) = .ok set1 := by
      by_cases h0 : 0 < ltab.num_rows
      · obtain ⟨row, hrow⟩ := singleChunk_recordRow hwl hwr hn (0, 0) (Or.inl ⟨rfl, h0⟩)
        rw [if_pos h0]
        simp only [rowsSetInsert, hrow]
        split <;> exact ⟨_, rfl⟩
      · rw [if_neg h0]
        exact ⟨_, rfl⟩
    obtain ⟨set1, hset1⟩ := hfirst
    rw [hset1]
    have hsecond : ∃ set2, (if 0 < rtab.num_rows then rowsSetInsert ltab rtab set1 (1, 0)
        else .ok set1) = .ok set2 := by
      by_cases h0 : 0 < rtab.num_rows
      · obtain ⟨row, hrow⟩ := singleChunk_recordRow hwl hwr hn (1, 0) (Or.inr ⟨rfl, h0⟩)
        rw [if_pos h0]
        simp only [rowsSetInsert, hrow]
        split <;> exact ⟨_, rfl⟩
      · rw [if_neg h0]
        exact ⟨_, rfl⟩
    obtain ⟨set2, hset2⟩ := hsecond
    simp only [hset2, if_true]
  rw [hloop]

theorem Union_modulo_by_zero_witness :
    Nat.max specLeft.num_rows specRight.num_rows / 10 = 0 ∧
    Union insertionOrder specState "l" "r" "d" = .error Fault.moduloByZero :=
  Union_modulo_by_zero insertionOrder specState "l" "r" "d" specLeft specRight
    (by decide) (by decide) (by decide) (by decide) (by decide) (by decide) (by decide)

/-! ## PutTable on an id in use -/

theorem Project_returns (s : State) (id out : String) (T : Table)
    (project_columns : List Nat) (hT : GetTable s id = some T)
    (hwf : T.columns.length = T.schema.length)
    (hvalid : ∀ col_index ∈ project_columns, col_index < T.num_columns) :
    ∃ P, Project s id project_columns out = .ok (Status.OK, PutTable s out P) := by
  obtain ⟨picked, hpicked⟩ := forEach_exists (ProjectColumn (some T)) project_columns (by
    intro col_index hmem
    have hs : col_index < T.schema.length := hvalid col_index hmem
    exact ⟨_, ProjectColumn_ok T col_index hs (hwf ▸ hs)⟩)
  exact ⟨⟨picked.map Prod.fst, picked.map Prod.snd⟩, by simp only [Project, hT, hpicked]⟩

/-- C25: `PutTable(id, table)` never replaces a binding.  When `id` is a key
of the registry, the registry after the call is the registry before it and
`GetTable(id)` returns what it returned before; so `Project` (any list of
valid columns of a registered table) writing to such an id returns OK and
leaves the registry as it was. -/
theorem PutTable_keeps_existing_binding (s : State) (id : String) (t : Table)
    (old : Option Table) (h : s.find id = some old) :
    PutTable s id t = s ∧ GetTable (PutTable s id t) id = old ∧
    ∀ (src : String) (T : Table) (project_columns : List Nat),
      GetTable s src = some T → T.columns.length = T.schema.length →
      (∀ col_index ∈ project_columns, col_index < T.num_columns) →
      Project s src project_columns id = .ok (Status.OK, s) := by
  have hput : ∀ t', PutTable s id t' = s := by
    intro t'
    unfold PutTable State.insert
    rw [h]
  refine ⟨hput t, ?_, ?_⟩
  · rw [hput t]
    unfold GetTable
    rw [h]
  · intro src T project_columns hT hwf hvalid
    obtain ⟨P, hP⟩ := Project_returns s src id T project_columns hT hwf hvalid
    rw [hP, hput P]

theorem PutTable_keeps_existing_binding_witness :
    PutTable specState "r" tenRows = specState ∧
    GetTable (PutTable specState "r" tenRows) "r" = some specRight ∧
    ∀ (src : String) (T : Table) (project_columns : List Nat),
      GetTable specState src = some T → T.columns.length = T.schema.length →
      (∀ col_index ∈ project_columns, col_index < T.num_columns) →
      Project specState src project_columns "r" = .ok (Status.OK, specState) :=
  PutTable_keeps_existing_binding specState "r" tenRows (some specRight) (by decide)

/-! ## ReadCSV of several files -/

theorem ReadCSVAllPassed_false (statuses : List (Nat × Status)) (files : List Nat) :
    ReadCSVAllPassed statuses files false = false := by
  induction files with
  | nil => rfl
  | cons kI rest ih => simp [ReadCSVAllPassed, ih]

theorem find_insert_ne_none (s : State) (id id' : String) (t : Option Table)
    (h : s.find id' ≠ none) : (s.insert id t).find id' ≠ none := by
  by_cases e : id' = id
  · subst e
    unfold State.insert
    cases hf : s.find id' with
    | none => exact absurd hf h
    | some _ => simp [hf]
  · rw [find_insert_other s id id' t e]
    exact h

theorem find_insert_self_ne_none (s : State) (id : String) (t : Option Table) :
    (s.insert id t).find id ≠ none := by
  cases hf : s.find id with
  | none => rw [find_insert_self s id t hf]; simp
  | some _ => exact find_insert_ne_none s id id t (by rw [hf]; simp)

/-- `ReadCSV` of one file returns when the table that was read has a column:
`IOError` with the state untouched for a failed read, OK with the id inserted
otherwise. -/
theorem ReadCSV_returns (read_csv : CSVReader) (s : State) (path id : String)
    (options : CSVReadOptions)
    (hcol : ∀ t, read_csv path options = some t → t.columns ≠ []) :
    ∃ status s1, ReadCSV read_csv s path id options = .ok (status, s1) ∧
      (status.is_ok = (read_csv path options).isSome) ∧
      ((read_csv path options).isSome → s1.find id ≠ none) ∧
      (∀ id', s.find id' ≠ none → s1.find id' ≠ none) := by
  unfold ReadCSV
  cases hr : read_csv path options with
  | none => exact ⟨_, _, rfl, rfl, fun h => (by cases h), fun _ h => h⟩
  | some table =>
    have hne := hcol table hr
    obtain ⟨column, hc⟩ : ∃ column, table.column 0 = .ok column := by
      unfold Table.column
      cases hcs : table.columns with
      | nil => exact absurd hcs hne
      | cons column rest => exact ⟨column, by simp⟩
    simp only [hc]
    split
    · exact ⟨_, _, rfl, rfl, fun _ => find_insert_self_ne_none _ _ _,
        fun id' h => find_insert_ne_none _ _ _ _ h⟩
    · exact ⟨_, _, rfl, rfl, fun _ => find_insert_self_ne_none _ _ _,
        fun id' h => find_insert_ne_none _ _ _ _ h⟩

theorem ReadCSVThreads_returns (read_csv : CSVReader) (paths ids : List String)
    (options : CSVReadOptions) (threads : List Nat) (s : State)
    (hcol : ∀ kI ∈ threads, ∀ t, read_csv (paths.getD kI "") options = some t →
      t.columns ≠ []) :
    ∃ statuses s1, ReadCSVThreads read_csv paths ids options threads s = .ok (statuses, s1) ∧
      (∀ id', s.find id' ≠ none → s1.find id' ≠ none) ∧
      ∀ kI ∈ threads, (read_csv (paths.getD kI "") options).isSome →
        s1.find (ids.getD kI "") ≠ none := by
  induction threads generalizing s with
  | nil => exact ⟨_, _, rfl, fun _ h => h, fun _ h => by cases h⟩
  | cons kI rest ih =>
    obtain ⟨status, s1, h1, _, hreg, hkeep⟩ := ReadCSV_returns read_csv s (paths.getD kI "")
      (ids.getD kI "") options (hcol kI (by simp))
    obtain ⟨statuses, s2, h2, hkeep2, hreg2⟩ := ih s1 (fun k hk => hcol k (by simp [hk]))
    refine ⟨(kI, status) :: statuses, s2, by simp only [ReadCSVThreads, h1, h2],
      fun id' h => hkeep2 id' (hkeep id' h),
      ?_⟩
    intro k hk hsome
    rcases List.mem_cons.1 hk with rfl | hk'
    · exact hkeep2 _ (hreg hsome)
    · exact hreg2 k hk' hsome

/-- C23: in the multi-file `ReadCSV` with concurrent file reads and as many
ids as paths, `all_passed` starts as `false` and is only ever and-ed, so it is
`false` after the loop over the futures whatever the threads returned: the
call returns `IOError` for every input (it returns as soon as every table
that is read has a column), also when every file was read and its id is in
the registry afterwards. -/
theorem ReadCSV_concurrent_always_IOError (read_csv : CSVReader)
    (threadOrder : List Nat → List Nat) (hto : ValidThreadOrder threadOrder)
    (s : State) (paths ids : List String) (options : CSVReadOptions)
    (hlen : paths.length = ids.length) (hconc : options.concurrent_file_reads = true)
    (hcol : ∀ path ∈ paths, ∀ t, read_csv path options = some t → t.columns ≠ []) :
    (∀ statuses, ReadCSVAllPassed statuses (List.range paths.length) false = false) ∧
    ∃ s1, ReadCSVs read_csv threadOrder s paths ids options = .ok (⟨Code.IOError⟩, s1) ∧
      ∀ kI, kI < paths.length → (read_csv (paths.getD kI "") options).isSome →
        s1.find (ids.getD kI "") ≠ none := by
  refine ⟨fun statuses => ReadCSVAllPassed_false statuses _, ?_⟩
  have hmem : ∀ kI, kI ∈ threadOrder (List.range paths.length) ↔ kI < paths.length := by
    intro kI
    rw [(hto _).mem_iff, List.mem_range]
  obtain ⟨statuses, s1, hrun, _, hreg⟩ := ReadCSVThreads_returns read_csv paths ids options
    (threadOrder (List.range paths.length)) s (by
      intro kI hk t ht
      have hk' := (hmem kI).1 hk
      apply hcol (paths.getD kI "") _ t ht
      rw [List.getD_eq_getElem _ _ hk']
      exact List.getElem_mem hk')
  refine ⟨s1, ?_, fun kI hk hsome => hreg kI ((hmem kI).2 hk) hsome⟩
  have hne : ¬ paths.length ≠ ids.length := fun h => h hlen
  unfold ReadCSVs
  rw [if_neg hne, if_pos hconc, hrun]
  simp only [ReadCSVAllPassed_false]
  rfl

theorem creationOrder_valid : ValidThreadOrder creationOrder := fun _ => List.Perm.refl _

theorem ReadCSV_concurrent_always_IOError_witness :
    (∀ statuses, ReadCSVAllPassed statuses (List.range ["a.csv", "b.csv"].length) false
      = false) ∧
    ∃ s1, ReadCSVs twoFiles creationOrder ⟨[], 0⟩ ["a.csv", "b.csv"] ["a", "b"] ⟨true⟩
        = .ok (⟨Code.IOError⟩, s1) ∧
      ∀ kI, kI < ["a.csv", "b.csv"].length →
        (twoFiles (["a.csv", "b.csv"].getD kI "") ⟨true⟩).isSome →
        s1.find (["a", "b"].getD kI "") ≠ none :=
  ReadCSV_concurrent_always_IOError twoFiles creationOrder creationOrder_valid ⟨[], 0⟩
    ["a.csv", "b.csv"] ["a", "b"] ⟨true⟩ rfl rfl (by decide)

/-! ## PrintToOStream -/

/-- The chunk loop finds the logical cell: with `rowCount` cells skipped so
far, the row is looked up at `row - rowCount` in the remaining chunks read as
one concatenation. -/
theorem PrintCell_spec (render : Value → String) (delimiter : Char) (col col2 row : Nat)
    (chunks : List Array) (rowCount : Nat) (v : Value) (hle : rowCount ≤ row)
    (hv : (chunks.flatten)[row - rowCount]? = some v) :
    PrintCell render delimiter col col2 row chunks rowCount
      = .ok (if col ≠ col2 - 1 then [render v, String.singleton delimiter]
          else [render v]) := by
  induction chunks generalizing rowCount with
  | nil => simp at hv
  | cons array rest ih =>
    unfold PrintCell
    rw [List.flatten_cons] at hv
    by_cases hin : rowCount ≤ row ∧ rowCount + List.length array > row
    · rw [if_pos hin]
      have hlt : row - rowCount < array.length := by omega
      rw [List.getElem?_append_left hlt] at hv
      simp only [array_to_string, hv]
    · rw [if_neg hin]
      have hge : array.length ≤ row - rowCount := by omega
      rw [List.getElem?_append_right hge] at hv
      apply ih
      · omega
      · have e : row - (rowCount + List.length array) = row - rowCount - array.length := by
          omega
        rw [e]
        exact hv

/-- The logical cell of a well-formed table, read in a column or in a row. -/
theorem rectangular_cell {t : Table} (hw : Rectangular t) (r k : Nat) (hr : r < t.num_rows)
    (hk : k < t.columns.length) :
    ∃ v, (ChunkedArray.values t.columns[k])[r]? = some v ∧
      (t.rows[r]?).bind (fun cells => cells[k]?) = some v := by
  have hne : t.columns ≠ [] := fun e => by rw [e] at hk; cases hk
  obtain ⟨hlen, _, hcols⟩ := rectangular_rows_facts hw hne
  have hr' : r < t.rows.length := hlen ▸ hr
  have h1 := congrArg (fun l => l[r]?) (hcols k hk)
  simp only [List.getElem?_map, List.getElem?_eq_getElem hr', Option.map_some'] at h1
  cases hv : (ChunkedArray.values t.columns[k])[r]? with
  | none => rw [hv] at h1; cases h1
  | some v =>
    rw [hv] at h1
    simp only [Option.map_some', Option.some.injEq] at h1
    exact ⟨v, rfl, by simp [List.getElem?_eq_getElem hr', h1]⟩

theorem pieces_intersperse (f : Nat → String) (d : String) (a n : Nat) :
    ((List.range' a n).map (fun col =>
      if col ≠ a + n - 1 then [f col, d] else [f col])).flatten
      = List.intersperse d ((List.range' a n).map f) := by
  induction n generalizing a with
  | zero => rfl
  | succ n ih =>
    rw [List.range'_succ, List.map_cons, List.map_cons, List.flatten_cons]
    have hrest : (List.range' (a + 1) n).map (fun col =>
        if col ≠ a + (n + 1) - 1 then [f col, d] else [f col])
        = (List.range' (a + 1) n).map (fun col =>
          if col ≠ a + 1 + n - 1 then [f col, d] else [f col]) := by
      have e : a + (n + 1) - 1 = a + 1 + n - 1 := by omega
      rw [e]
    rw [hrest, ih (a + 1)]
    cases n with
    | zero => simp
    | succ m =>
      have hne : a ≠ a + (m + 1 + 1) - 1 := by omega
      rw [if_pos hne, List.range'_succ, List.map_cons, List.intersperse_cons_cons]
      rfl

/-- One row of `PrintToOStream` on a well-formed table. -/
theorem PrintRow_spec (render : Value → String) (delimiter : Char) {t : Table}
    (hw : Rectangular t) (col1 col2 row : Nat) (hrow : row < t.num_rows)
    (hcols : col2 ≤ t.num_columns) :
    PrintRow render delimiter t col1 col2 row
      = .ok (printedLine render delimiter t col1 col2 row) := by
  have hcl : t.columns.length = t.num_columns := hw.1
  have hrun : forEach (PrintColumn render delimiter t col2 row)
      (List.range' col1 (col2 - col1))
      = .ok ((List.range' col1 (col2 - col1)).map (fun col =>
          if col ≠ col1 + (col2 - col1) - 1 then
            [render (((t.rows[row]?).bind (fun cells => cells[col]?)).getD Value.null),
              String.singleton delimiter]
          else [render (((t.rows[row]?).bind (fun cells => cells[col]?)).getD Value.null)])) := by
    apply forEach_of_forall
    intro col hcol
    have hcol' := List.mem_range'_1.1 hcol
    have hlt : col < t.columns.length := by omega
    obtain ⟨v, hv, hcell⟩ := rectangular_cell hw row col hrow hlt
    have e : col1 + (col2 - col1) - 1 = col2 - 1 := by omega
    simp only [PrintColumn, Table.column, List.getElem?_eq_getElem hlt, hcell, e,
      Option.getD_some]
    exact PrintCell_spec render delimiter col col2 row _ 0 v (Nat.zero_le _) hv
  simp only [PrintRow, hrun, printedLine]
  rw [pieces_intersperse (fun col =>
    render (((t.rows[row]?).bind (fun cells => cells[col]?)).getD Value.null))]

/-- C26: for a registered well-formed table in any chunking, columns up to
`col2 ≤ columns` and rows up to `row2 ≤ rows`, `PrintToOStream` without a
custom header returns OK and writes the lines of the logical rows
`row1, ..., row2 - 1`, one after the other and nothing else: `row2 - row1`
lines, each the rendered values of the columns `col1, ..., col2 - 1` of that
row with the delimiter between them and the end of line after the last.  With
a custom header whose size is not the number of columns it returns
`IndexError` and writes nothing. -/
theorem PrintToOStream_lines (render : Value → String) (s : State) (table_id : String)
    (T : Table) (col1 col2 row1 row2 : Nat) (delimiter : Char) (headers : List String)
    (hT : GetTable s table_id = some T) (hw : Rectangular T)
    (hrows : row2 ≤ T.num_rows) (hcols : col2 ≤ T.num_columns) :
    PrintToOStream render s table_id col1 col2 row1 row2 delimiter false headers
      = .ok (Status.OK, ((List.range' row1 (row2 - row1)).map
          (printedLine render delimiter T col1 col2)).flatten) ∧
    ((List.range' row1 (row2 - row1)).map (printedLine render delimiter T col1 col2)).length
      = row2 - row1 ∧
    (headers.length ≠ T.num_columns →
      PrintToOStream render s table_id col1 col2 row1 row2 delimiter true headers
        = .ok (⟨Code.IndexError⟩, [])) := by
  refine ⟨?_, by simp, ?_⟩
  · have hlines : forEach (PrintRow render delimiter T col1 col2)
        (List.range' row1 (row2 - row1))
        = .ok ((List.range' row1 (row2 - row1)).map
            (printedLine render delimiter T col1 col2)) := by
      apply forEach_of_forall
      intro row hrow
      have hrow' := List.mem_range'_1.1 hrow
      exact PrintRow_spec render delimiter hw col1 col2 row (by omega) hcols
    simp [PrintToOStream, hT, hlines]
  · intro hne
    simp [PrintToOStream, hT, hne]

theorem PrintToOStream_lines_witness :
    PrintToOStream renderValue printState "t" 0 2 1 3 ';' false ["x"]
      = .ok (Status.OK, ((List.range' 1 (3 - 1)).map
          (printedLine renderValue ';' printTable 0 2)).flatten) ∧
    ((List.range' 1 (3 - 1)).map (printedLine renderValue ';' printTable 0 2)).length
      = 3 - 1 ∧
    (["x"].length ≠ printTable.num_columns →
      PrintToOStream renderValue printState "t" 0 2 1 3 ';' true ["x"]
        = .ok (⟨Code.IndexError⟩, [])) :=
  PrintToOStream_lines renderValue printState "t" printTable 0 2 1 3 ';' ["x"] (by decide)
    (by decide) (by decide) (by decide)

/-! ## The all-to-all exchange: what has arrived when every peer is complete -/

theorem AllToAll.inv_init (W : Nat) : (AllToAll.init W).Inv := by
  refine ⟨fun s t => ⟨[], ?_⟩, fun s x hx => (by cases hx), fun t x hx => (by cases hx)⟩
  refine ⟨by simp [AllToAll.init], rfl, fun h => (by cases h), fun h => absurd rfl h⟩

theorem AllToAll.inv_insert (a : AllToAll) (peer : Nat) (batch : Table) (target : Nat)
    (h : a.Inv) : (a.insert peer batch target).Inv := by
  unfold AllToAll.insert
  by_cases hr : a.finished peer = true ∨ ¬ peer < a.world_size ∨ ¬ target < a.world_size
  · rw [if_pos hr]
    exact h
  · rw [if_neg hr]
    have hfin : ¬ a.finished peer = true := fun e => hr (Or.inl e)
    have hp : peer < a.world_size := by
      by_contra e
      exact hr (Or.inr (Or.inl e))
    have ht : target < a.world_size := by
      by_contra e
      exact hr (Or.inr (Or.inr e))
    refine ⟨fun s t => ?_, ?_, h.2.2⟩
    · obtain ⟨bs, h1, h2, h3, h4⟩ := h.1 s t
      by_cases hst : s = peer ∧ t = target
      · obtain ⟨rfl, rfl⟩ := hst
        refine ⟨bs ++ [batch], ?_, ?_, ?_, ?_⟩
        · simp [h1, hfin]
        · simp only [AllToAll.insertedFor, AllToAll.receivedFrom, if_true] at h2 ⊢
          simp [List.filter_append, h2]
        · intro hm
          exact absurd (h3 hm).2 hfin
        · intro _
          exact ⟨hp, ht⟩
      · refine ⟨bs, ?_, ?_, h3, h4⟩
        · simp only [if_neg hst]
          exact h1
        · simp only [AllToAll.insertedFor, AllToAll.receivedFrom] at h2 ⊢
          by_cases hs : s = peer
          · have htt : ¬ target = t := fun e => hst ⟨hs, e.symm⟩
            simp [hs, List.filter_append, htt]
            simpa [hs] using h2
          · simp only [if_neg hs]
            exact h2
    · intro s x hx
      by_cases hs : s = peer
      · simp only [hs, if_true, List.mem_append, List.mem_singleton] at hx
        rcases hx with hx | rfl
        · exact h.2.1 peer x hx
        · exact ht
      · simp only [if_neg hs] at hx
        exact h.2.1 s x hx

theorem AllToAll.inv_finish (a : AllToAll) (peer : Nat) (h : a.Inv) :
    (a.finish peer).Inv := by
  unfold AllToAll.finish
  by_cases hr : a.finished peer = true ∨ ¬ peer < a.world_size
  · rw [if_pos hr]
    exact h
  · rw [if_neg hr]
    have hfin : ¬ a.finished peer = true := fun e => hr (Or.inl e)
    have hp : peer < a.world_size := by
      by_contra e
      exact hr (Or.inr e)
    refine ⟨fun s t => ?_, h.2.1, h.2.2⟩
    obtain ⟨bs, h1, h2, h3, h4⟩ := h.1 s t
    by_cases hs : s = peer
    · subst hs
      have hnot : s ∉ a.fins t := fun hm => hfin (h3 hm).2
      refine ⟨bs, ?_, h2, fun hm => absurd hm hnot, h4⟩
      by_cases ht : t < a.world_size
      · simp [h1, hfin, hnot, hp, ht]
      · simp [h1, hfin, ht]
    · refine ⟨bs, ?_, h2, ?_, h4⟩
      · simp [h1, hs]
      · intro hm
        simpa [hs] using h3 hm

theorem AllToAll.inv_progress (a : AllToAll) (peer source : Nat) (h : a.Inv) :
    (a.progress peer source).Inv := by
  unfold AllToAll.progress
  obtain ⟨bs0, g1, g2, g3, g4⟩ := h.1 source peer
  cases hch : a.channel source peer with
  | nil => exact h
  | cons frame rest =>
    cases frame with
    | batch b =>
      -- the oldest batch in flight is handed to the callback
      obtain ⟨bs', rfl⟩ : ∃ bs', bs0 = b :: bs' := by
        cases bs0 with
        | nil =>
          rw [hch] at g1
          simp only [List.map_nil, List.nil_append] at g1
          split at g1 <;> simp at g1
        | cons b0 bs' =>
          rw [hch] at g1
          simp only [List.map_cons, List.cons_append, List.cons.injEq, Frame.batch.injEq] at g1
          exact ⟨bs', by rw [g1.1]⟩
      have hbound := g4 (by simp)
      rw [hch] at g1
      simp only [List.map_cons, List.cons_append, List.cons.injEq, true_and] at g1
      refine ⟨fun s t => ?_, h.2.1, ?_⟩
      · by_cases hst : s = source ∧ t = peer
        · obtain ⟨rfl, rfl⟩ := hst
          refine ⟨bs', ?_, ?_, ?_, fun _ => hbound⟩
          · simp [g1]
          · simp only [AllToAll.insertedFor, AllToAll.receivedFrom, if_true] at g2 ⊢
            simp [List.filter_append, g2]
          · intro hm
            have := (g3 hm).1
            cases this
        · obtain ⟨bs, h1, h2, h3, h4⟩ := h.1 s t
          refine ⟨bs, ?_, ?_, h3, h4⟩
          · simp only [if_neg hst]
            exact h1
          · simp only [AllToAll.insertedFor, AllToAll.receivedFrom] at h2 ⊢
            by_cases ht : t = peer
            · have hss : ¬ source = s := fun e => hst ⟨e.symm, ht⟩
              simp [ht, List.filter_append, hss]
              simpa [ht] using h2
            · simp only [if_neg ht]
              exact h2
      · intro t x hx
        by_cases ht : t = peer
        · simp only [ht, if_true, List.mem_append, List.mem_singleton] at hx
          rcases hx with hx | rfl
          · exact h.2.2 peer x hx
          · exact hbound.1
        · simp only [if_neg ht] at hx
          exact h.2.2 t x hx
    | fin =>
      -- the `FIN` is the last frame of the pair
      have hbs : bs0 = [] := by
        cases bs0 with
        | nil => rfl
        | cons b0 bs' =>
          rw [hch] at g1
          simp at g1
      subst hbs
      rw [hch] at g1
      simp only [List.map_nil, List.nil_append] at g1
      have hcond : a.finished source = true ∧ source ∉ a.fins peer ∧
          source < a.world_size ∧ peer < a.world_size := by
        by_contra hc
        rw [if_neg hc] at g1
        cases g1
      have hrest : rest = [] := by
        rw [if_pos hcond] at g1
        simpa using g1.symm
      subst hrest
      refine ⟨fun s t => ?_, h.2.1, h.2.2⟩
      by_cases hst : s = source ∧ t = peer
      · obtain ⟨rfl, rfl⟩ := hst
        refine ⟨[], ?_, g2, fun _ => ⟨rfl, hcond.1⟩, fun hne => absurd rfl hne⟩
        simp
      · obtain ⟨bs, h1, h2, h3, h4⟩ := h.1 s t
        refine ⟨bs, ?_, h2, ?_, h4⟩
        · by_cases ht : t = peer
          · have hss : ¬ s = source := fun e => hst ⟨e, ht⟩
            simp [hst, ht, hss]
            simpa [ht] using h1
          · simp [hst, ht]
            exact h1
        · intro hm
          apply h3
          by_cases ht : t = peer
          · have hss : ¬ s = source := fun e => hst ⟨e, ht⟩
            simpa [ht, hss] using hm
          · simpa [ht] using hm

theorem AllToAll.inv_run (W : Nat) (calls : List Call) : (AllToAll.run W calls).Inv := by
  unfold AllToAll.run
  have hgen : ∀ (a : AllToAll), a.Inv → (calls.foldl AllToAll.step a).Inv := by
    induction calls with
    | nil => exact fun a h => h
    | cons call rest ih =>
      intro a h
      rw [List.foldl_cons]
      apply ih
      cases call with
      | insert peer batch target => exact AllToAll.inv_insert a peer batch target h
      | finish peer => exact AllToAll.inv_finish a peer h
      | progress peer source => exact AllToAll.inv_progress a peer source h
  exact hgen _ (AllToAll.inv_init W)

theorem AllToAll.world_size_run (W : Nat) (calls : List Call) :
    (AllToAll.run W calls).world_size = W := by
  unfold AllToAll.run
  have hgen : ∀ (a : AllToAll), (calls.foldl AllToAll.step a).world_size = a.world_size := by
    induction calls with
    | nil => exact fun a => rfl
    | cons call rest ih =>
      intro a
      rw [List.foldl_cons, ih]
      cases call with
      | insert peer batch target =>
        simp only [AllToAll.step, AllToAll.insert]
        split <;> rfl
      | finish peer =>
        simp only [AllToAll.step, AllToAll.finish]
        split <;> rfl
      | progress peer source =>
        simp only [AllToAll.step, AllToAll.progress]
        split <;> rfl
  exact hgen _

theorem sum_map_add_nat {ι : Type} (l : List ι) (g h : ι → Nat) :
    (l.map (fun i => g i + h i)).sum = (l.map g).sum + (l.map h).sum := by
  induction l with
  | nil => rfl
  | cons i rest ih =>
    simp only [List.map_cons, List.sum_cons, ih]
    omega

theorem sum_map_sum_comm {ι κ : Type} (l1 : List ι) (l2 : List κ) (f : ι → κ → Nat) :
    (l1.map (fun i => (l2.map (fun j => f i j)).sum)).sum
      = (l2.map (fun j => (l1.map (fun i => f i j)).sum)).sum := by
  induction l1 with
  | nil =>
    simp only [List.map_nil, List.sum_nil]
    induction l2 with
    | nil => rfl
    | cons j rest ih => simp
  | cons i rest ih =>
    simp only [List.map_cons, List.sum_cons, ih]
    rw [sum_map_add_nat]

/-- A log whose peers are all in the group splits into the logs of the single
peers. -/
theorem length_eq_sum_filter {β : Type} (W : Nat) (l : List (Nat × β))
    (h : ∀ x ∈ l, x.1 < W) :
    l.length = ((List.range W).map (fun p => (l.filter (fun x => x.1 == p)).length)).sum := by
  have hperm := flatten_filter_range_perm (fun x : Nat × β => x.1) W l
  have hall : l.filter (fun x => decide (x.1 < W)) = l :=
    List.filter_eq_self.2 (fun x hx => by simpa using h x hx)
  rw [hall] at hperm
  have := hperm.length_eq
  rw [List.length_flatten, List.map_map] at this
  rw [← this]
  rfl

/-- When every peer is complete, the log of the receive callbacks agrees with
the log of the accepted inserts, pair by pair and in total. -/
theorem AllToAll.received_eq_logged (W : Nat) (calls : List Call)
    (hdone : ∀ p, p < W → (AllToAll.run W calls).isComplete p = true) :
    (∀ s t, s < W → t < W →
      (AllToAll.run W calls).receivedFrom t s = (AllToAll.run W calls).insertedFor s t) ∧
    ((List.range W).map (fun t => ((AllToAll.run W calls).received t).length)).sum
      = ((List.range W).map (fun s => ((AllToAll.run W calls).inserted s).length)).sum := by
  have hinv := AllToAll.inv_run W calls
  have hW := AllToAll.world_size_run W calls
  generalize AllToAll.run W calls = a at hdone hinv hW
  have hpair : ∀ s t, s < W → t < W → a.receivedFrom t s = a.insertedFor s t := by
    intro s t hs ht
    obtain ⟨bs, _, h2, h3, _⟩ := hinv.1 s t
    have hc := hdone t ht
    simp only [AllToAll.isComplete, Bool.and_eq_true, List.all_eq_true, decide_eq_true_eq,
      hW, List.mem_range] at hc
    rw [h2, (h3 (hc.2 s hs)).1, List.append_nil]
  refine ⟨hpair, ?_⟩
  have hrec : ∀ t ∈ List.range W, (a.received t).length
      = ((List.range W).map (fun s => (a.receivedFrom t s).length)).sum := by
    intro t _
    rw [length_eq_sum_filter W (a.received t) (fun x hx => hW ▸ hinv.2.2 t x hx)]
    simp [AllToAll.receivedFrom]
  have hins : ∀ s ∈ List.range W, (a.inserted s).length
      = ((List.range W).map (fun t => (a.insertedFor s t).length)).sum := by
    intro s _
    rw [length_eq_sum_filter W (a.inserted s) (fun x hx => hW ▸ hinv.2.1 s x hx)]
    simp [AllToAll.insertedFor]
  rw [List.map_congr_left hrec, List.map_congr_left hins, sum_map_sum_comm]
  congr 1
  apply List.map_congr_left
  intro s hs
  congr 1
  apply List.map_congr_left
  intro t ht
  rw [hpair s t (List.mem_range.1 hs) (List.mem_range.1 ht)]

theorem AllToAll.world_size_step (a : AllToAll) (call : Call) :
    (a.step call).world_size = a.world_size := by
  cases call with
  | insert peer batch target =>
    simp only [AllToAll.step, AllToAll.insert]
    split <;> rfl
  | finish peer =>
    simp only [AllToAll.step, AllToAll.finish]
    split <;> rfl
  | progress peer source =>
    simp only [AllToAll.step, AllToAll.progress]
    split <;> rfl

/-- Under the proper use of the exchange no insert is refused: the log of the
accepted inserts of a peer grows by exactly the insert calls on that peer. -/
theorem AllToAll.inserted_foldl (calls : List Call) (a : AllToAll) (finished : List Nat)
    (hfin : ∀ p, a.finished p = true → p ∈ finished)
    (huse : properCalls a.world_size calls finished = true) (s : Nat) :
    (calls.foldl AllToAll.step a).inserted s
      = a.inserted s ++ ((insertCalls calls).filter (fun x => x.1 == s)).map (fun x => x.2) := by
  induction calls generalizing a finished with
  | nil => simp [insertCalls]
  | cons call rest ih =>
    rw [List.foldl_cons]
    cases call with
    | insert peer batch target =>
      simp only [properCalls, Bool.and_eq_true, decide_eq_true_eq, Bool.not_eq_true',
        List.contains_eq_any_beq, List.any_eq_false, beq_iff_eq] at huse
      obtain ⟨⟨⟨hp, ht⟩, hnot⟩, hrest⟩ := huse
      have hnf : ¬ a.finished peer = true := fun e => hnot peer (hfin peer e) rfl
      have hacc : ¬ (a.finished peer = true ∨ ¬ peer < a.world_size ∨
          ¬ target < a.world_size) := by
        rintro (h | h | h)
        · exact hnf h
        · exact h hp
        · exact h ht
      have hstep : a.step (Call.insert peer batch target)
          = { a with
              channel := fun s' t =>
                if s' = peer ∧ t = target then a.channel s' t ++ [Frame.batch batch]
                else a.channel s' t
              inserted := fun s' =>
                if s' = peer then a.inserted s' ++ [(target, batch)] else a.inserted s' } := by
        simp only [AllToAll.step, AllToAll.insert, if_neg hacc]
      have hnext := ih (a.step (Call.insert peer batch target)) finished
        (by rw [hstep]; exact hfin) (by rw [hstep]; exact hrest)
      rw [hnext, hstep]
      by_cases hs : s = peer
      · subst hs
        simp [insertCalls, List.filter_cons]
      · have hs' : ¬ peer = s := fun e => hs e.symm
        simp [insertCalls, List.filter_cons, hs, hs']
    | finish peer =>
      simp only [properCalls] at huse
      have hw := AllToAll.world_size_step a (Call.finish peer)
      have hfin' : ∀ p, (a.step (Call.finish peer)).finished p = true →
          p ∈ peer :: finished := by
        intro p hpf
        simp only [AllToAll.step, AllToAll.finish] at hpf
        split at hpf
        · exact List.mem_cons_of_mem _ (hfin p hpf)
        · by_cases hpp : p = peer
          · rw [hpp]; exact List.mem_cons_self _ _
          · simp only [if_neg hpp] at hpf
            exact List.mem_cons_of_mem _ (hfin p hpf)
      have hins : (a.step (Call.finish peer)).inserted s = a.inserted s := by
        simp only [AllToAll.step, AllToAll.finish]
        split <;> rfl
      rw [ih _ (peer :: finished) hfin' (hw ▸ huse), hins]
      rfl
    | progress peer source =>
      simp only [properCalls] at huse
      have hw := AllToAll.world_size_step a (Call.progress peer source)
      have hfin' : ∀ p, (a.step (Call.progress peer source)).finished p = true →
          p ∈ finished := by
        intro p hpf
        apply hfin
        simp only [AllToAll.step, AllToAll.progress] at hpf
        split at hpf <;> exact hpf
      have hins : (a.step (Call.progress peer source)).inserted s = a.inserted s := by
        simp only [AllToAll.step, AllToAll.progress]
        split <;> rfl
      rw [ih _ finished hfin' (hw ▸ huse), hins]
      rfl

theorem properCalls_bound (W : Nat) (calls : List Call) (finished : List Nat)
    (huse : properCalls W calls finished = true) : ∀ x ∈ insertCalls calls, x.1 < W := by
  induction calls generalizing finished with
  | nil =>
    intro x hx
    cases hx
  | cons call rest ih =>
    cases call with
    | insert peer batch target =>
      simp only [properCalls, Bool.and_eq_true, decide_eq_true_eq] at huse
      intro x hx
      simp only [insertCalls, List.mem_cons] at hx
      rcases hx with rfl | hx
      · exact huse.1.1.1
      · exact ih finished huse.2 x hx
    | finish peer => exact ih (peer :: finished) huse
    | progress peer source => exact ih finished huse

/-- C21: in an exchange among `W` peers that is used as the spec allows (every
insert on a peer of the group, for a target of the group, before that peer's
`finish`), after any interleaving of the calls that leaves every peer complete
(it has finished and holds the `FIN` of every source), the receive callback of
every target `t` was given from every source `s` exactly the batches of the
insert calls on `s` for `t`, each once and in the order of the calls; nothing
was received from outside the group, and the number of delivered batches is
the number of insert calls. -/
theorem AllToAll_delivers_all (W : Nat) (calls : List Call)
    (huse : properCalls W calls [] = true)
    (hdone : ∀ p, p < W → (AllToAll.run W calls).isComplete p = true) :
    (∀ s t, s < W → t < W →
      (AllToAll.run W calls).receivedFrom t s = insertCallsFor calls s t) ∧
    (∀ t, ∀ x ∈ (AllToAll.run W calls).received t, x.1 < W) ∧
    ((List.range W).map (fun t => ((AllToAll.run W calls).received t).length)).sum
      = (insertCalls calls).length := by
  obtain ⟨hpair, hcount⟩ := AllToAll.received_eq_logged W calls hdone
  have hlog : ∀ s, (AllToAll.run W calls).inserted s
      = ((insertCalls calls).filter (fun x => x.1 == s)).map (fun x => x.2) := by
    intro s
    have := AllToAll.inserted_foldl calls (AllToAll.init W) []
      (fun p hp => by cases hp) huse s
    simpa [AllToAll.run, AllToAll.init] using this
  refine ⟨?_, ?_, ?_⟩
  · intro s t hs ht
    rw [hpair s t hs ht]
    unfold AllToAll.insertedFor insertCallsFor
    rw [hlog s, List.filter_map, List.filter_filter, List.map_map]
    congr 1
    apply List.filter_congr
    intro x _
    simp [Bool.and_comm]
  · intro t x hx
    have := (AllToAll.inv_run W calls).2.2 t x hx
    rwa [AllToAll.world_size_run W calls] at this
  · rw [hcount, length_eq_sum_filter W (insertCalls calls) (properCalls_bound W calls [] huse)]
    congr 1
    apply List.map_congr_left
    intro s _
    rw [hlog s, List.length_map]

theorem AllToAll_delivers_all_witness :
    (∀ s t, s < 2 → t < 2 →
      (AllToAll.run 2 exchangeCalls).receivedFrom t s = insertCallsFor exchangeCalls s t) ∧
    (∀ t, ∀ x ∈ (AllToAll.run 2 exchangeCalls).received t, x.1 < 2) ∧
    ((List.range 2).map (fun t => ((AllToAll.run 2 exchangeCalls).received t).length)).sum
      = (insertCalls exchangeCalls).length :=
  AllToAll_delivers_all 2 exchangeCalls (by decide) (by decide)

end twisterx
